import Mathlib

/-!
Verification of the chess rules engine (`src/chess3d/src/chess/engine.js`) and
the AI move selector (`src/chess3d/src/chess/ai.js`) of this repository.

The engine is embedded shallowly: the game state is a structure mirroring the
JS object, boards are 8x8 lists of optional pieces, coordinates are integers
(the JS code freely computes `row + direction` which may leave the board, and
all array reads through `getPiece` / optional chaining return "nothing" out of
range, which `getCell` mirrors).  JS `Math.random()` consumption is made
explicit: `makeMove` takes the value the random promotion draw would produce,
and the AI takes an indexed stream of draws.
-/

set_option maxRecDepth 10000

namespace Chess

/-- Piece colors, `COLOR` in engine.js. -/
inductive Color where
  | white
  | black
deriving DecidableEq, Repr

/-- The opposite color, the `color === WHITE ? BLACK : WHITE` idiom. -/
def Color.other : Color → Color
  | .white => .black
  | .black => .white

/-- Piece kinds, `PIECE` in engine.js. -/
inductive PieceType where
  | pawn
  | knight
  | bishop
  | rook
  | queen
  | king
deriving DecidableEq, Repr

/-- A piece: two-character strings like `'wp'` in the JS become a (color, kind) pair. -/
structure Piece where
  color : Color
  ptype : PieceType
deriving DecidableEq, Repr

/-- The board: 8 rows of 8 optional pieces, row 0 = Black's home rank. -/
abbrev Board := List (List (Option Piece))

/-- Read a cell; out-of-range coordinates give `none` (JS `getPiece` bounds
checks / optional-chaining both yield a falsy value there). -/
def getCell (b : Board) (r c : Int) : Option Piece :=
  if 0 ≤ r ∧ r < 8 ∧ 0 ≤ c ∧ c < 8 then
    (((b.get? r.toNat).getD []).get? c.toNat).join
  else none

/-- Write a cell (in-range writes only; every write the engine performs is in
range after validation). -/
def setCell (b : Board) (r c : Int) (v : Option Piece) : Board :=
  if 0 ≤ r ∧ r < 8 ∧ 0 ≤ c ∧ c < 8 then
    b.set r.toNat (((b.get? r.toNat).getD []).set c.toNat v)
  else b

/-- Castling rights of one color. -/
structure CastlingRights where
  kingSide : Bool
  queenSide : Bool
deriving DecidableEq, Repr

/-- Castle side tag stored on a move (`'K'` / `'Q'` in the JS). -/
inductive CastleSide where
  | K
  | Q
deriving DecidableEq, Repr

/-- Value of the `winner` field (`'w'`, `'b'`, `'draw'`). -/
inductive Winner where
  | white
  | black
  | draw
deriving DecidableEq, Repr

/-- Value of the `gameOverReason` field. -/
inductive EndReason where
  | checkmate
  | stalemate
deriving DecidableEq, Repr

/-- The record pushed on `moveHistory` by `makeMove` (flags included: the JS
mutates the pushed object when setting check/checkmate/stalemate, so the
history entry carries them). -/
structure MoveRecord where
  fromSq : Int × Int
  toSq : Int × Int
  piece : Piece
  captured : Option Piece
  promotion : Option PieceType
  castle : Option CastleSide
  enPassant : Bool
  check : Bool
  checkmate : Bool
  stalemate : Bool
deriving DecidableEq, Repr

/-- The game state object created by `createGame` and threaded through the engine. -/
structure Game where
  board : Board
  turn : Color
  castlingW : CastlingRights
  castlingB : CastlingRights
  enPassantTarget : Option (Int × Int)
  halfMoveClock : Nat
  fullMoveNumber : Nat
  moveHistory : List MoveRecord
  gameOver : Bool
  winner : Option Winner
  gameOverReason : Option EndReason
deriving DecidableEq, Repr

/-- `game.castling[color]`. -/
def Game.castlingOf (g : Game) : Color → CastlingRights
  | .white => g.castlingW
  | .black => g.castlingB

/-- One element of the array returned by `getPseudoLegalMoves` / `getLegalMoves`. -/
structure Move where
  toRow : Int
  toCol : Int
  capture : Bool
  promotion : Option PieceType := none
  castle : Option CastleSide := none
  doublePawn : Bool := false
  enPassant : Bool := false
deriving DecidableEq, Repr

/-- An element of `getAllLegalMoves`' result: a move tagged with its origin. -/
structure RootMove where
  fromRow : Int
  fromCol : Int
  m : Move
deriving DecidableEq, Repr

/-- Row-major list of the 64 squares, the `for r / for c` scan order. -/
def allSquares : List (Int × Int) :=
  (List.range 8).flatMap fun r => (List.range 8).map fun c => (Int.ofNat r, Int.ofNat c)

/-- The knight offset table. -/
def knightOffsets : List (Int × Int) :=
  [(-2, -1), (-2, 1), (-1, -2), (-1, 2), (1, -2), (1, 2), (2, -1), (2, 1)]

/-- The king offset table (the double loop over dr, dc skipping (0,0)). -/
def kingOffsets : List (Int × Int) :=
  [(-1, -1), (-1, 0), (-1, 1), (0, -1), (0, 1), (1, -1), (1, 0), (1, 1)]

def bishopDirs : List (Int × Int) := [(-1, -1), (-1, 1), (1, -1), (1, 1)]
def rookDirs : List (Int × Int) := [(-1, 0), (1, 0), (0, -1), (0, 1)]
def queenDirs : List (Int × Int) :=
  [(-1, -1), (-1, 1), (1, -1), (1, 1), (-1, 0), (1, 0), (0, -1), (0, 1)]

/-- Squares attacked along one ray (the `for i = 1..7` sliding loop in
`getAttacksForPiece`): squares up to and including the first occupied one. -/
def rayAttacks (b : Board) (r0 c0 dr dc : Int) : Nat → Nat → List (Int × Int)
  | _, 0 => []
  | i, fuel + 1 =>
    let nr := r0 + dr * (i : Int)
    let nc := c0 + dc * (i : Int)
    if nr < 0 ∨ nr > 7 ∨ nc < 0 ∨ nc > 7 then []
    else if (getCell b nr nc).isSome then [(nr, nc)]
    else (nr, nc) :: rayAttacks b r0 c0 dr dc (i + 1) fuel

/-- `getAttacksForPiece`: the squares a piece attacks. -/
def getAttacksForPiece (b : Board) (row col : Int) (p : Piece) : List (Int × Int) :=
  match p.ptype with
  | .pawn =>
    let dir : Int := if p.color = .white then -1 else 1
    (if col > 0 then [(row + dir, col - 1)] else []) ++
      (if col < 7 then [(row + dir, col + 1)] else [])
  | .knight =>
    knightOffsets.flatMap fun d =>
      let nr := row + d.1
      let nc := col + d.2
      if 0 ≤ nr ∧ nr < 8 ∧ 0 ≤ nc ∧ nc < 8 then [(nr, nc)] else []
  | .bishop => bishopDirs.flatMap fun d => rayAttacks b row col d.1 d.2 1 7
  | .rook => rookDirs.flatMap fun d => rayAttacks b row col d.1 d.2 1 7
  | .queen => queenDirs.flatMap fun d => rayAttacks b row col d.1 d.2 1 7
  | .king =>
    kingOffsets.flatMap fun d =>
      let nr := row + d.1
      let nc := col + d.2
      if 0 ≤ nr ∧ nr < 8 ∧ 0 ≤ nc ∧ nc < 8 then [(nr, nc)] else []

/-- Board-level `isSquareAttacked`. -/
def isSquareAttackedB (b : Board) (row col : Int) (byColor : Color) : Bool :=
  allSquares.any fun rc =>
    match getCell b rc.1 rc.2 with
    | some p =>
      p.color == byColor &&
        (getAttacksForPiece b rc.1 rc.2 p).any fun a => a.1 == row && a.2 == col
    | none => false

/-- `isSquareAttacked(game, row, col, byColor)`. -/
def isSquareAttacked (g : Game) (row col : Int) (byColor : Color) : Bool :=
  isSquareAttackedB g.board row col byColor

/-- Board-level `findKing`: first square (row-major) holding that color's king. -/
def findKingB (b : Board) (color : Color) : Option (Int × Int) :=
  allSquares.find? fun rc => getCell b rc.1 rc.2 == some ⟨color, .king⟩

/-- `findKing(game, color)`. -/
def findKing (g : Game) (color : Color) : Option (Int × Int) :=
  findKingB g.board color

/-- Board-level `isInCheck`. -/
def isInCheckB (b : Board) (color : Color) : Bool :=
  match findKingB b color with
  | none => false
  | some k => isSquareAttackedB b k.1 k.2 color.other

/-- `isInCheck(game, color)`. -/
def isInCheck (g : Game) (color : Color) : Bool :=
  isInCheckB g.board color

/-- The `addMove` closure of `getPseudoLegalMoves`: bounds-check the target,
refuse own-piece captures, and set the `capture` flag (`target ? true :
flags.enPassant || false`).  The prototype move carries the flags. -/
def addMoveL (b : Board) (color : Color) (m : Move) : List Move :=
  if m.toRow < 0 ∨ m.toRow > 7 ∨ m.toCol < 0 ∨ m.toCol > 7 then []
  else
    match getCell b m.toRow m.toCol with
    | some t => if t.color = color then [] else [{ m with capture := true }]
    | none => [{ m with capture := m.enPassant }]

/-- The four promotion choices enumerated by the pawn generator, in push order. -/
def promoOptions : List PieceType := [.queen, .rook, .bishop, .knight]

/-- The pawn `direction` local: White moves toward row 0. -/
def pawnDir (color : Color) : Int := if color = .white then -1 else 1

/-- The pawn `startRow` local. -/
def pawnStartRow (color : Color) : Int := if color = .white then 6 else 1

/-- The pawn `promotionRow` local. -/
def pawnPromoRow (color : Color) : Int := if color = .white then 0 else 7

/-- Pawn branch of `getPseudoLegalMoves`: forward (with promotion fan-out and
double step), then for each capture direction a normal/promotion capture and
the en passant candidate. -/
def pawnPseudoMoves (g : Game) (row col : Int) (color : Color) : List Move :=
  let dir := pawnDir color
  let startRow := pawnStartRow color
  let promotionRow := pawnPromoRow color
  let fwd : List Move :=
    if (getCell g.board (row + dir) col).isSome then []
    else if row + dir = promotionRow then
      promoOptions.map fun pr =>
        { toRow := row + dir, toCol := col, capture := false, promotion := some pr }
    else
      addMoveL g.board color { toRow := row + dir, toCol := col, capture := false } ++
        (if row = startRow ∧ ¬(getCell g.board (row + 2 * dir) col).isSome then
          addMoveL g.board color
            { toRow := row + 2 * dir, toCol := col, capture := false, doublePawn := true }
        else [])
  let caps : List Move :=
    ([-1, 1] : List Int).flatMap fun dc =>
      let nc := col + dc
      if nc < 0 ∨ nc > 7 then []
      else
        let capPart : List Move :=
          match getCell g.board (row + dir) nc with
          | some t =>
            if t.color = color.other then
              if row + dir = promotionRow then
                promoOptions.map fun pr =>
                  { toRow := row + dir, toCol := nc, capture := true, promotion := some pr }
              else
                addMoveL g.board color { toRow := row + dir, toCol := nc, capture := false }
            else []
          | none => []
        let epPart : List Move :=
          match g.enPassantTarget with
          | some ep =>
            if ep.1 = row + dir ∧ ep.2 = nc then
              addMoveL g.board color
                { toRow := row + dir, toCol := nc, capture := false, enPassant := true }
            else []
          | none => []
        capPart ++ epPart
  fwd ++ caps

/-- One sliding ray of pseudo-legal moves (the `for i = 1..7` loop of the
bishop/rook/queen branches): empty squares are added and the walk continues,
the first occupied square is added iff it holds an enemy piece. -/
def raySlideMoves (b : Board) (color : Color) (r0 c0 dr dc : Int) :
    Nat → Nat → List Move
  | _, 0 => []
  | i, fuel + 1 =>
    let nr := r0 + dr * (i : Int)
    let nc := c0 + dc * (i : Int)
    if nr < 0 ∨ nr > 7 ∨ nc < 0 ∨ nc > 7 then []
    else
      match getCell b nr nc with
      | some t =>
        if t.color = color.other then
          addMoveL b color { toRow := nr, toCol := nc, capture := false }
        else []
      | none =>
        addMoveL b color { toRow := nr, toCol := nc, capture := false } ++
          raySlideMoves b color r0 c0 dr dc (i + 1) fuel

/-- The castling/home `homeRow` local: row 7 for White, row 0 for Black. -/
def homeRowOf (color : Color) : Int := if color = .white then 7 else 0

/-- King branch castling candidates of `getPseudoLegalMoves` (kingside then
queenside), guarded by the home-square/not-in-check test. -/
def castleMoves (g : Game) (row col : Int) (color : Color) : List Move :=
  let enemyColor := color.other
  let homeRow := homeRowOf color
  if row = homeRow ∧ col = 4 ∧ ¬isInCheck g color then
    (if (g.castlingOf color).kingSide ∧
        ¬(getCell g.board homeRow 5).isSome ∧
        ¬(getCell g.board homeRow 6).isSome ∧
        getCell g.board homeRow 7 = some ⟨color, .rook⟩ ∧
        ¬isSquareAttacked g homeRow 5 enemyColor ∧
        ¬isSquareAttacked g homeRow 6 enemyColor then
      [{ toRow := homeRow, toCol := 6, capture := false, castle := some .K }]
    else []) ++
    (if (g.castlingOf color).queenSide ∧
        ¬(getCell g.board homeRow 1).isSome ∧
        ¬(getCell g.board homeRow 2).isSome ∧
        ¬(getCell g.board homeRow 3).isSome ∧
        getCell g.board homeRow 0 = some ⟨color, .rook⟩ ∧
        ¬isSquareAttacked g homeRow 2 enemyColor ∧
        ¬isSquareAttacked g homeRow 3 enemyColor then
      [{ toRow := homeRow, toCol := 2, capture := false, castle := some .Q }]
    else [])
  else []

/-- `getPseudoLegalMoves(game, row, col, piece)`. -/
def getPseudoLegalMoves (g : Game) (row col : Int) (p : Piece) : List Move :=
  let color := p.color
  match p.ptype with
  | .pawn => pawnPseudoMoves g row col color
  | .knight =>
    knightOffsets.flatMap fun d =>
      addMoveL g.board color { toRow := row + d.1, toCol := col + d.2, capture := false }
  | .bishop => bishopDirs.flatMap fun d => raySlideMoves g.board color row col d.1 d.2 1 7
  | .rook => rookDirs.flatMap fun d => raySlideMoves g.board color row col d.1 d.2 1 7
  | .queen => queenDirs.flatMap fun d => raySlideMoves g.board color row col d.1 d.2 1 7
  | .king =>
    (kingOffsets.flatMap fun d =>
      addMoveL g.board color { toRow := row + d.1, toCol := col + d.2, capture := false }) ++
      castleMoves g row col color

/-- `simulateMove`: hypothetically apply a move to a copy of the state (board
changes only): en passant removal, the move itself (with promotion
substitution), and the castling rook relocation. -/
def simulateMove (g : Game) (fromRow fromCol toRow toCol : Int)
    (promotion : Option PieceType) : Game :=
  match getCell g.board fromRow fromCol with
  | none =>
    -- unreached by the engine: `simulateMove` is only invoked on occupied squares
    { g with board := setCell (setCell g.board toRow toCol none) fromRow fromCol none }
  | some piece =>
    let color := piece.color
    let b1 :=
      if piece.ptype = .pawn ∧ g.enPassantTarget = some (toRow, toCol) then
        setCell g.board (if color = .white then toRow + 1 else toRow - 1) toCol none
      else g.board
    let placed : Piece := match promotion with | some pr => ⟨color, pr⟩ | none => piece
    let b2 := setCell b1 toRow toCol (some placed)
    let b3 := setCell b2 fromRow fromCol none
    let b4 :=
      if piece.ptype = .king ∧ (toCol - fromCol = 2 ∨ fromCol - toCol = 2) then
        if toCol = 6 then
          setCell (setCell b3 toRow 5 (getCell b3 toRow 7)) toRow 7 none
        else if toCol = 2 then
          setCell (setCell b3 toRow 3 (getCell b3 toRow 0)) toRow 0 none
        else b3
      else b3
    { g with board := b4 }

/-- `getLegalMoves(game, row, col)`: pseudo-legal moves filtered by the
simulate-and-test-own-check legality filter.  This models the executions in
which the plain-indexing origin read `game.board[row][col]` evaluates (every
engine-internal call passes an in-range `row`): an out-of-range `col` reads
`undefined` off the end of the row and yields `[]` as in the JS, while for an
out-of-range `row` the JS itself throws — see `getLegalMovesTotal`. -/
def getLegalMoves (g : Game) (row col : Int) : List Move :=
  match getCell g.board row col with
  | none => []
  | some p =>
    if p.color ≠ g.turn then []
    else
      (getPseudoLegalMoves g row col p).filter fun m =>
        !isInCheck (simulateMove g row col m.toRow m.toCol m.promotion) p.color

/-- `getLegalMoves` as called with untrusted coordinates: the origin square is
read with plain indexing (`game.board[row][col]`), so when `row` is off the
board `game.board[row]` is `undefined` and the member read throws a
`TypeError` — modeled as `none` — rather than returning `[]`; otherwise the
call returns normally. -/
def getLegalMovesTotal (g : Game) (row col : Int) : Option (List Move) :=
  if 0 ≤ row ∧ row < 8 then some (getLegalMoves g row col) else none

/-- `getAllLegalMoves(game)`: every legal move of the side to move, tagged
with its origin square, in row-major scan order. -/
def getAllLegalMoves (g : Game) : List RootMove :=
  allSquares.flatMap fun rc =>
    match getCell g.board rc.1 rc.2 with
    | some p =>
      if p.color = g.turn then
        (getLegalMoves g rc.1 rc.2).map fun m => ⟨rc.1, rc.2, m⟩
      else []
    | none => []

/-- Result of `makeMove`: `{ game, valid }` plus the move record on success. -/
structure MakeMoveResult where
  game : Game
  valid : Bool
  move : Option MoveRecord
deriving DecidableEq, Repr

/-- The random promotion draw `options[Math.floor(Math.random() * 4)]`:
the value of the floor is passed in explicitly as a `Fin 4`. -/
def randomPromo : Fin 4 → PieceType
  | 0 => .queen
  | 1 => .rook
  | 2 => .bishop
  | 3 => .knight

/-- `Winner` value for a color. -/
def colorWinner : Color → Winner
  | .white => .white
  | .black => .black

/-- The promotion piece `makeMove` actually uses: the override when supplied,
else the random officer draw — and only when the matched move is a promotion. -/
def promotionChoice (mv : Move) (promotionOverride : Option PieceType) (rnd : Fin 4) :
    Option PieceType :=
  match mv.promotion with
  | some _ =>
    match promotionOverride with
    | some p => some p
    | none => some (randomPromo rnd)
  | none => none

/-- The board mutation performed by `makeMove`: en passant removal, the move
itself (with promotion substitution), and the castling rook relocation. -/
def applyMoveBoard (g : Game) (fromRow fromCol toRow toCol : Int) (piece : Piece)
    (mv : Move) (promotion : Option PieceType) : Board :=
  let color := piece.color
  let enPassantCapture : Bool :=
    piece.ptype == .pawn && g.enPassantTarget == some (toRow, toCol)
  let b1 :=
    if enPassantCapture then
      setCell g.board (if color = .white then toRow + 1 else toRow - 1) toCol none
    else g.board
  let placed : Piece := match promotion with | some pr => ⟨color, pr⟩ | none => piece
  let b2 := setCell b1 toRow toCol (some placed)
  let b3 := setCell b2 fromRow fromCol none
  match mv.castle with
  | some .K => setCell (setCell b3 toRow 5 (getCell b3 toRow 7)) toRow 7 none
  | some .Q => setCell (setCell b3 toRow 3 (getCell b3 toRow 0)) toRow 0 none
  | none => b3

/-- The castling-rights update for the moving side (king moved, or rook moved
from a home corner). -/
def updateOwnCastling (cr : CastlingRights) (piece : Piece)
    (fromRow fromCol homeRow : Int) : CastlingRights :=
  let c1 := if piece.ptype = .king then ⟨false, false⟩ else cr
  let c2 :=
    if piece.ptype = .rook ∧ fromRow = homeRow ∧ fromCol = 0 then
      { c1 with queenSide := false }
    else c1
  if piece.ptype = .rook ∧ fromRow = homeRow ∧ fromCol = 7 then
    { c2 with kingSide := false }
  else c2

/-- The castling-rights update for the opponent (rook captured on its home
corner). -/
def updateEnemyCastling (cr : CastlingRights) (toRow toCol enemyHomeRow : Int) :
    CastlingRights :=
  let c1 := if toRow = enemyHomeRow ∧ toCol = 0 then { cr with queenSide := false } else cr
  if toRow = enemyHomeRow ∧ toCol = 7 then { c1 with kingSide := false } else c1

/-- The state `makeMove` builds before appending the move record and the
game-over bookkeeping: board mutated, castling rights updated, en passant
target set, turn switched, full-move counter advanced. -/
def moveTarget (g : Game) (fromRow fromCol toRow toCol : Int) (piece : Piece) (mv : Move)
    (promotion : Option PieceType) : Game :=
  let color := piece.color
  let enemyColor := color.other
  let ownCr := updateOwnCastling (g.castlingOf color) piece fromRow fromCol (homeRowOf color)
  let enCr :=
    updateEnemyCastling (g.castlingOf enemyColor) toRow toCol (homeRowOf enemyColor)
  { g with
    board := applyMoveBoard g fromRow fromCol toRow toCol piece mv promotion
    castlingW := if color = .white then ownCr else enCr
    castlingB := if color = .black then ownCr else enCr
    enPassantTarget :=
      if mv.doublePawn then
        some (if color = .white then fromRow - 1 else fromRow + 1, fromCol)
      else none
    turn := enemyColor
    fullMoveNumber := if color = .black then g.fullMoveNumber + 1 else g.fullMoveNumber }

/-- `makeMove(game, fromRow, fromCol, toRow, toCol, promotionOverride)`,
modeling the executions in which the plain-indexing origin read
`game.board[fromRow][fromCol]` evaluates: an in-range `fromRow` (for an
out-of-range one the JS throws instead of rejecting — see `makeMoveTotal`);
an out-of-range `fromCol` reads `undefined` off the end of the row and is
rejected by the `!piece` guard, as in the JS.  `rnd` is the value
`Math.floor(Math.random() * 4)` would produce for the random-promotion branch
(consulted only when the matched move is a promotion and no override is
supplied). -/
def makeMove (g : Game) (fromRow fromCol toRow toCol : Int)
    (promotionOverride : Option PieceType) (rnd : Fin 4) : MakeMoveResult :=
  match getCell g.board fromRow fromCol with
  | none => ⟨g, false, none⟩
  | some piece =>
    let color := piece.color
    let legalMoves := getLegalMoves g fromRow fromCol
    match legalMoves.find? fun m => m.toRow == toRow && m.toCol == toCol with
    | none => ⟨g, false, none⟩
    | some mv =>
      let enemyColor := color.other
      let promotion := promotionChoice mv promotionOverride rnd
      let capturedPiece := getCell g.board toRow toCol
      let enPassantCapture : Bool :=
        piece.ptype == .pawn && g.enPassantTarget == some (toRow, toCol)
      let g1 := moveTarget g fromRow fromCol toRow toCol piece mv promotion
      let inCheck := isInCheck g1 enemyColor
      let hasLegalMoves := (getAllLegalMoves g1).length > 0
      let record : MoveRecord :=
        { fromSq := (fromRow, fromCol)
          toSq := (toRow, toCol)
          piece := piece
          captured :=
            match capturedPiece with
            | some cp => some cp
            | none => if enPassantCapture then some ⟨enemyColor, .pawn⟩ else none
          promotion := promotion
          castle := mv.castle
          enPassant := enPassantCapture
          check := inCheck && hasLegalMoves
          checkmate := inCheck && !hasLegalMoves
          stalemate := !inCheck && !hasLegalMoves }
      ⟨{ g1 with
          moveHistory := g.moveHistory ++ [record]
          gameOver :=
            if record.checkmate then true
            else if record.stalemate then true
            else g.gameOver
          winner :=
            if record.checkmate then some (colorWinner color)
            else if record.stalemate then some .draw
            else g.winner
          gameOverReason :=
            if record.checkmate then some .checkmate
            else if record.stalemate then some .stalemate
            else g.gameOverReason },
        true, some record⟩

/-- `makeMove` as called with untrusted coordinates: the origin square is
read with plain indexing (`game.board[fromRow][fromCol]`), so when `fromRow`
is off the board `game.board[fromRow]` is `undefined` and the member read
throws a `TypeError` — modeled as `none` — instead of returning
`{valid: false}`; otherwise the call returns normally. -/
def makeMoveTotal (g : Game) (fromRow fromCol toRow toCol : Int)
    (promotionOverride : Option PieceType) (rnd : Fin 4) : Option MakeMoveResult :=
  if 0 ≤ fromRow ∧ fromRow < 8 then
    some (makeMove g fromRow fromCol toRow toCol promotionOverride rnd)
  else none

/-- The initial board of `createGame`. -/
def INITIAL_BOARD : Board :=
  [ [some ⟨.black, .rook⟩, some ⟨.black, .knight⟩, some ⟨.black, .bishop⟩,
     some ⟨.black, .queen⟩, some ⟨.black, .king⟩, some ⟨.black, .bishop⟩,
     some ⟨.black, .knight⟩, some ⟨.black, .rook⟩],
    [some ⟨.black, .pawn⟩, some ⟨.black, .pawn⟩, some ⟨.black, .pawn⟩,
     some ⟨.black, .pawn⟩, some ⟨.black, .pawn⟩, some ⟨.black, .pawn⟩,
     some ⟨.black, .pawn⟩, some ⟨.black, .pawn⟩],
    [none, none, none, none, none, none, none, none],
    [none, none, none, none, none, none, none, none],
    [none, none, none, none, none, none, none, none],
    [none, none, none, none, none, none, none, none],
    [some ⟨.white, .pawn⟩, some ⟨.white, .pawn⟩, some ⟨.white, .pawn⟩,
     some ⟨.white, .pawn⟩, some ⟨.white, .pawn⟩, some ⟨.white, .pawn⟩,
     some ⟨.white, .pawn⟩, some ⟨.white, .pawn⟩],
    [some ⟨.white, .rook⟩, some ⟨.white, .knight⟩, some ⟨.white, .bishop⟩,
     some ⟨.white, .queen⟩, some ⟨.white, .king⟩, some ⟨.white, .bishop⟩,
     some ⟨.white, .knight⟩, some ⟨.white, .rook⟩] ]

/-- `createGame()`. -/
def createGame : Game :=
  { board := INITIAL_BOARD
    turn := .white
    castlingW := ⟨true, true⟩
    castlingB := ⟨true, true⟩
    enPassantTarget := none
    halfMoveClock := 0
    fullMoveNumber := 1
    moveHistory := []
    gameOver := false
    winner := none
    gameOverReason := none }

/-! ### The AI module (`ai.js`) -/

/-- `PIECE_VALUES`. -/
def PIECE_VALUES : PieceType → Int
  | .pawn => 100
  | .knight => 320
  | .bishop => 330
  | .rook => 500
  | .queen => 900
  | .king => 20000

/-- `PST`: the piece-square tables, from White's perspective. -/
def PST : PieceType → List (List Int)
  | .pawn =>
    [[0, 0, 0, 0, 0, 0, 0, 0],
     [50, 50, 50, 50, 50, 50, 50, 50],
     [10, 10, 20, 30, 30, 20, 10, 10],
     [5, 5, 10, 25, 25, 10, 5, 5],
     [0, 0, 0, 20, 20, 0, 0, 0],
     [5, -5, -10, 0, 0, -10, -5, 5],
     [5, 10, 10, -20, -20, 10, 10, 5],
     [0, 0, 0, 0, 0, 0, 0, 0]]
  | .knight =>
    [[-50, -40, -30, -30, -30, -30, -40, -50],
     [-40, -20, 0, 0, 0, 0, -20, -40],
     [-30, 0, 10, 15, 15, 10, 0, -30],
     [-30, 5, 15, 20, 20, 15, 5, -30],
     [-30, 0, 15, 20, 20, 15, 0, -30],
     [-30, 5, 10, 15, 15, 10, 5, -30],
     [-40, -20, 0, 5, 5, 0, -20, -40],
     [-50, -40, -30, -30, -30, -30, -40, -50]]
  | .bishop =>
    [[-20, -10, -10, -10, -10, -10, -10, -20],
     [-10, 0, 0, 0, 0, 0, 0, -10],
     [-10, 0, 5, 10, 10, 5, 0, -10],
     [-10, 5, 5, 10, 10, 5, 5, -10],
     [-10, 0, 10, 10, 10, 10, 0, -10],
     [-10, 10, 10, 10, 10, 10, 10, -10],
     [-10, 5, 0, 0, 0, 0, 5, -10],
     [-20, -10, -10, -10, -10, -10, -10, -20]]
  | .rook =>
    [[0, 0, 0, 0, 0, 0, 0, 0],
     [5, 10, 10, 10, 10, 10, 10, 5],
     [-5, 0, 0, 0, 0, 0, 0, -5],
     [-5, 0, 0, 0, 0, 0, 0, -5],
     [-5, 0, 0, 0, 0, 0, 0, -5],
     [-5, 0, 0, 0, 0, 0, 0, -5],
     [-5, 0, 0, 0, 0, 0, 0, -5],
     [0, 0, 0, 5, 5, 0, 0, 0]]
  | .queen =>
    [[-20, -10, -10, -5, -5, -10, -10, -20],
     [-10, 0, 0, 0, 0, 0, 0, -10],
     [-10, 0, 5, 5, 5, 5, 0, -10],
     [-5, 0, 5, 5, 5, 5, 0, -5],
     [0, 0, 5, 5, 5, 5, 0, -5],
     [-10, 5, 5, 5, 5, 5, 0, -10],
     [-10, 0, 5, 0, 0, 0, 0, -10],
     [-20, -10, -10, -5, -5, -10, -10, -20]]
  | .king =>
    [[-30, -40, -40, -50, -50, -40, -40, -30],
     [-30, -40, -40, -50, -50, -40, -40, -30],
     [-30, -40, -40, -50, -50, -40, -40, -30],
     [-30, -40, -40, -50, -50, -40, -40, -30],
     [-20, -30, -30, -40, -40, -30, -30, -20],
     [-10, -20, -20, -20, -20, -20, -20, -10],
     [20, 20, 0, 0, 0, 0, 20, 20],
     [20, 30, 10, 0, 0, 10, 30, 20]]

/-- The lookup `PST[type]?.[pstRow]?.[col] || 0`. -/
def pstAt (t : PieceType) (r c : Int) : Int :=
  if 0 ≤ r ∧ r < 8 ∧ 0 ≤ c ∧ c < 8 then
    (((PST t).getD r.toNat []).getD c.toNat 0)
  else 0

/-- The signed contribution of one square to `evaluate`. -/
def squareScore (b : Board) (rc : Int × Int) : Int :=
  match getCell b rc.1 rc.2 with
  | none => 0
  | some p =>
    let mult : Int := if p.color = .white then 1 else -1
    let pstRow := if p.color = .white then rc.1 else 7 - rc.1
    mult * PIECE_VALUES p.ptype + mult * pstAt p.ptype pstRow rc.2

/-- `evaluate(game)`: material + piece-square scan, then the check bonuses. -/
def evaluate (g : Game) : Int :=
  let base := allSquares.foldl (fun score rc => score + squareScore g.board rc) 0
  let base := if isInCheck g .black then base + 50 else base
  if isInCheck g .white then base - 50 else base

/-- Sentinel standing in for JS `Infinity`: strictly larger than every value
the search can produce (|evaluate| is bounded by 64 * 20050 + 100 and the
mate scores by 100005, see `evaluate_lt_INF`). -/
def INF : Int := 1000000000

/-- A stream of `Math.floor(Math.random() * 4)` draws, indexed by how many
have been consumed so far. -/
abbrev RndStream := Nat → Fin 4

/-- A `makeMove(game, ...)` call from the AI (no promotion override): consumes
one draw from the stream exactly when the matched move is a promotion, and
returns the next stream index. -/
def makeMoveAI (rng : RndStream) (idx : Nat) (g : Game) (fromRow fromCol toRow toCol : Int) :
    MakeMoveResult × Nat :=
  match getCell g.board fromRow fromCol with
  | none => (⟨g, false, none⟩, idx)
  | some _ =>
    match (getLegalMoves g fromRow fromCol).find? fun m =>
        m.toRow == toRow && m.toCol == toCol with
    | none => (⟨g, false, none⟩, idx)
    | some mv =>
      if mv.promotion.isSome then
        (makeMove g fromRow fromCol toRow toCol none (rng idx), idx + 1)
      else (makeMove g fromRow fromCol toRow toCol none 0, idx)

/-- The move-ordering sort `moves.sort((a, b) => scoreB - scoreA)` with
`score = capture ? 10 : 0`: `Array.prototype.sort` is stable, so this is
exactly "captures first, original order preserved within each group". -/
def sortMoves (ms : List RootMove) : List RootMove :=
  ms.filter (fun m => m.m.capture) ++ ms.filter (fun m => !m.m.capture)

/-- The maximizing for-loop of `minimax`, with alpha update and beta cutoff;
`child` is the depth-decremented recursive call. -/
def mmMax (rng : RndStream) (child : Game → Int → Int → Bool → Nat → Int × Nat)
    (g : Game) (ms : List RootMove) (maxEval alpha beta : Int) (idx : Nat) : Int × Nat :=
  match ms with
  | [] => (maxEval, idx)
  | mv :: rest =>
    let r := makeMoveAI rng idx g mv.fromRow mv.fromCol mv.m.toRow mv.m.toCol
    if !r.1.valid then mmMax rng child g rest maxEval alpha beta r.2
    else
      let s := child r.1.game alpha beta false r.2
      let maxEval1 := max maxEval s.1
      let alpha1 := max alpha s.1
      if beta ≤ alpha1 then (maxEval1, s.2)
      else mmMax rng child g rest maxEval1 alpha1 beta s.2

/-- The minimizing for-loop of `minimax`, with beta update and alpha cutoff;
`child` is the depth-decremented recursive call. -/
def mmMin (rng : RndStream) (child : Game → Int → Int → Bool → Nat → Int × Nat)
    (g : Game) (ms : List RootMove) (minEval alpha beta : Int) (idx : Nat) : Int × Nat :=
  match ms with
  | [] => (minEval, idx)
  | mv :: rest =>
    let r := makeMoveAI rng idx g mv.fromRow mv.fromCol mv.m.toRow mv.m.toCol
    if !r.1.valid then mmMin rng child g rest minEval alpha beta r.2
    else
      let s := child r.1.game alpha beta true r.2
      let minEval1 := min minEval s.1
      let beta1 := min beta s.1
      if beta1 ≤ alpha then (minEval1, s.2)
      else mmMin rng child g rest minEval1 alpha beta1 s.2

/-- `minimax(game, depth, alpha, beta, maximizing)`, with the random stream
index threaded through (promotions inside the tree consume draws). -/
def minimaxF (rng : RndStream) (depth : Nat) (g : Game) (alpha beta : Int)
    (maximizing : Bool) (idx : Nat) : Int × Nat :=
  match depth with
  | 0 => (evaluate g, idx)
  | d + 1 =>
    if g.gameOver then (evaluate g, idx)
    else
      let moves := getAllLegalMoves g
      if moves.length = 0 then
        if isInCheck g g.turn then
          (if maximizing then -100000 + (5 - ((d : Int) + 1)) else 100000 - (5 - ((d : Int) + 1)),
            idx)
        else (0, idx)
      else
        let sorted := sortMoves moves
        if maximizing then mmMax rng (minimaxF rng d) g sorted (-INF) alpha beta idx
        else mmMin rng (minimaxF rng d) g sorted INF alpha beta idx

/-- The root loop of `getHardMove`: strict improvement, so ties keep the
first-encountered move. -/
def hardLoop (rng : RndStream) (g : Game) (maximizing : Bool) :
    List RootMove → Nat → Option RootMove → Int → Option RootMove
  | [], _, best, _ => best
  | mv :: rest, idx, best, bestScore =>
    let r := makeMoveAI rng idx g mv.fromRow mv.fromCol mv.m.toRow mv.m.toCol
    if !r.1.valid then hardLoop rng g maximizing rest r.2 best bestScore
    else
      let s := minimaxF rng 3 r.1.game (-INF) INF (!maximizing) r.2
      if (if maximizing then s.1 > bestScore else s.1 < bestScore) then
        hardLoop rng g maximizing rest s.2 (some mv) s.1
      else hardLoop rng g maximizing rest s.2 best bestScore

/-- `getHardMove(game)`: fixed depth 4, root choice by strict improvement over
the moves in `getAllLegalMoves` order. -/
def getHardMove (rng : RndStream) (g : Game) : Option RootMove :=
  let moves := getAllLegalMoves g
  if moves.length = 0 then none
  else
    let maximizing := g.turn == .white
    hardLoop rng g maximizing moves 0 none (if maximizing then -INF else INF)

/-- The scored list the root loop of `getHardMove` walks: each legal root
move paired with its depth-3 minimax score, with the random-stream index
threaded exactly as the loop threads it (invalid results skipped). -/
def rootScores (rng : RndStream) (g : Game) (maximizing : Bool) :
    List RootMove → Nat → List (RootMove × Int)
  | [], _ => []
  | mv :: rest, idx =>
    let r := makeMoveAI rng idx g mv.fromRow mv.fromCol mv.m.toRow mv.m.toCol
    if !r.1.valid then rootScores rng g maximizing rest r.2
    else
      let s := minimaxF rng 3 r.1.game (-INF) INF (!maximizing) r.2
      (mv, s.1) :: rootScores rng g maximizing rest s.2

/-- The pure root-choice loop over an already-scored list: strict improvement
over the running best, so ties keep the earlier move. -/
def loopPick (maximizing : Bool) : List (RootMove × Int) → Option RootMove → Int →
    Option RootMove
  | [], best, _ => best
  | (mv, sc) :: rest, best, bestScore =>
    if (if maximizing then sc > bestScore else sc < bestScore) then
      loopPick maximizing rest (some mv) sc
    else loopPick maximizing rest best bestScore

/-- Modelled from the spec: the optimum of the evaluated root scores (maximum
for White to move, minimum for Black). -/
def bestOf (maximizing : Bool) (l : List (RootMove × Int)) : Int :=
  (l.map Prod.snd).foldl (fun a sc => if maximizing then max a sc else min a sc)
    (if maximizing then -INF else INF)

/-- Modelled from the spec: "the root chooses, among moves evaluated at
depth-1, the one maximizing the evaluation if White-to-move else minimizing —
ties broken by first-encountered-in-iteration-order": the first scored move
attaining the optimum. -/
def pickBestFirst (maximizing : Bool) (l : List (RootMove × Int)) : Option RootMove :=
  (l.find? fun p => p.2 == bestOf maximizing l).map Prod.fst

/-! ### Chaos mode (`ai.js`)

Flavor-comment strings are presentation data; a comment is modelled as its
category together with the picked index into that category's array (the array
lengths below match `CHAOS_COMMENTS`).  All `Math.random()` draws are taken
from one explicit stream `q` of rationals (the intended range of each draw is
`[0,1)`), threaded by index in JS evaluation order. -/

/-- The comment categories of `CHAOS_COMMENTS`. -/
inductive CommentCat where
  | good
  | bad
  | neutral
  | chaos
  | winning
  | cheating
deriving DecidableEq, Repr

/-- Number of strings in each `CHAOS_COMMENTS` category. -/
def commentCount : CommentCat → Nat
  | .good => 5
  | .bad => 8
  | .neutral => 5
  | .chaos => 6
  | .winning => 5
  | .cheating => 5

/-- `Math.floor(x * n)` as an array index. -/
def randIndex (x : ℚ) (n : Nat) : Nat :=
  (x * n).floor.toNat

/-- `getComment(category)`: one draw picks the index. -/
def getComment (x : ℚ) (cat : CommentCat) : CommentCat × Nat :=
  (cat, randIndex x (commentCount cat))

/-- The module-level `chaosState` object (`comments` is initialized empty and
never appended to by the code). -/
structure ChaosState where
  turnCount : Nat
  winTurn : Nat
  rulesCorruption : ℚ
  comments : List (CommentCat × Nat)
deriving DecidableEq, Repr

/-- `initChaosMode()`: `winTurn = Math.floor(Math.random() * 50) + 1`, the
floor value being passed in as a `Fin 50`. -/
def initChaosMode (r : Fin 50) : ChaosState :=
  { turnCount := 0, winTurn := (r : Nat) + 1, rulesCorruption := 0, comments := [] }

/-- What `getChaosMove` inspects on the caller-supplied `playerMove`. -/
structure PlayerMoveInfo where
  capture : Bool
  check : Bool
deriving DecidableEq, Repr

/-- The response object built by `getChaosMove`. -/
structure ChaosResponse where
  move : Option RootMove
  comment : Option (CommentCat × Nat)
  botWins : Bool
  cheat : Bool
deriving DecidableEq, Repr

/-- A stream of `Math.random()` values for chaos mode. -/
abbrev QStream := Nat → ℚ

/-- The comment-on-player-move step of `getChaosMove` (good on capture/check,
else weighted random among bad/chaos/neutral), returning the comment and the
next stream index. -/
def chaosPlayerComment (q : QStream) (idx : Nat) (pm : Option PlayerMoveInfo) :
    Option (CommentCat × Nat) × Nat :=
  match pm with
  | none => (none, idx)
  | some pm =>
    if pm.capture || pm.check then (some (getComment (q idx) .good), idx + 1)
    else if q idx < 3 / 10 then (some (getComment (q (idx + 1)) .bad), idx + 2)
    else if q (idx + 1) < 1 / 5 then (some (getComment (q (idx + 2)) .chaos), idx + 3)
    else (some (getComment (q (idx + 2)) .neutral), idx + 3)

/-- The high-corruption chatter step of `getChaosMove`: above corruption 0.5,
with probability `corruption * 0.5` the comment may be replaced by a chaos
one. -/
def chaosCorruptChatter (q : QStream) (idx : Nat) (corruption : ℚ)
    (comment : Option (CommentCat × Nat)) : Option (CommentCat × Nat) × Nat :=
  if 1 / 2 < corruption then
    if q idx < corruption * (1 / 2) then
      if q (idx + 1) < 3 / 10 then (some (getComment (q (idx + 2)) .chaos), idx + 3)
      else (comment, idx + 2)
    else (comment, idx + 1)
  else (comment, idx)

/-- A placeholder move for the (unreachable) out-of-range array read. -/
def defaultRootMove : RootMove := ⟨0, 0, { toRow := 0, toCol := 0, capture := false }⟩

/-- The move-pick step of `getChaosMove`: above corruption 0.3, with
probability 0.4 restrict to captures when any exist; otherwise a uniform
random pick over all legal moves. -/
def chaosPickMove (q : QStream) (idx : Nat) (corruption : ℚ) (moves : List RootMove) :
    RootMove × Nat :=
  if 3 / 10 < corruption then
    if q idx < 2 / 5 then
      let captures := moves.filter fun m => m.m.capture
      if 0 < captures.length then
        (captures.getD (randIndex (q (idx + 1)) captures.length) defaultRootMove, idx + 2)
      else (moves.getD (randIndex (q (idx + 1)) moves.length) defaultRootMove, idx + 2)
    else (moves.getD (randIndex (q (idx + 1)) moves.length) defaultRootMove, idx + 2)
  else (moves.getD (randIndex (q idx) moves.length) defaultRootMove, idx + 1)

/-- `getChaosMove(game, playerMove)`: increments the turn counter, updates the
corruption level, declares victory once the counter reaches the win turn, and
otherwise comments and picks a move.  Returns the response, the updated module
state, and the next stream index. -/
def getChaosMove (q : QStream) (idx : Nat) (g : Game) (playerMove : Option PlayerMoveInfo)
    (st : ChaosState) : ChaosResponse × ChaosState × Nat :=
  let st2 : ChaosState :=
    { st with
      turnCount := st.turnCount + 1
      rulesCorruption := min 1 (((st.turnCount + 1 : Nat) : ℚ) / 30) }
  if st2.winTurn ≤ st2.turnCount then
    ({ move := none, comment := some (getComment (q idx) .winning),
       botWins := true, cheat := false }, st2, idx + 1)
  else
    let s1 := chaosPlayerComment q idx playerMove
    let moves := getAllLegalMoves g
    if moves.length = 0 then
      ({ move := none, comment := some (getComment (q s1.2) .chaos),
         botWins := false, cheat := false }, st2, s1.2 + 1)
    else
      let s2 := chaosCorruptChatter q s1.2 st2.rulesCorruption s1.1
      let p := chaosPickMove q s2.2 st2.rulesCorruption moves
      ({ move := some p.1, comment := s2.1, botWins := false, cheat := false }, st2, p.2)

/-- The chaos-mode module state across one game: state and stream index after
`k` selector invocations (the `k`-th invocation reads the `k`-th game /
player-move inputs). -/
def chaosRun (q : QStream) (gs : Nat → Game) (pms : Nat → Option PlayerMoveInfo)
    (init : ChaosState) : Nat → ChaosState × Nat
  | 0 => (init, 0)
  | k + 1 =>
    let p := chaosRun q gs pms init k
    let r := getChaosMove q p.2 (gs k) (pms k) p.1
    (r.2.1, r.2.2)

/-- Whether the `k`-th invocation (`k ≥ 1`) signals the unconditional
bot-victory response. -/
def chaosSignal (q : QStream) (gs : Nat → Game) (pms : Nat → Option PlayerMoveInfo)
    (init : ChaosState) : Nat → Bool
  | 0 => false
  | k + 1 =>
    (getChaosMove q (chaosRun q gs pms init k).2 (gs k) (pms k)
      (chaosRun q gs pms init k).1).1.botWins

/-- Number of kings of a color on the board. -/
def kingCount (b : Board) (c : Color) : Nat :=
  (b.map fun row => row.countP fun cell => cell == some ⟨c, .king⟩).sum

/-- A position with a White pawn on b7 about to promote (White king e1, Black
king h8): used to exercise `makeMove`'s unvalidated promotion override. -/
def promoGame : Game :=
  { createGame with
    board :=
      [ [none, none, none, none, none, none, none, some ⟨.black, .king⟩],
        [none, some ⟨.white, .pawn⟩, none, none, none, none, none, none],
        [none, none, none, none, none, none, none, none],
        [none, none, none, none, none, none, none, none],
        [none, none, none, none, none, none, none, none],
        [none, none, none, none, none, none, none, none],
        [none, none, none, none, none, none, none, none],
        [none, none, none, none, some ⟨.white, .king⟩, none, none, none] ] }

/-- Castling test position: White Ke1/Rh1 with f1 and g1 empty and full
rights, Black Rf8 attacking f1 and Black Ka8; e1 and g1 are unattacked. -/
def c5game : Game :=
  { createGame with
    board :=
      [ [some ⟨.black, .king⟩, none, none, none, none, some ⟨.black, .rook⟩, none, none],
        [none, none, none, none, none, none, none, none],
        [none, none, none, none, none, none, none, none],
        [none, none, none, none, none, none, none, none],
        [none, none, none, none, none, none, none, none],
        [none, none, none, none, none, none, none, none],
        [none, none, none, none, none, none, none, none],
        [none, none, none, none, some ⟨.white, .king⟩, none, none, some ⟨.white, .rook⟩] ] }

/-- Castle-ready position: as `c5game` but with no Black rook, so kingside
castling is generated. -/
def c5ok : Game :=
  { createGame with
    board :=
      [ [some ⟨.black, .king⟩, none, none, none, none, none, none, none],
        [none, none, none, none, none, none, none, none],
        [none, none, none, none, none, none, none, none],
        [none, none, none, none, none, none, none, none],
        [none, none, none, none, none, none, none, none],
        [none, none, none, none, none, none, none, none],
        [none, none, none, none, none, none, none, none],
        [none, none, none, none, some ⟨.white, .king⟩, none, none, some ⟨.white, .rook⟩] ] }

/-- En passant test position: White has just double-stepped e2-e4 landing
beside the Black pawn on d4, so `enPassantTarget` is e3 = (5,4) and Black is
to move. -/
def epGame : Game :=
  { createGame with
    board :=
      [ [some ⟨.black, .king⟩, none, none, none, none, none, none, none],
        [none, none, none, none, none, none, none, none],
        [none, none, none, none, none, none, none, none],
        [none, none, none, none, none, none, none, none],
        [none, none, none, some ⟨.black, .pawn⟩, some ⟨.white, .pawn⟩, none, none, none],
        [none, none, none, none, none, none, none, none],
        [none, none, none, none, none, none, none, none],
        [none, none, none, none, none, none, none, some ⟨.white, .king⟩] ]
    turn := .black
    enPassantTarget := some (5, 4) }

/-- Fool's mate, ply by ply: 1. f3 e5 2. g4 Qh4#. -/
def foolsMate1 : Game := (makeMove createGame 6 5 5 5 none 0).game
def foolsMate2 : Game := (makeMove foolsMate1 1 4 3 4 none 0).game
def foolsMate3 : Game := (makeMove foolsMate2 6 6 4 6 none 0).game
def foolsMate4 : Game := (makeMove foolsMate3 0 3 4 7 none 0).game

/-- The static evaluation exactly as claim C7 words it: material plus
piece-square sum, plus a flat adjustment applied if and only if the side NOT
to move is currently in check (signed to reward the side to move, who is
threatening the opponent). -/
def evaluateClaimC7 (g : Game) : Int :=
  (allSquares.map (squareScore g.board)).sum +
    (if isInCheck g g.turn.other then (if g.turn = .white then 50 else -50) else 0)

/-- The static evaluation as the code actually computes it, written as a
closed-form sum: material plus piece-square sum, plus 50 when Black is in
check, minus 50 when White is in check — each applied regardless of which
side is to move. -/
def evaluateAmendedC7 (g : Game) : Int :=
  (allSquares.map (squareScore g.board)).sum +
    (if isInCheck g .black then 50 else 0) - (if isInCheck g .white then 50 else 0)

/-- Evaluation counterexample position: White to move and in check from the
Black rook on e8; Black (the side not to move) is not in check. -/
def c7game : Game :=
  { createGame with
    board :=
      [ [none, none, none, none, some ⟨.black, .rook⟩, none, none, none],
        [none, none, none, none, none, none, none, none],
        [none, none, none, none, none, none, none, none],
        [none, none, none, none, none, none, none, none],
        [none, none, none, none, none, none, none, none],
        [none, none, none, none, none, none, none, none],
        [none, none, none, none, none, none, none, none],
        [none, none, none, none, some ⟨.white, .king⟩, none, none, none] ] }

/-- Search counterexample position: `gameOver` is already set (so the search
collapses to one-ply evaluation), White has a pawn on a7 about to promote and
a pawn on b5 able to capture the Black rook on c6. -/
def c8game : Game :=
  { createGame with
    board :=
      [ [none, none, none, none, none, none, none, some ⟨.black, .king⟩],
        [some ⟨.white, .pawn⟩, none, none, none, none, none, none, none],
        [none, none, some ⟨.black, .rook⟩, none, none, none, none, none],
        [none, some ⟨.white, .pawn⟩, none, none, none, none, none, none],
        [none, none, none, none, none, none, none, none],
        [none, none, none, none, none, none, none, none],
        [none, none, none, none, none, none, none, none],
        [none, none, none, none, none, none, none, some ⟨.white, .king⟩] ]
    gameOver := true }

/-! ### Board lemmas -/

/-- A structurally well-formed board: 8 rows of 8 cells (every board the JS
engine ever builds has this shape). -/
def boardWf (b : Board) : Prop :=
  b.length = 8 ∧ ∀ row ∈ b, row.length = 8

instance (b : Board) : Decidable (boardWf b) := by
  unfold boardWf; infer_instance

/-! ### Reachability (C4) -/

/-- Game states reachable from `createGame` by validated `makeMove` calls,
with the caller free to pass any `promotionOverride` (the API validates the
coordinates but not the override). -/
inductive Reachable : Game → Prop where
  | init : Reachable createGame
  | step {g : Game} (fr fc tr tc : Int) (ov : Option PieceType) (rnd : Fin 4)
      (hg : Reachable g) (hv : (makeMove g fr fc tr tc ov rnd).valid = true) :
      Reachable (makeMove g fr fc tr tc ov rnd).game

/-- Reachability when the caller never passes the king code as the promotion
override (in particular: no override at all, or any of the four officers the
random promotion also draws from). -/
inductive ReachableSafe : Game → Prop where
  | init : ReachableSafe createGame
  | step {g : Game} (fr fc tr tc : Int) (ov : Option PieceType) (rnd : Fin 4)
      (hg : ReachableSafe g) (hov : ov ≠ some PieceType.king)
      (hv : (makeMove g fr fc tr tc ov rnd).valid = true) :
      ReachableSafe (makeMove g fr fc tr tc ov rnd).game

/-- The en passant bookkeeping invariant `makeMove` maintains: a set target
lies on the rank the enemy pawn skipped, with that pawn one square behind it. -/
def epOk (g : Game) : Prop :=
  ∀ r c : Int, g.enPassantTarget = some (r, c) →
    r = (if g.turn = .white then 2 else 5) ∧
    getCell g.board (if g.turn = .white then 3 else 4) c = some ⟨g.turn.other, .pawn⟩

/-- The inductive invariant of validated play: well-formed board, exactly one
king of each color, the side that just moved is not in check, and the en
passant target is consistent. -/
def Inv (g : Game) : Prop :=
  boardWf g.board ∧
  kingCount g.board .white = 1 ∧ kingCount g.board .black = 1 ∧
  isInCheck g g.turn.other = false ∧
  epOk g

/-- 1. a4 -/
def c4g1 : Game := (makeMove createGame 6 0 4 0 none 0).game
/-- 1... b5 -/
def c4g2 : Game := (makeMove c4g1 1 1 3 1 none 0).game
/-- 2. axb5 -/
def c4g3 : Game := (makeMove c4g2 4 0 3 1 none 0).game
/-- 2... a6 -/
def c4g4 : Game := (makeMove c4g3 1 0 2 0 none 0).game
/-- 3. bxa6 -/
def c4g5 : Game := (makeMove c4g4 3 1 2 0 none 0).game
/-- 3... Nc6 -/
def c4g6 : Game := (makeMove c4g5 0 1 2 2 none 0).game
/-- 4. a7 -/
def c4g7 : Game := (makeMove c4g6 2 0 1 0 none 0).game
/-- 4... Rb8 -/
def c4g8 : Game := (makeMove c4g7 0 0 0 1 none 0).game
/-- 5. axb8, promoting with the unvalidated override set to the king code. -/
def c4g9 : Game := (makeMove c4g8 1 0 0 1 (some PieceType.king) 0).game

theorem setCell_boardWf {b : Board} (hwf : boardWf b) (r c : Int) (v : Option Piece) :
    boardWf (setCell b r c v) := by
  unfold setCell
  by_cases hin : 0 ≤ r ∧ r < 8 ∧ 0 ≤ c ∧ c < 8
  · rw [if_pos hin]
    refine ⟨by simpa using hwf.1, ?_⟩
    intro row hrow
    rcases List.mem_or_eq_of_mem_set hrow with h | h
    · exact hwf.2 row h
    · subst h
      rcases h' : (b.get? r.toNat) with _ | row0
      · have := List.get?_eq_none.mp h'
        rw [hwf.1] at this
        omega
      · simpa using hwf.2 row0 (List.get?_mem h')
  · rw [if_neg hin]; exact hwf

theorem rowlen_of_boardWf {b : Board} (hwf : boardWf b) (n : Nat) :
    ((b.get? n).getD []).length = 8 ∨ b.get? n = none := by
  rcases h' : b.get? n with _ | row
  · exact Or.inr rfl
  · exact Or.inl (by simpa using hwf.2 row (List.get?_mem h'))

theorem getCell_setCell_self {b : Board} (hwf : boardWf b) {r c : Int} (v : Option Piece)
    (hr : 0 ≤ r ∧ r < 8) (hc : 0 ≤ c ∧ c < 8) :
    getCell (setCell b r c v) r c = v := by
  have hrb : r.toNat < b.length := by rw [hwf.1]; omega
  have hcond : 0 ≤ r ∧ r < 8 ∧ 0 ≤ c ∧ c < 8 := ⟨hr.1, hr.2, hc⟩
  unfold setCell getCell
  rw [if_pos hcond, if_pos hcond, List.get?_set_eq_of_lt _ hrb]
  have hrowlen : ((b.get? r.toNat).getD []).length = 8 := by
    rcases rowlen_of_boardWf hwf r.toNat with h | h
    · exact h
    · exact absurd (List.get?_eq_none.mp h) (by omega)
  simp only [Option.getD_some]
  rw [List.get?_set_eq_of_lt _ (by rw [hrowlen]; omega)]
  rfl

theorem getCell_setCell_other {b : Board} (hwf : boardWf b) {r c r' c' : Int}
    (v : Option Piece) (h : ¬(r = r' ∧ c = c')) :
    getCell (setCell b r c v) r' c' = getCell b r' c' := by
  unfold setCell getCell
  by_cases hin : 0 ≤ r ∧ r < 8 ∧ 0 ≤ c ∧ c < 8
  · rw [if_pos hin]
    by_cases hin' : 0 ≤ r' ∧ r' < 8 ∧ 0 ≤ c' ∧ c' < 8
    · rw [if_pos hin', if_pos hin']
      by_cases hrr : r.toNat = r'.toNat
      · have hreq : r = r' := by omega
        have hcc : c.toNat ≠ c'.toNat := by
          intro hceq
          exact h ⟨hreq, by omega⟩
        rw [← hreq, List.get?_set_eq_of_lt _ (by rw [hwf.1]; omega)]
        simp only [Option.getD_some]
        rw [List.get?_set_ne _ _ hcc]
      · rw [List.get?_set_ne _ _ hrr]
    · rw [if_neg hin', if_neg hin']
  · rw [if_neg hin]

theorem getCell_none_of_out {b : Board} {r c : Int}
    (h : ¬(0 ≤ r ∧ r < 8 ∧ 0 ≤ c ∧ c < 8)) : getCell b r c = none := by
  unfold getCell
  rw [if_neg h]

theorem getCell_bounds {b : Board} {r c : Int} {p : Piece}
    (h : getCell b r c = some p) : 0 ≤ r ∧ r < 8 ∧ 0 ≤ c ∧ c < 8 := by
  by_contra hout
  rw [getCell_none_of_out hout] at h
  exact Option.noConfusion h

/-! ### Shape lemmas about the move generator -/

/-- The opposite color is never the color itself. -/
theorem Color.other_ne (c : Color) : c.other ≠ c := by
  cases c <;> simp [Color.other]

/-- Every move produced by the `addMove` helper is its prototype with only the
`capture` flag recomputed, its target is in range, and its target never holds
a piece of the mover's own color. -/
theorem mem_addMoveL {b : Board} {color : Color} {proto m : Move}
    (h : m ∈ addMoveL b color proto) :
    (m = { proto with capture := true } ∨ m = { proto with capture := proto.enPassant }) ∧
    (0 ≤ m.toRow ∧ m.toRow < 8 ∧ 0 ≤ m.toCol ∧ m.toCol < 8) ∧
    (∀ t, getCell b m.toRow m.toCol = some t → t.color ≠ color) := by
  unfold addMoveL at h
  by_cases hb : proto.toRow < 0 ∨ proto.toRow > 7 ∨ proto.toCol < 0 ∨ proto.toCol > 7
  · rw [if_pos hb] at h
    exact absurd h (List.not_mem_nil m)
  · rw [if_neg hb] at h
    push_neg at hb
    rcases hcell : getCell b proto.toRow proto.toCol with _ | t
    · simp only [hcell, List.mem_singleton] at h
      subst h
      refine ⟨Or.inr rfl, by simp; omega, ?_⟩
      intro t ht
      rw [hcell] at ht
      exact absurd ht (by simp)
    · simp only [hcell] at h
      by_cases hown : t.color = color
      · rw [if_pos hown] at h
        exact absurd h (List.not_mem_nil m)
      · rw [if_neg hown] at h
        simp only [List.mem_singleton] at h
        subst h
        refine ⟨Or.inl rfl, by simp; omega, ?_⟩
        intro t' ht'
        rw [hcell] at ht'
        intro hc
        injection ht' with h'
        exact hown (h' ▸ hc)

/-- All fields except `capture` survive `addMove` unchanged. -/
theorem addMoveL_fields {b : Board} {color : Color} {proto m : Move}
    (h : m ∈ addMoveL b color proto) :
    m.toRow = proto.toRow ∧ m.toCol = proto.toCol ∧ m.promotion = proto.promotion ∧
    m.castle = proto.castle ∧ m.doublePawn = proto.doublePawn ∧
    m.enPassant = proto.enPassant := by
  rcases (mem_addMoveL h).1 with h' | h' <;> subst h' <;>
    exact ⟨rfl, rfl, rfl, rfl, rfl, rfl⟩

/-- Shape of every pawn pseudo-legal move: never a castle, forward rows as
dictated by the direction, double-step facts, promotions drawn from the four
officer choices on the promotion rank, never onto an own piece, straight
destinations always empty, and any sideways destination lies in the pawn's
attack set. -/
theorem pawnPseudo_shape {g : Game} {row col : Int} {color : Color} {m : Move}
    (hm : m ∈ pawnPseudoMoves g row col color) :
    m.castle = none ∧
    (m.doublePawn = false → m.toRow = row + pawnDir color) ∧
    (m.doublePawn = true → row = pawnStartRow color ∧ m.toRow = row + 2 * pawnDir color ∧
      m.toCol = col ∧ m.promotion = none ∧ getCell g.board m.toRow m.toCol = none) ∧
    (m.toCol = col ∨ ((m.toCol = col - 1 ∨ m.toCol = col + 1) ∧ 0 ≤ m.toCol ∧ m.toCol < 8)) ∧
    (∀ pr, m.promotion = some pr → pr ∈ promoOptions ∧ m.toRow = pawnPromoRow color) ∧
    (∀ t, getCell g.board m.toRow m.toCol = some t → t.color ≠ color) ∧
    (m.toCol ≠ col → (m.toRow, m.toCol) ∈ getAttacksForPiece g.board row col ⟨color, .pawn⟩) ∧
    (m.toCol = col → getCell g.board m.toRow m.toCol = none) ∧
    ((0 ≤ m.toRow ∧ m.toRow < 8) ∨ m.toRow = pawnPromoRow color) := by
  have hatt : ∀ nc : Int, nc = col - 1 ∨ nc = col + 1 → 0 ≤ nc → nc < 8 →
      ((row + pawnDir color, nc) ∈ getAttacksForPiece g.board row col ⟨color, .pawn⟩) := by
    intro nc hnc h0 h8
    unfold getAttacksForPiece pawnDir
    simp only [List.mem_append]
    rcases hnc with h | h
    · left
      rw [if_pos (by omega)]
      simp [h]
    · right
      rw [if_pos (by omega)]
      simp [h]
  simp only [pawnPseudoMoves] at hm
  rcases List.mem_append.mp hm with h | h
  · -- forward block
    by_cases hempty : (getCell g.board (row + pawnDir color) col).isSome = true
    · rw [if_pos hempty] at h
      exact absurd h (List.not_mem_nil m)
    · rw [if_neg hempty] at h
      have hemp : getCell g.board (row + pawnDir color) col = none :=
        Option.not_isSome_iff_eq_none.mp hempty
      by_cases hpromo : row + pawnDir color = pawnPromoRow color
      · rw [if_pos hpromo] at h
        obtain ⟨pr, hpr, rfl⟩ := List.mem_map.mp h
        refine ⟨rfl, fun _ => rfl, fun hd => absurd hd (by simp), Or.inl rfl, ?_, ?_, ?_, ?_,
          Or.inr hpromo⟩
        · intro pr' hpr'
          cases hpr'
          exact ⟨hpr, hpromo⟩
        · intro t ht
          have ht' : getCell g.board (row + pawnDir color) col = some t := ht
          rw [hemp] at ht'
          exact Option.noConfusion ht'
        · intro hc
          exact absurd rfl hc
        · intro _
          exact hemp
      · rw [if_neg hpromo] at h
        rcases List.mem_append.mp h with h | h
        · -- single forward step
          obtain ⟨h1, h2, h3, h4, h5, h6⟩ := addMoveL_fields h
          have h1' : m.toRow = row + pawnDir color := h1
          have h2' : m.toCol = col := h2
          have h3' : m.promotion = none := h3
          have h5' : m.doublePawn = false := h5
          refine ⟨h4, fun _ => h1', fun hd => ?_, Or.inl h2', fun pr hpr => ?_, ?_, ?_, ?_,
            Or.inl ⟨(mem_addMoveL h).2.1.1, (mem_addMoveL h).2.1.2.1⟩⟩
          · rw [h5'] at hd; exact absurd hd (by simp)
          · rw [h3'] at hpr; exact absurd hpr (by simp)
          · exact (mem_addMoveL h).2.2
          · intro hc; rw [h2'] at hc; exact absurd rfl hc
          · intro _; rw [h1', h2']; exact hemp
        · -- double step
          by_cases hstart :
              row = pawnStartRow color ∧
                ¬(getCell g.board (row + 2 * pawnDir color) col).isSome = true
          · rw [if_pos hstart] at h
            obtain ⟨h1, h2, h3, h4, h5, h6⟩ := addMoveL_fields h
            have h1' : m.toRow = row + 2 * pawnDir color := h1
            have h2' : m.toCol = col := h2
            have h3' : m.promotion = none := h3
            have h5' : m.doublePawn = true := h5
            have hemp2 : getCell g.board (row + 2 * pawnDir color) col = none :=
              Option.not_isSome_iff_eq_none.mp hstart.2
            refine ⟨h4, fun hd => ?_, fun _ => ⟨hstart.1, h1', h2', h3', ?_⟩,
              Or.inl h2', fun pr hpr => ?_, ?_, ?_, ?_,
              Or.inl ⟨(mem_addMoveL h).2.1.1, (mem_addMoveL h).2.1.2.1⟩⟩
            · rw [h5'] at hd; exact absurd hd (by simp)
            · rw [h1', h2']; exact hemp2
            · rw [h3'] at hpr; exact absurd hpr (by simp)
            · exact (mem_addMoveL h).2.2
            · intro hc; rw [h2'] at hc; exact absurd rfl hc
            · intro _; rw [h1', h2']; exact hemp2
          · rw [if_neg hstart] at h
            exact absurd h (List.not_mem_nil m)
  · -- captures block
    obtain ⟨dc, hdc, h⟩ := List.mem_flatMap.mp h
    have hdc' : dc = -1 ∨ dc = 1 := by simpa using hdc
    by_cases hncb : col + dc < 0 ∨ col + dc > 7
    · rw [if_pos hncb] at h
      exact absurd h (List.not_mem_nil m)
    · rw [if_neg hncb] at h
      push_neg at hncb
      rcases List.mem_append.mp h with h | h
      · -- normal or promotion capture
        rcases hcell : getCell g.board (row + pawnDir color) (col + dc) with _ | t
        · simp only [hcell] at h
          exact absurd h (List.not_mem_nil m)
        · simp only [hcell] at h
          by_cases henemy : t.color = color.other
          · rw [if_pos henemy] at h
            by_cases hpromo : row + pawnDir color = pawnPromoRow color
            · rw [if_pos hpromo] at h
              obtain ⟨pr, hpr, rfl⟩ := List.mem_map.mp h
              refine ⟨rfl, fun _ => rfl, fun hd => absurd hd (by simp), ?_, ?_, ?_, ?_, ?_,
                Or.inr hpromo⟩
              · right
                show (col + dc = col - 1 ∨ col + dc = col + 1) ∧ 0 ≤ col + dc ∧ col + dc < 8
                rcases hdc' with rfl | rfl <;> omega
              · intro pr' hpr'
                cases hpr'
                exact ⟨hpr, hpromo⟩
              · intro t' ht'
                have heq : some t = some t' := by rw [← hcell]; exact ht'
                injection heq with heq'
                rw [← heq', henemy]
                exact Color.other_ne color
              · intro _
                exact hatt (col + dc) (by rcases hdc' with rfl | rfl <;> omega)
                  (by omega) (by omega)
              · intro hc
                have hc' : col + dc = col := hc
                rcases hdc' with rfl | rfl <;> omega
            · rw [if_neg hpromo] at h
              obtain ⟨h1, h2, h3, h4, h5, h6⟩ := addMoveL_fields h
              have h1' : m.toRow = row + pawnDir color := h1
              have h2' : m.toCol = col + dc := h2
              have h3' : m.promotion = none := h3
              have h5' : m.doublePawn = false := h5
              refine ⟨h4, fun _ => h1', fun hd => ?_, ?_, fun pr hpr => ?_, ?_, ?_, ?_,
                Or.inl ⟨(mem_addMoveL h).2.1.1, (mem_addMoveL h).2.1.2.1⟩⟩
              · rw [h5'] at hd; exact absurd hd (by simp)
              · right
                rcases hdc' with rfl | rfl <;> omega
              · rw [h3'] at hpr; exact absurd hpr (by simp)
              · exact (mem_addMoveL h).2.2
              · intro _
                rw [h1', h2']
                exact hatt (col + dc) (by rcases hdc' with rfl | rfl <;> omega)
                  (by omega) (by omega)
              · intro hc
                rw [h2'] at hc
                rcases hdc' with rfl | rfl <;> omega
          · rw [if_neg henemy] at h
            exact absurd h (List.not_mem_nil m)
      · -- en passant candidate
        rcases hep : g.enPassantTarget with _ | ep
        · simp only [hep] at h
          exact absurd h (List.not_mem_nil m)
        · simp only [hep] at h
          by_cases heq : ep.1 = row + pawnDir color ∧ ep.2 = col + dc
          · rw [if_pos heq] at h
            obtain ⟨h1, h2, h3, h4, h5, h6⟩ := addMoveL_fields h
            have h1' : m.toRow = row + pawnDir color := h1
            have h2' : m.toCol = col + dc := h2
            have h3' : m.promotion = none := h3
            have h5' : m.doublePawn = false := h5
            refine ⟨h4, fun _ => h1', fun hd => ?_, ?_, fun pr hpr => ?_, ?_, ?_, ?_,
              Or.inl ⟨(mem_addMoveL h).2.1.1, (mem_addMoveL h).2.1.2.1⟩⟩
            · rw [h5'] at hd; exact absurd hd (by simp)
            · right
              rcases hdc' with rfl | rfl <;> omega
            · rw [h3'] at hpr; exact absurd hpr (by simp)
            · exact (mem_addMoveL h).2.2
            · intro _
              rw [h1', h2']
              exact hatt (col + dc) (by rcases hdc' with rfl | rfl <;> omega)
                (by omega) (by omega)
            · intro hc
              rw [h2'] at hc
              rcases hdc' with rfl | rfl <;> omega
          · rw [if_neg heq] at h
            exact absurd h (List.not_mem_nil m)

/-- Shape of every sliding-ray pseudo-legal move: a plain move along the ray,
inside the board, covered by the ray's attack squares, and never onto an own
piece. -/
theorem raySlideMoves_shape {b : Board} {color : Color} {r0 c0 dr dc : Int} {m : Move} :
    ∀ {fuel i : Nat}, m ∈ raySlideMoves b color r0 c0 dr dc i fuel → 1 ≤ i →
    m.promotion = none ∧ m.castle = none ∧ m.doublePawn = false ∧
    (0 ≤ m.toRow ∧ m.toRow < 8 ∧ 0 ≤ m.toCol ∧ m.toCol < 8) ∧
    (∃ j : Nat, 1 ≤ j ∧ m.toRow = r0 + dr * j ∧ m.toCol = c0 + dc * j) ∧
    (m.toRow, m.toCol) ∈ rayAttacks b r0 c0 dr dc i fuel ∧
    (∀ t, getCell b m.toRow m.toCol = some t → t.color ≠ color) := by
  intro fuel
  induction fuel with
  | zero =>
    intro i h _
    exact absurd h (List.not_mem_nil m)
  | succ fuel ih =>
    intro i h hi
    rw [raySlideMoves] at h
    by_cases hb : r0 + dr * (i : Int) < 0 ∨ r0 + dr * (i : Int) > 7 ∨
        c0 + dc * (i : Int) < 0 ∨ c0 + dc * (i : Int) > 7
    · rw [if_pos hb] at h
      exact absurd h (List.not_mem_nil m)
    · rw [if_neg hb] at h
      push_neg at hb
      rcases hcell : getCell b (r0 + dr * (i : Int)) (c0 + dc * (i : Int)) with _ | t
      · simp only [hcell] at h
        rcases List.mem_append.mp h with h | h
        · obtain ⟨h1, h2, h3, h4, h5, h6⟩ := addMoveL_fields h
          have h1' : m.toRow = r0 + dr * (i : Int) := h1
          have h2' : m.toCol = c0 + dc * (i : Int) := h2
          refine ⟨h3, h4, h5, by omega, ⟨i, hi, h1', h2'⟩, ?_, (mem_addMoveL h).2.2⟩
          rw [rayAttacks, if_neg (by omega)]
          rw [show (getCell b (r0 + dr * (i : Int)) (c0 + dc * (i : Int))).isSome = false by
            rw [hcell]; rfl]
          simp [h1', h2']
        · obtain ⟨p1, p2, p3, p4, p5, p6, p7⟩ := ih h (by omega)
          refine ⟨p1, p2, p3, p4, ?_, ?_, p7⟩
          · obtain ⟨j, hj, hr, hc⟩ := p5
            exact ⟨j, by omega, hr, hc⟩
          · rw [rayAttacks, if_neg (by omega)]
            rw [show (getCell b (r0 + dr * (i : Int)) (c0 + dc * (i : Int))).isSome = false by
              rw [hcell]; rfl]
            simp only [Bool.false_eq_true, if_false, List.mem_cons]
            exact Or.inr p6
      · simp only [hcell] at h
        by_cases henemy : t.color = color.other
        · rw [if_pos henemy] at h
          obtain ⟨h1, h2, h3, h4, h5, h6⟩ := addMoveL_fields h
          have h1' : m.toRow = r0 + dr * (i : Int) := h1
          have h2' : m.toCol = c0 + dc * (i : Int) := h2
          refine ⟨h3, h4, h5, by omega, ⟨i, hi, h1', h2'⟩, ?_, (mem_addMoveL h).2.2⟩
          rw [rayAttacks, if_neg (by omega)]
          rw [show (getCell b (r0 + dr * (i : Int)) (c0 + dc * (i : Int))).isSome = true by
            rw [hcell]; rfl]
          simp [h1', h2']
        · rw [if_neg henemy] at h
          exact absurd h (List.not_mem_nil m)

/-- Shape of offset-table moves (knight and plain king moves). -/
theorem offsetMoves_shape {b : Board} {color : Color} {row col : Int}
    {offs : List (Int × Int)} {m : Move}
    (hm : m ∈ offs.flatMap fun d =>
      addMoveL b color { toRow := row + d.1, toCol := col + d.2, capture := false }) :
    m.promotion = none ∧ m.castle = none ∧ m.doublePawn = false ∧
    (0 ≤ m.toRow ∧ m.toRow < 8 ∧ 0 ≤ m.toCol ∧ m.toCol < 8) ∧
    (∃ d ∈ offs, m.toRow = row + d.1 ∧ m.toCol = col + d.2) ∧
    (∀ t, getCell b m.toRow m.toCol = some t → t.color ≠ color) := by
  obtain ⟨d, hd, h⟩ := List.mem_flatMap.mp hm
  obtain ⟨h1, h2, h3, h4, h5, h6⟩ := addMoveL_fields h
  have h1' : m.toRow = row + d.1 := h1
  have h2' : m.toCol = col + d.2 := h2
  obtain ⟨-, hb, hown⟩ := mem_addMoveL h
  exact ⟨h3, h4, h5, hb, ⟨d, hd, h1', h2'⟩, hown⟩

/-- The attack set of a knight or king contains every in-range offset square. -/
theorem offset_mem_attacks {row col nr nc : Int} {offs : List (Int × Int)}
    {d : Int × Int} (hd : d ∈ offs) (hnr : nr = row + d.1) (hnc : nc = col + d.2)
    (hb : 0 ≤ nr ∧ nr < 8 ∧ 0 ≤ nc ∧ nc < 8) :
    (nr, nc) ∈ offs.flatMap fun e =>
      if 0 ≤ row + e.1 ∧ row + e.1 < 8 ∧ 0 ≤ col + e.2 ∧ col + e.2 < 8
      then [(row + e.1, col + e.2)] else [] := by
  refine List.mem_flatMap.mpr ⟨d, hd, ?_⟩
  rw [if_pos (by omega)]
  simp [hnr, hnc]

/-- Shape of every castling candidate: produced only from the home square with
the king not in check, and carrying exactly the conditions the generator
tests (rights flag, empty transit squares, rook at home, transit squares
unattacked). -/
theorem castleMoves_shape {g : Game} {row col : Int} {color : Color} {m : Move}
    (hm : m ∈ castleMoves g row col color) :
    row = homeRowOf color ∧ col = 4 ∧ isInCheck g color = false ∧
    m.promotion = none ∧ m.doublePawn = false ∧ m.enPassant = false ∧
    m.capture = false ∧ m.toRow = homeRowOf color ∧
    ((m.castle = some .K ∧ m.toCol = 6 ∧
      (g.castlingOf color).kingSide = true ∧
      getCell g.board (homeRowOf color) 5 = none ∧
      getCell g.board (homeRowOf color) 6 = none ∧
      getCell g.board (homeRowOf color) 7 = some ⟨color, .rook⟩ ∧
      isSquareAttacked g (homeRowOf color) 5 color.other = false ∧
      isSquareAttacked g (homeRowOf color) 6 color.other = false) ∨
     (m.castle = some .Q ∧ m.toCol = 2 ∧
      (g.castlingOf color).queenSide = true ∧
      getCell g.board (homeRowOf color) 1 = none ∧
      getCell g.board (homeRowOf color) 2 = none ∧
      getCell g.board (homeRowOf color) 3 = none ∧
      getCell g.board (homeRowOf color) 0 = some ⟨color, .rook⟩ ∧
      isSquareAttacked g (homeRowOf color) 2 color.other = false ∧
      isSquareAttacked g (homeRowOf color) 3 color.other = false)) := by
  simp only [castleMoves] at hm
  by_cases hhome : row = homeRowOf color ∧ col = 4 ∧ ¬isInCheck g color = true
  · rw [if_pos hhome] at hm
    obtain ⟨hr, hc, hchk⟩ := hhome
    have hchk' : isInCheck g color = false := by
      rcases h : isInCheck g color with _ | _
      · rfl
      · exact absurd h hchk
    rcases List.mem_append.mp hm with h | h
    · by_cases hks : (g.castlingOf color).kingSide ∧
          ¬(getCell g.board (homeRowOf color) 5).isSome = true ∧
          ¬(getCell g.board (homeRowOf color) 6).isSome = true ∧
          getCell g.board (homeRowOf color) 7 = some ⟨color, .rook⟩ ∧
          ¬isSquareAttacked g (homeRowOf color) 5 color.other = true ∧
          ¬isSquareAttacked g (homeRowOf color) 6 color.other = true
      · rw [if_pos hks] at h
        simp only [List.mem_singleton] at h
        subst h
        refine ⟨hr, hc, hchk', rfl, rfl, rfl, rfl, rfl, Or.inl ?_⟩
        refine ⟨rfl, rfl, hks.1, Option.not_isSome_iff_eq_none.mp hks.2.1,
          Option.not_isSome_iff_eq_none.mp hks.2.2.1, hks.2.2.2.1,
          Bool.not_eq_true _ ▸ hks.2.2.2.2.1, Bool.not_eq_true _ ▸ hks.2.2.2.2.2⟩
      · rw [if_neg hks] at h
        exact absurd h (List.not_mem_nil m)
    · by_cases hqs : (g.castlingOf color).queenSide ∧
          ¬(getCell g.board (homeRowOf color) 1).isSome = true ∧
          ¬(getCell g.board (homeRowOf color) 2).isSome = true ∧
          ¬(getCell g.board (homeRowOf color) 3).isSome = true ∧
          getCell g.board (homeRowOf color) 0 = some ⟨color, .rook⟩ ∧
          ¬isSquareAttacked g (homeRowOf color) 2 color.other = true ∧
          ¬isSquareAttacked g (homeRowOf color) 3 color.other = true
      · rw [if_pos hqs] at h
        simp only [List.mem_singleton] at h
        subst h
        refine ⟨hr, hc, hchk', rfl, rfl, rfl, rfl, rfl, Or.inr ?_⟩
        refine ⟨rfl, rfl, hqs.1, Option.not_isSome_iff_eq_none.mp hqs.2.1,
          Option.not_isSome_iff_eq_none.mp hqs.2.2.1,
          Option.not_isSome_iff_eq_none.mp hqs.2.2.2.1, hqs.2.2.2.2.1,
          Bool.not_eq_true _ ▸ hqs.2.2.2.2.2.1, Bool.not_eq_true _ ▸ hqs.2.2.2.2.2.2⟩
      · rw [if_neg hqs] at h
        exact absurd h (List.not_mem_nil m)
  · rw [if_neg hhome] at hm
    exact absurd hm (List.not_mem_nil m)

/-- Shape facts for the three sliding pieces, shared across bishop, rook and
queen: the whole `pseudo_shape` conclusion specialised to a ray mover. -/
theorem slider_shape_aux {g : Game} {row col : Int} {p : Piece} {m : Move}
    {dirs : List (Int × Int)}
    (hm : m ∈ dirs.flatMap fun d => raySlideMoves g.board p.color row col d.1 d.2 1 7)
    (hdirs : ∀ d ∈ dirs, ¬(d.1 = 0 ∧ d.2 = 0))
    (hatt : getAttacksForPiece g.board row col p =
      dirs.flatMap fun d => rayAttacks g.board row col d.1 d.2 1 7)
    (hnk : p.ptype ≠ .king) :
    (0 ≤ m.toRow ∧ m.toRow < 8 ∧ 0 ≤ m.toCol ∧ m.toCol < 8) ∧
    ¬(m.toRow = row ∧ m.toCol = col) ∧
    (∀ pr, m.promotion = some pr → pr ∈ promoOptions ∧ p.ptype = .pawn) ∧
    (∀ t, getCell g.board m.toRow m.toCol = some t →
      t.color ≠ p.color ∧ (m.toRow, m.toCol) ∈ getAttacksForPiece g.board row col p) ∧
    (m.castle ≠ none → p.ptype = .king) ∧
    (p.ptype = .king → m.castle = none → m.toCol - col ≠ 2 ∧ col - m.toCol ≠ 2) ∧
    (m.castle = some .K → row = homeRowOf p.color ∧ col = 4 ∧ m.toRow = row ∧ m.toCol = 6 ∧
      getCell g.board (homeRowOf p.color) 5 = none ∧
      getCell g.board (homeRowOf p.color) 6 = none ∧
      getCell g.board (homeRowOf p.color) 7 = some ⟨p.color, .rook⟩) ∧
    (m.castle = some .Q → row = homeRowOf p.color ∧ col = 4 ∧ m.toRow = row ∧ m.toCol = 2 ∧
      getCell g.board (homeRowOf p.color) 1 = none ∧
      getCell g.board (homeRowOf p.color) 2 = none ∧
      getCell g.board (homeRowOf p.color) 3 = none ∧
      getCell g.board (homeRowOf p.color) 0 = some ⟨p.color, .rook⟩) ∧
    (m.doublePawn = true → p.ptype = .pawn ∧ row = pawnStartRow p.color ∧
      m.toRow = row + 2 * pawnDir p.color ∧ m.toCol = col ∧ m.promotion = none) := by
  obtain ⟨d, hd, h⟩ := List.mem_flatMap.mp hm
  obtain ⟨s1, s2, s3, s4, ⟨j, hj, hjr, hjc⟩, s6, s7⟩ := raySlideMoves_shape h (by omega)
  refine ⟨s4, ?_, ?_, ?_, ?_, ?_, ?_, ?_, ?_⟩
  · rintro ⟨ha, hb⟩
    have hdr : d.1 * (j : Int) = 0 := by omega
    have hdc : d.2 * (j : Int) = 0 := by omega
    have hjne : (j : Int) ≠ 0 := by omega
    have h1 : d.1 = 0 := by
      rcases mul_eq_zero.mp hdr with h' | h'
      · exact h'
      · exact absurd h' hjne
    have h2 : d.2 = 0 := by
      rcases mul_eq_zero.mp hdc with h' | h'
      · exact h'
      · exact absurd h' hjne
    exact hdirs d hd ⟨h1, h2⟩
  · intro pr hpr
    rw [s1] at hpr
    exact absurd hpr (by simp)
  · intro t ht
    refine ⟨s7 t ht, ?_⟩
    rw [hatt]
    exact List.mem_flatMap.mpr ⟨d, hd, s6⟩
  · intro hc
    rw [s2] at hc
    exact absurd rfl hc
  · intro hk
    exact absurd hk hnk
  · intro hc
    rw [s2] at hc
    exact Option.noConfusion hc
  · intro hc
    rw [s2] at hc
    exact Option.noConfusion hc
  · intro hd'
    rw [s3] at hd'
    exact absurd hd' (by simp)

/-- Combined shape facts about every pseudo-legal move: destinations are in
range and differ from the origin, promotions are always one of the four
officer kinds for a pawn, an occupied destination always holds an enemy piece
and lies in the moving piece's attack set, castling facts, and double-step
facts. -/
theorem pseudo_shape {g : Game} {row col : Int} {p : Piece} {m : Move}
    (hm : m ∈ getPseudoLegalMoves g row col p)
    (hrc : 0 ≤ row ∧ row < 8 ∧ 0 ≤ col ∧ col < 8) :
    (0 ≤ m.toRow ∧ m.toRow < 8 ∧ 0 ≤ m.toCol ∧ m.toCol < 8) ∧
    ¬(m.toRow = row ∧ m.toCol = col) ∧
    (∀ pr, m.promotion = some pr → pr ∈ promoOptions ∧ p.ptype = .pawn) ∧
    (∀ t, getCell g.board m.toRow m.toCol = some t →
      t.color ≠ p.color ∧ (m.toRow, m.toCol) ∈ getAttacksForPiece g.board row col p) ∧
    (m.castle ≠ none → p.ptype = .king) ∧
    (p.ptype = .king → m.castle = none → m.toCol - col ≠ 2 ∧ col - m.toCol ≠ 2) ∧
    (m.castle = some .K → row = homeRowOf p.color ∧ col = 4 ∧ m.toRow = row ∧ m.toCol = 6 ∧
      getCell g.board (homeRowOf p.color) 5 = none ∧
      getCell g.board (homeRowOf p.color) 6 = none ∧
      getCell g.board (homeRowOf p.color) 7 = some ⟨p.color, .rook⟩) ∧
    (m.castle = some .Q → row = homeRowOf p.color ∧ col = 4 ∧ m.toRow = row ∧ m.toCol = 2 ∧
      getCell g.board (homeRowOf p.color) 1 = none ∧
      getCell g.board (homeRowOf p.color) 2 = none ∧
      getCell g.board (homeRowOf p.color) 3 = none ∧
      getCell g.board (homeRowOf p.color) 0 = some ⟨p.color, .rook⟩) ∧
    (m.doublePawn = true → p.ptype = .pawn ∧ row = pawnStartRow p.color ∧
      m.toRow = row + 2 * pawnDir p.color ∧ m.toCol = col ∧ m.promotion = none) := by
  rcases hp : p.ptype with _ | _ | _ | _ | _ | _
  case pawn =>
    have hm' : m ∈ pawnPseudoMoves g row col p.color := by
      unfold getPseudoLegalMoves at hm
      rw [hp] at hm
      exact hm
    obtain ⟨s1, s2, s3, s4, s5, s6, s7, s8, s9⟩ := pawnPseudo_shape hm'
    have hdir : pawnDir p.color = -1 ∨ pawnDir p.color = 1 := by
      cases p.color <;> simp [pawnDir]
    have hrowfact : m.toRow = row + pawnDir p.color ∨
        (m.toRow = row + 2 * pawnDir p.color ∧ m.doublePawn = true) := by
      rcases hdp : m.doublePawn with _ | _
      · exact Or.inl (s2 hdp)
      · exact Or.inr ⟨(s3 hdp).2.1, rfl⟩
    refine ⟨?_, ?_, ?_, ?_, ?_, ?_, ?_, ?_, ?_⟩
    · -- bounds
      have hpromorow : pawnPromoRow p.color = 0 ∨ pawnPromoRow p.color = 7 := by
        cases p.color <;> simp [pawnPromoRow]
      rcases s4 with h | h <;> rcases s9 with h9 | h9 <;> omega
    · -- dest differs from origin
      rintro ⟨ha, -⟩
      rcases hrowfact with h | h <;> rcases hdir with hd | hd <;> omega
    · intro pr hpr
      exact ⟨(s5 pr hpr).1, rfl⟩
    · intro t ht
      refine ⟨s6 t ht, ?_⟩
      by_cases hcc : m.toCol = col
      · rw [s8 hcc] at ht
        exact Option.noConfusion ht
      · have := s7 hcc
        have hpeq : p = ⟨p.color, .pawn⟩ := by
          cases p
          simp_all
        rw [hpeq]
        exact this
    · intro hc
      rw [s1] at hc
      exact absurd rfl hc
    · intro hk
      exact absurd hk (by simp)
    · intro hc
      rw [s1] at hc
      exact Option.noConfusion hc
    · intro hc
      rw [s1] at hc
      exact Option.noConfusion hc
    · intro hd
      obtain ⟨ha, hb, hc, hd', he⟩ := s3 hd
      exact ⟨rfl, ha, hb, hc, hd'⟩
  case knight =>
    have hm' : m ∈ knightOffsets.flatMap fun d =>
        addMoveL g.board p.color { toRow := row + d.1, toCol := col + d.2, capture := false } := by
      unfold getPseudoLegalMoves at hm
      rw [hp] at hm
      exact hm
    obtain ⟨s1, s2, s3, s4, ⟨d, hd, hdr, hdc⟩, s6⟩ := offsetMoves_shape hm'
    have hdvals : d = (-2, -1) ∨ d = (-2, 1) ∨ d = (-1, -2) ∨ d = (-1, 2) ∨
        d = (1, -2) ∨ d = (1, 2) ∨ d = (2, -1) ∨ d = (2, 1) := by
      simpa [knightOffsets] using hd
    refine ⟨s4, ?_, ?_, ?_, ?_, ?_, ?_, ?_, ?_⟩
    · rintro ⟨ha, hb⟩
      obtain ⟨d1, d2⟩ := d
      rcases hdvals with h | h | h | h | h | h | h | h <;>
        (injection h with e1 e2; subst e1; subst e2; omega)
    · intro pr hpr
      rw [s1] at hpr
      exact absurd hpr (by simp)
    · intro t ht
      refine ⟨s6 t ht, ?_⟩
      show (m.toRow, m.toCol) ∈ getAttacksForPiece g.board row col p
      unfold getAttacksForPiece
      rw [hp]
      exact offset_mem_attacks hd hdr hdc s4
    · intro hc
      rw [s2] at hc
      exact absurd rfl hc
    · intro hk
      exact absurd hk (by simp)
    · intro hc
      rw [s2] at hc
      exact Option.noConfusion hc
    · intro hc
      rw [s2] at hc
      exact Option.noConfusion hc
    · intro hd'
      rw [s3] at hd'
      exact absurd hd' (by simp)
  case king =>
    have hm' : m ∈ (kingOffsets.flatMap fun d =>
        addMoveL g.board p.color { toRow := row + d.1, toCol := col + d.2, capture := false }) ++
        castleMoves g row col p.color := by
      unfold getPseudoLegalMoves at hm
      rw [hp] at hm
      exact hm
    rcases List.mem_append.mp hm' with h | h
    · obtain ⟨s1, s2, s3, s4, ⟨d, hd, hdr, hdc⟩, s6⟩ := offsetMoves_shape h
      have hdvals : d = (-1, -1) ∨ d = (-1, 0) ∨ d = (-1, 1) ∨ d = (0, -1) ∨
          d = (0, 1) ∨ d = (1, -1) ∨ d = (1, 0) ∨ d = (1, 1) := by
        simpa [kingOffsets] using hd
      refine ⟨s4, ?_, ?_, ?_, ?_, ?_, ?_, ?_, ?_⟩
      · rintro ⟨ha, hb⟩
        obtain ⟨d1, d2⟩ := d
        rcases hdvals with h' | h' | h' | h' | h' | h' | h' | h' <;>
          (injection h' with e1 e2; subst e1; subst e2; omega)
      · intro pr hpr
        rw [s1] at hpr
        exact absurd hpr (by simp)
      · intro t ht
        refine ⟨s6 t ht, ?_⟩
        show (m.toRow, m.toCol) ∈ getAttacksForPiece g.board row col p
        unfold getAttacksForPiece
        rw [hp]
        exact offset_mem_attacks hd hdr hdc s4
      · intro _
        rfl
      · intro _ _
        have hdc' : m.toCol = col + d.2 := hdc
        have hd2 : d.2 = -1 ∨ d.2 = 0 ∨ d.2 = 1 := by
          rcases hdvals with h' | h' | h' | h' | h' | h' | h' | h' <;> rw [h'] <;> simp
        rcases hd2 with h' | h' | h' <;> rw [h'] at hdc' <;> exact ⟨by omega, by omega⟩
      · intro hc
        rw [s2] at hc
        exact Option.noConfusion hc
      · intro hc
        rw [s2] at hc
        exact Option.noConfusion hc
      · intro hd'
        rw [s3] at hd'
        exact absurd hd' (by simp)
    · obtain ⟨c1, c2, c3, c4, c5, c6, c7, c8, c9⟩ := castleMoves_shape h
      have hhome : 0 ≤ homeRowOf p.color ∧ homeRowOf p.color < 8 := by
        cases p.color <;> simp [homeRowOf]
      refine ⟨?_, ?_, ?_, ?_, ?_, ?_, ?_, ?_, ?_⟩
      · rcases c9 with ⟨-, hc6, -⟩ | ⟨-, hc2, -⟩ <;> rw [c8] <;> omega
      · rintro ⟨-, hb⟩
        rcases c9 with ⟨-, hc6, -⟩ | ⟨-, hc2, -⟩ <;> omega
      · intro pr hpr
        rw [c4] at hpr
        exact absurd hpr (by simp)
      · intro t ht
        exfalso
        rcases c9 with ⟨-, hc6, -, hemp5, hemp6, -⟩ | ⟨-, hc2, -, hemp1, hemp2, -⟩
        · have ht' : getCell g.board (homeRowOf p.color) 6 = some t := by
            rw [← c8, ← hc6]
            exact ht
          rw [hemp6] at ht'
          exact Option.noConfusion ht'
        · have ht' : getCell g.board (homeRowOf p.color) 2 = some t := by
            rw [← c8, ← hc2]
            exact ht
          rw [hemp2] at ht'
          exact Option.noConfusion ht'
      · intro _
        rfl
      · intro _ hcn
        exfalso
        rcases c9 with ⟨hK, -⟩ | ⟨hQ, -⟩
        · rw [hcn] at hK
          exact Option.noConfusion hK
        · rw [hcn] at hQ
          exact Option.noConfusion hQ
      · intro hK
        rcases c9 with ⟨-, hc6, -, hemp5, hemp6, hrook, -, -⟩ | ⟨hQ, -⟩
        · exact ⟨c1, c2, by rw [c8, c1], hc6, hemp5, hemp6, hrook⟩
        · rw [hK] at hQ
          exact absurd (Option.some.inj hQ) (by simp)
      · intro hQ
        rcases c9 with ⟨hK, -⟩ | ⟨-, hc2, -, hemp1, hemp2, hemp3, hrook, -, -⟩
        · rw [hQ] at hK
          exact absurd (Option.some.inj hK) (by simp)
        · exact ⟨c1, c2, by rw [c8, c1], hc2, hemp1, hemp2, hemp3, hrook⟩
      · intro hd'
        rw [c5] at hd'
        exact absurd hd' (by simp)
  case bishop =>
    have hm' : m ∈ bishopDirs.flatMap fun d =>
        raySlideMoves g.board p.color row col d.1 d.2 1 7 := by
      unfold getPseudoLegalMoves at hm
      rw [hp] at hm
      exact hm
    have hres := slider_shape_aux hm' (by decide)
      (by unfold getAttacksForPiece; rw [hp]) (by rw [hp]; simp)
    rw [hp] at hres
    exact hres
  case rook =>
    have hm' : m ∈ rookDirs.flatMap fun d =>
        raySlideMoves g.board p.color row col d.1 d.2 1 7 := by
      unfold getPseudoLegalMoves at hm
      rw [hp] at hm
      exact hm
    have hres := slider_shape_aux hm' (by decide)
      (by unfold getAttacksForPiece; rw [hp]) (by rw [hp]; simp)
    rw [hp] at hres
    exact hres
  case queen =>
    have hm' : m ∈ queenDirs.flatMap fun d =>
        raySlideMoves g.board p.color row col d.1 d.2 1 7 := by
      unfold getPseudoLegalMoves at hm
      rw [hp] at hm
      exact hm
    have hres := slider_shape_aux hm' (by decide)
      (by unfold getAttacksForPiece; rw [hp]) (by rw [hp]; simp)
    rw [hp] at hres
    exact hres

/-- A legal move comes from a piece of the side to move and passes the
simulate-and-test legality filter. -/
theorem mem_getLegalMoves {g : Game} {row col : Int} {m : Move}
    (hm : m ∈ getLegalMoves g row col) :
    ∃ p, getCell g.board row col = some p ∧ p.color = g.turn ∧
      m ∈ getPseudoLegalMoves g row col p ∧
      isInCheck (simulateMove g row col m.toRow m.toCol m.promotion) p.color = false := by
  unfold getLegalMoves at hm
  rcases hcell : getCell g.board row col with _ | p
  · rw [hcell] at hm
    exact absurd hm (List.not_mem_nil m)
  · simp only [hcell] at hm
    by_cases hc : p.color ≠ g.turn
    · rw [if_pos hc] at hm
      exact absurd hm (List.not_mem_nil m)
    · rw [if_neg hc] at hm
      push_neg at hc
      obtain ⟨hmem, hflt⟩ := List.mem_filter.mp hm
      refine ⟨p, rfl, hc, hmem, ?_⟩
      simpa using hflt

/-- A move with a castle tag can only have come from the castling generator of
the king branch. -/
theorem castle_mem_castleMoves {g : Game} {row col : Int} {p : Piece} {m : Move}
    (hrc : 0 ≤ row ∧ row < 8 ∧ 0 ≤ col ∧ col < 8)
    (hm : m ∈ getPseudoLegalMoves g row col p) (hc : m.castle ≠ none) :
    m ∈ castleMoves g row col p.color := by
  have hk := (pseudo_shape hm hrc).2.2.2.2.1 hc
  unfold getPseudoLegalMoves at hm
  rw [hk] at hm
  rcases List.mem_append.mp hm with h | h
  · obtain ⟨-, s2, -⟩ := offsetMoves_shape h
    exact absurd s2 hc
  · exact h

/-! ### C1: the legality filter -/

/-- C1: every move returned by `getLegalMoves` is such that hypothetically
applying it (`simulateMove`, the filter's own application function) and then
testing the mover's own king for check returns `false`: the pseudo-legal
candidates are filtered so that no returned move leaves the moving color's
king attacked. -/
theorem legal_move_never_leaves_own_king_in_check
    (g : Game) (row col : Int) (m : Move) (p : Piece)
    (hp : getCell g.board row col = some p)
    (hm : m ∈ getLegalMoves g row col) :
    isInCheck (simulateMove g row col m.toRow m.toCol m.promotion) p.color = false := by
  unfold getLegalMoves at hm
  rw [hp] at hm
  by_cases hc : p.color ≠ g.turn
  · simp only [if_pos hc] at hm
    exact absurd hm (List.not_mem_nil m)
  · simp only [if_neg hc] at hm
    have h2 := (List.mem_filter.mp hm).2
    simpa using h2

/-- Witness for C1: the double pawn push e2-e4 from the initial position. -/
theorem legal_move_never_leaves_own_king_in_check_witness :
    isInCheck (simulateMove createGame 6 4 4 4 none) (Piece.mk .white .pawn).color = false :=
  legal_move_never_leaves_own_king_in_check createGame 6 4
    { toRow := 4, toCol := 4, capture := false, doublePawn := true }
    ⟨.white, .pawn⟩ (by decide) (by decide)

/-! ### C2: `makeMove` validation round-trip -/

/-- The validation round-trip of the `makeMove` body: it succeeds exactly when
the requested (from, to) pair matches a move of `getLegalMoves(state, from)`,
and otherwise rejects with `valid = false` and the input state unchanged.
(This is about the Lean `makeMove`, which models the returning executions;
the claim-level statement over the faithful total model, where an
out-of-range origin row throws instead, is `makeMoveTotal_valid_iff_legal`.) -/
theorem makeMove_result_valid_iff_legal
    (g : Game) (fr fc tr tc : Int) (ov : Option PieceType) (rnd : Fin 4) :
    ((makeMove g fr fc tr tc ov rnd).valid = true ↔
      ∃ m ∈ getLegalMoves g fr fc, m.toRow = tr ∧ m.toCol = tc) ∧
    ((makeMove g fr fc tr tc ov rnd).valid = false →
      (makeMove g fr fc tr tc ov rnd).game = g) := by
  rcases hcell : getCell g.board fr fc with _ | piece
  · have hlm : getLegalMoves g fr fc = [] := by unfold getLegalMoves; rw [hcell]
    have hmm : makeMove g fr fc tr tc ov rnd = ⟨g, false, none⟩ := by
      unfold makeMove; rw [hcell]
    rw [hmm, hlm]
    simp
  · rcases hfind : (getLegalMoves g fr fc).find?
        (fun m => m.toRow == tr && m.toCol == tc) with _ | mv
    · have hno : ∀ m ∈ getLegalMoves g fr fc, ¬(m.toRow = tr ∧ m.toCol = tc) := by
        intro m hm hmt
        have := List.find?_eq_none.mp hfind m hm
        simp [hmt.1, hmt.2] at this
      have hmm : makeMove g fr fc tr tc ov rnd = ⟨g, false, none⟩ := by
        unfold makeMove
        rw [hcell]
        simp only [hfind]
      rw [hmm]
      constructor
      · constructor
        · intro hv
          exact absurd hv (by simp)
        · rintro ⟨m, hm, hmt⟩
          exact absurd hmt (hno m hm)
      · intro _
        rfl
    · have hvalid : (makeMove g fr fc tr tc ov rnd).valid = true := by
        unfold makeMove
        rw [hcell]
        simp only [hfind]
      constructor
      · constructor
        · intro _
          refine ⟨mv, List.mem_of_find?_eq_some hfind, ?_⟩
          have := List.find?_some hfind
          simpa using this
        · intro _
          exact hvalid
      · intro hv
        rw [hvalid] at hv
        exact absurd hv (by simp)

/-- C2 (counterexample): an out-of-range origin row does not produce the
claimed rejection: `game.board[fromRow]` is `undefined` there, so the member
read `game.board[fromRow][fromCol]` at the top of `makeMove` (and likewise
`game.board[row][col]` at the top of `getLegalMoves`) throws a `TypeError` —
the `none` of the total model — instead of returning `{valid: false}` with
the state unchanged. -/
theorem makeMove_out_of_range_row_throws :
    makeMoveTotal createGame 8 4 7 4 none 0 = none ∧
      makeMoveTotal createGame (-1) 0 0 0 none 0 = none ∧
      getLegalMovesTotal createGame 8 4 = none := by decide

/-- C2 (amended): with the thrown `TypeError` made explicit, a `makeMove` call
throws exactly when the origin row is out of range; every returning call
succeeds exactly when the requested (from, to) pair matches a move of
`getLegalMoves(state, from)`, and otherwise rejects with `valid = false` and
the input state unchanged — so the no-invalid-internal-state guarantee holds
for the returning executions. -/
theorem makeMoveTotal_valid_iff_legal (g : Game) (fr fc tr tc : Int)
    (ov : Option PieceType) (rnd : Fin 4) :
    (makeMoveTotal g fr fc tr tc ov rnd = none ↔ ¬(0 ≤ fr ∧ fr < 8)) ∧
    ∀ res, makeMoveTotal g fr fc tr tc ov rnd = some res →
      ((res.valid = true ↔ ∃ m ∈ getLegalMoves g fr fc, m.toRow = tr ∧ m.toCol = tc) ∧
        (res.valid = false → res.game = g)) := by
  constructor
  · constructor
    · intro hn hin
      unfold makeMoveTotal at hn
      rw [if_pos hin] at hn
      exact Option.noConfusion hn
    · intro hout
      unfold makeMoveTotal
      rw [if_neg hout]
  · intro res hres
    unfold makeMoveTotal at hres
    by_cases hin : 0 ≤ fr ∧ fr < 8
    · rw [if_pos hin] at hres
      injection hres with hres
      subst hres
      exact makeMove_result_valid_iff_legal g fr fc tr tc ov rnd
    · rw [if_neg hin] at hres
      exact Option.noConfusion hres

/-- Witness for C2: asking to move Black's a8 rook on White's first turn is an
in-range call that returns a rejection leaving the initial state untouched,
while the out-of-range origin row -3 makes the call throw. -/
theorem makeMoveTotal_valid_iff_legal_witness :
    (makeMove createGame 0 0 4 4 none 0).game = createGame ∧
      makeMoveTotal createGame (-3) 2 0 0 none 0 = none := by
  constructor
  · exact ((makeMoveTotal_valid_iff_legal createGame 0 0 4 4 none 0).2
      (makeMove createGame 0 0 4 4 none 0) (by decide)).2 (by decide)
  · exact (makeMoveTotal_valid_iff_legal createGame (-3) 2 0 0 none 0).1.2 (by decide)

/-! ### C9: the chaos win-turn trigger -/

/-- The state component returned by `getChaosMove`: the turn counter is
incremented, the corruption updated, and nothing else is touched. -/
theorem getChaosMove_state (q : QStream) (idx : Nat) (g : Game)
    (pm : Option PlayerMoveInfo) (st : ChaosState) :
    (getChaosMove q idx g pm st).2.1 =
      { st with turnCount := st.turnCount + 1,
                rulesCorruption := min 1 (((st.turnCount + 1 : Nat) : ℚ) / 30) } := by
  simp only [getChaosMove]
  repeat' split
  all_goals rfl

/-- One `getChaosMove` invocation raises the bot-victory flag exactly when the
incremented counter has reached the win turn. -/
theorem getChaosMove_botWins (q : QStream) (idx : Nat) (g : Game)
    (pm : Option PlayerMoveInfo) (st : ChaosState) :
    (getChaosMove q idx g pm st).1.botWins = decide (st.winTurn ≤ st.turnCount + 1) := by
  simp only [getChaosMove]
  by_cases hw : st.winTurn ≤ st.turnCount + 1
  · rw [if_pos hw]
    simp [hw]
  · rw [if_neg hw]
    repeat' split
    all_goals simp [hw]

/-- One `getChaosMove` invocation: the turn counter always increments by one,
the win turn is never changed, and the bot-victory flag is raised exactly when
the incremented counter has reached the win turn. -/
theorem getChaosMove_turn_step (q : QStream) (idx : Nat) (g : Game)
    (pm : Option PlayerMoveInfo) (st : ChaosState) :
    ((getChaosMove q idx g pm st).2.1.turnCount = st.turnCount + 1) ∧
    ((getChaosMove q idx g pm st).2.1.winTurn = st.winTurn) ∧
    ((getChaosMove q idx g pm st).1.botWins = decide (st.winTurn ≤ st.turnCount + 1)) :=
  ⟨by rw [getChaosMove_state], by rw [getChaosMove_state], getChaosMove_botWins q idx g pm st⟩

/-- Across a chaos game starting from `initChaosMode`, after `k` invocations
the turn counter is `k` and the win turn is untouched. -/
theorem chaosRun_turnCount (q : QStream) (gs : Nat → Game)
    (pms : Nat → Option PlayerMoveInfo) (r : Fin 50) (k : Nat) :
    (chaosRun q gs pms (initChaosMode r) k).1.turnCount = k ∧
    (chaosRun q gs pms (initChaosMode r) k).1.winTurn = (r : Nat) + 1 := by
  induction k with
  | zero => simp [chaosRun, initChaosMode]
  | succ k ih =>
    have hstep := getChaosMove_turn_step q (chaosRun q gs pms (initChaosMode r) k).2
      (gs k) (pms k) (chaosRun q gs pms (initChaosMode r) k).1
    simp only [chaosRun]
    exact ⟨by rw [hstep.1, ih.1], by rw [hstep.2.1, ih.2]⟩

/-- C9: in chaos mode, across the invocations of one game started by
`initChaosMode` with pre-selected win turn `w = r + 1 ∈ [1, 50]`, the
unconditional bot-victory response is signalled on invocation `k` exactly when
`k ≥ w` — so never on an invocation earlier than the win turn, first on the
invocation whose turn counter equals the win turn, and (the game ending there)
exactly once among invocations `1..w`, for every randomness stream and every
sequence of per-invocation inputs. -/
theorem chaos_win_turn_fires_exactly_once (q : QStream) (gs : Nat → Game)
    (pms : Nat → Option PlayerMoveInfo) (r : Fin 50) :
    (∀ k : Nat, chaosSignal q gs pms (initChaosMode r) k = true ↔ (r : Nat) + 1 ≤ k) ∧
    ((List.range ((r : Nat) + 1)).countP
        (fun j => chaosSignal q gs pms (initChaosMode r) (j + 1)) = 1) := by
  have hsig : ∀ k : Nat, chaosSignal q gs pms (initChaosMode r) k = true ↔ (r : Nat) + 1 ≤ k := by
    intro k
    match k with
    | 0 => simp [chaosSignal]
    | k + 1 =>
      have hstep := getChaosMove_turn_step q (chaosRun q gs pms (initChaosMode r) k).2
        (gs k) (pms k) (chaosRun q gs pms (initChaosMode r) k).1
      have hrun := chaosRun_turnCount q gs pms r k
      simp only [chaosSignal]
      rw [hstep.2.2, hrun.1, hrun.2]
      simp
  refine ⟨hsig, ?_⟩
  rw [List.range_succ, List.countP_append]
  have h1 : (List.range ((r : Nat))).countP
      (fun j => chaosSignal q gs pms (initChaosMode r) (j + 1)) = 0 := by
    rw [List.countP_eq_zero]
    intro j hj
    have hjlt := List.mem_range.mp hj
    intro hc
    have := (hsig (j + 1)).mp hc
    omega
  have h2 : ([(r : Nat)] : List Nat).countP
      (fun j => chaosSignal q gs pms (initChaosMode r) (j + 1)) = 1 := by
    have : chaosSignal q gs pms (initChaosMode r) ((r : Nat) + 1) = true :=
      (hsig ((r : Nat) + 1)).mpr (by omega)
    simp [List.countP_cons, this]
  rw [h1, h2]

/-! ### C5: castling conditions -/

/-- C5: a kingside castling move is generated for a side only when that side's
kingside castling-rights flag is true, the f- and g-file squares are empty,
the rook is on its home square, the king is not in check and the f- and g-file
squares are unattacked by the opponent (symmetrically for queenside with the
c- and d-file squares); and in the concrete position `c5game`, where the e1
and g1 squares are safe but f1 is attacked, no castling move is generated for
White even though the rights flag holds, f1 and g1 are empty and the rook is
home. -/
theorem castling_only_with_rights_empty_safe :
    (∀ (g : Game) (row col : Int) (m : Move) (p : Piece),
      getCell g.board row col = some p →
      m ∈ getLegalMoves g row col →
      m.castle = some .K →
      row = homeRowOf p.color ∧ col = 4 ∧ m.toCol = 6 ∧
      (g.castlingOf p.color).kingSide = true ∧
      getCell g.board (homeRowOf p.color) 5 = none ∧
      getCell g.board (homeRowOf p.color) 6 = none ∧
      getCell g.board (homeRowOf p.color) 7 = some ⟨p.color, .rook⟩ ∧
      isInCheck g p.color = false ∧
      isSquareAttacked g (homeRowOf p.color) 5 p.color.other = false ∧
      isSquareAttacked g (homeRowOf p.color) 6 p.color.other = false) ∧
    (∀ (g : Game) (row col : Int) (m : Move) (p : Piece),
      getCell g.board row col = some p →
      m ∈ getLegalMoves g row col →
      m.castle = some .Q →
      row = homeRowOf p.color ∧ col = 4 ∧ m.toCol = 2 ∧
      (g.castlingOf p.color).queenSide = true ∧
      getCell g.board (homeRowOf p.color) 1 = none ∧
      getCell g.board (homeRowOf p.color) 2 = none ∧
      getCell g.board (homeRowOf p.color) 3 = none ∧
      getCell g.board (homeRowOf p.color) 0 = some ⟨p.color, .rook⟩ ∧
      isInCheck g p.color = false ∧
      isSquareAttacked g (homeRowOf p.color) 2 p.color.other = false ∧
      isSquareAttacked g (homeRowOf p.color) 3 p.color.other = false) ∧
    (isSquareAttacked c5game 7 5 .black = true ∧
      isSquareAttacked c5game 7 4 .black = false ∧
      isSquareAttacked c5game 7 6 .black = false ∧
      (c5game.castlingOf .white).kingSide = true ∧
      getCell c5game.board 7 5 = none ∧ getCell c5game.board 7 6 = none ∧
      getCell c5game.board 7 7 = some ⟨.white, .rook⟩ ∧
      ∀ m ∈ getLegalMoves c5game 7 4, m.castle = none) := by
  have hmain : ∀ (g : Game) (row col : Int) (m : Move) (p : Piece),
      getCell g.board row col = some p →
      m ∈ getLegalMoves g row col →
      m.castle ≠ none →
      m ∈ castleMoves g row col p.color := by
    intro g row col m p hcell hm hc
    obtain ⟨p', hcell', -, hpseudo, -⟩ := mem_getLegalMoves hm
    rw [hcell] at hcell'
    injection hcell' with hp'
    subst hp'
    exact castle_mem_castleMoves (getCell_bounds hcell) hpseudo hc
  refine ⟨?_, ?_, ?_⟩
  · intro g row col m p hcell hm hK
    have hmem := hmain g row col m p hcell hm (by rw [hK]; exact fun h => Option.noConfusion h)
    obtain ⟨c1, c2, c3, -, -, -, -, -, c9⟩ := castleMoves_shape hmem
    rcases c9 with ⟨-, hc6, hrights, hemp5, hemp6, hrook, hatt5, hatt6⟩ | ⟨hQ, -⟩
    · exact ⟨c1, c2, hc6, hrights, hemp5, hemp6, hrook, c3, hatt5, hatt6⟩
    · rw [hK] at hQ
      exact absurd (Option.some.inj hQ) (by simp)
  · intro g row col m p hcell hm hQ
    have hmem := hmain g row col m p hcell hm (by rw [hQ]; exact fun h => Option.noConfusion h)
    obtain ⟨c1, c2, c3, -, -, -, -, -, c9⟩ := castleMoves_shape hmem
    rcases c9 with ⟨hK, -⟩ | ⟨-, hc2, hrights, hemp1, hemp2, hemp3, hrook, hatt2, hatt3⟩
    · rw [hQ] at hK
      exact absurd (Option.some.inj hK) (by simp)
    · exact ⟨c1, c2, hc2, hrights, hemp1, hemp2, hemp3, hrook, c3, hatt2, hatt3⟩
  · exact ⟨by decide, by decide, by decide, by decide, by decide, by decide, by decide,
      by decide⟩

/-- Witness for C5: in the castle-ready position `c5ok` the kingside castling
move is generated legally, and the theorem's conditions are all reproduced on
it. -/
theorem castling_only_with_rights_empty_safe_witness :
    (7 : Int) = homeRowOf (Piece.mk .white .king).color ∧ (4 : Int) = 4 ∧
      (Move.toCol { toRow := 7, toCol := 6, capture := false, castle := some .K }) = 6 ∧
      (c5ok.castlingOf (Piece.mk .white .king).color).kingSide = true ∧
      getCell c5ok.board (homeRowOf (Piece.mk .white .king).color) 5 = none ∧
      getCell c5ok.board (homeRowOf (Piece.mk .white .king).color) 6 = none ∧
      getCell c5ok.board (homeRowOf (Piece.mk .white .king).color) 7 =
        some ⟨(Piece.mk .white .king).color, .rook⟩ ∧
      isInCheck c5ok (Piece.mk .white .king).color = false ∧
      isSquareAttacked c5ok (homeRowOf (Piece.mk .white .king).color) 5
        (Piece.mk .white .king).color.other = false ∧
      isSquareAttacked c5ok (homeRowOf (Piece.mk .white .king).color) 6
        (Piece.mk .white .king).color.other = false :=
  castling_only_with_rights_empty_safe.1 c5ok 7 4
    { toRow := 7, toCol := 6, capture := false, castle := some .K }
    ⟨.white, .king⟩ (by decide) (by decide) (by decide)

/-! ### C6: en passant capture -/

/-- C6: when a legal en passant capture is applied, the captured enemy pawn is
removed from the square it actually occupies (the rank it landed on after its
double step, one row behind the capture destination), not from the destination
square — the destination ends up occupied by the capturing side's piece — and
the move record stores the captured enemy pawn with the `enPassant` flag set. -/
theorem en_passant_removes_pawn_from_its_square
    (g : Game) (fr fc tr tc : Int) (c : Color) (ov : Option PieceType) (rnd : Fin 4)
    (hwf : boardWf g.board)
    (hp : getCell g.board fr fc = some ⟨c, .pawn⟩)
    (hep : g.enPassantTarget = some (tr, tc))
    (hdest : getCell g.board tr tc = none)
    (hbehind : getCell g.board (if c = .white then tr + 1 else tr - 1) tc =
      some ⟨c.other, .pawn⟩)
    (hvalid : (makeMove g fr fc tr tc ov rnd).valid = true) :
    ∃ rec, (makeMove g fr fc tr tc ov rnd).move = some rec ∧
      rec.captured = some ⟨c.other, .pawn⟩ ∧
      rec.enPassant = true ∧
      getCell (makeMove g fr fc tr tc ov rnd).game.board
        (if c = .white then tr + 1 else tr - 1) tc = none ∧
      (getCell (makeMove g fr fc tr tc ov rnd).game.board tr tc).isSome = true := by
  rcases hfind : (getLegalMoves g fr fc).find?
      (fun m => m.toRow == tr && m.toCol == tc) with _ | mv
  · exfalso
    unfold makeMove at hvalid
    rw [hp] at hvalid
    simp only [hfind] at hvalid
    simp at hvalid
  · have hmem : mv ∈ getLegalMoves g fr fc := List.mem_of_find?_eq_some hfind
    have hpred := List.find?_some hfind
    have htr : mv.toRow = tr := by
      have := (Bool.and_eq_true _ _).mp hpred
      exact beq_iff_eq.mp this.1
    have htc : mv.toCol = tc := by
      have := (Bool.and_eq_true _ _).mp hpred
      exact beq_iff_eq.mp this.2
    obtain ⟨p', hcell', -, hpseudo, -⟩ := mem_getLegalMoves hmem
    rw [hp] at hcell'
    injection hcell' with hp'
    have hshape := pseudo_shape hpseudo (getCell_bounds hp)
    have hcastle : mv.castle = none := by
      rcases hcn : mv.castle with _ | side
      · rfl
      · exfalso
        have hk := hshape.2.2.2.2.1 (by rw [hcn]; exact fun h => Option.noConfusion h)
        rw [← hp'] at hk
        exact absurd hk (by simp)
    have hbounds := hshape.1
    have hne : ¬(mv.toRow = fr ∧ mv.toCol = fc) := hshape.2.1
    -- reduce makeMove on this branch
    have hepb : ((⟨c, .pawn⟩ : Piece).ptype == PieceType.pawn &&
        g.enPassantTarget == some (tr, tc)) = true := by
      rw [hep]
      simp
    unfold makeMove
    rw [hp]
    simp only [hfind, hepb, hdest, hcastle, if_true]
    refine ⟨_, rfl, rfl, rfl, ?_, ?_⟩
    all_goals unfold moveTarget applyMoveBoard
    all_goals simp only [hepb, hcastle, if_true]
    · -- the square behind the destination is cleared
      set capRow := if c = .white then tr + 1 else tr - 1 with hcap
      have hcapb := getCell_bounds hbehind
      have hgen : ∀ v : Option Piece,
          getCell (setCell (setCell (setCell g.board capRow tc none) tr tc v) fr fc none)
            capRow tc = none := by
        intro v
        have hwf1 := setCell_boardWf hwf capRow tc (none : Option Piece)
        have hwf2 := setCell_boardWf hwf1 tr tc v
        by_cases hff : fr = capRow ∧ fc = tc
        · rw [hff.1, hff.2]
          exact getCell_setCell_self hwf2 none ⟨hcapb.1, hcapb.2.1⟩
            ⟨hcapb.2.2.1, hcapb.2.2.2⟩
        · rw [getCell_setCell_other hwf2 none hff]
          have hcne : ¬(tr = capRow ∧ tc = tc) := by
            rintro ⟨h1, -⟩
            rw [hcap] at h1
            rcases hcc : c with _ | _ <;> rw [hcc] at h1 <;> simp at h1 <;> omega
          rw [getCell_setCell_other hwf1 v hcne]
          exact getCell_setCell_self hwf none ⟨hcapb.1, hcapb.2.1⟩
            ⟨hcapb.2.2.1, hcapb.2.2.2⟩
      exact hgen _
    · -- the destination square is occupied
      set capRow := if c = .white then tr + 1 else tr - 1 with hcap
      have htrb : 0 ≤ tr ∧ tr < 8 := by
        have h1 := hbounds.1
        have h2 := hbounds.2.1
        omega
      have htcb : 0 ≤ tc ∧ tc < 8 := by
        have h1 := hbounds.2.2.1
        have h2 := hbounds.2.2.2
        omega
      have hgen : ∀ p0 : Piece,
          (getCell (setCell (setCell (setCell g.board capRow tc none) tr tc (some p0))
            fr fc none) tr tc).isSome = true := by
        intro p0
        have hwf1 := setCell_boardWf hwf capRow tc (none : Option Piece)
        have hwf2 := setCell_boardWf hwf1 tr tc (some p0)
        have hfne : ¬(fr = tr ∧ fc = tc) := by
          rintro ⟨h1, h2⟩
          exact hne ⟨by omega, by omega⟩
        rw [getCell_setCell_other hwf2 none hfne]
        rw [getCell_setCell_self hwf1 (some p0) htrb htcb]
        rfl
      exact hgen _

/-- Witness for C6: Black captures the just-double-stepped White e4 pawn en
passant with dxe3; the White pawn disappears from e4 (rank 4), not from e3,
and the record stores the captured White pawn. -/
theorem en_passant_removes_pawn_from_its_square_witness :
    ∃ rec, (makeMove epGame 4 3 5 4 none 0).move = some rec ∧
      rec.captured = some ⟨Color.black.other, .pawn⟩ ∧
      rec.enPassant = true ∧
      getCell (makeMove epGame 4 3 5 4 none 0).game.board
        (if Color.black = .white then 5 + 1 else 5 - 1) 4 = none ∧
      (getCell (makeMove epGame 4 3 5 4 none 0).game.board 5 4).isSome = true :=
  en_passant_removes_pawn_from_its_square epGame 4 3 5 4 .black none 0
    (by decide) (by decide) (by decide) (by decide) (by decide) (by decide)

/-! ### C10: unvalidated promotion override -/

/-- C10: `makeMove` never rejects because of the promotion-override argument —
validity does not depend on it at all — and whenever the matched legal move is
a promotion, the destination cell receives the mover's color paired with
whatever override value the caller supplied, with no check against the four
officer kinds; in particular the concrete call promoting b7-b8 with the king
code succeeds and leaves two White kings on the board. -/
theorem makeMove_promotion_unchecked :
    (∀ (g : Game) (fr fc tr tc : Int) (ov ov2 : Option PieceType) (rnd rnd2 : Fin 4),
      (makeMove g fr fc tr tc ov rnd).valid = (makeMove g fr fc tr tc ov2 rnd2).valid) ∧
    (∀ (g : Game) (fr fc tr tc : Int) (p : PieceType) (rnd : Fin 4) (piece : Piece)
        (mv : Move),
      boardWf g.board →
      getCell g.board fr fc = some piece →
      (getLegalMoves g fr fc).find? (fun m => m.toRow == tr && m.toCol == tc) = some mv →
      mv.promotion.isSome = true →
      getCell (makeMove g fr fc tr tc (some p) rnd).game.board tr tc =
        some ⟨piece.color, p⟩) ∧
    ((makeMove promoGame 1 1 0 1 (some .king) 0).valid = true ∧
      kingCount (makeMove promoGame 1 1 0 1 (some .king) 0).game.board .white = 2) := by
  refine ⟨?_, ?_, by decide, by decide⟩
  · intro g fr fc tr tc ov ov2 rnd rnd2
    rcases hcell : getCell g.board fr fc with _ | piece
    · unfold makeMove
      rw [hcell]
    · rcases hfind : (getLegalMoves g fr fc).find?
          (fun m => m.toRow == tr && m.toCol == tc) with _ | mv
      · unfold makeMove
        rw [hcell]
        simp only [hfind]
      · unfold makeMove
        rw [hcell]
        simp only [hfind]
  · intro g fr fc tr tc p rnd piece mv hwf hcell hfind hpromo
    have hmem := List.mem_of_find?_eq_some hfind
    have hpred := List.find?_some hfind
    have htr : mv.toRow = tr := by
      have := (Bool.and_eq_true _ _).mp hpred
      exact beq_iff_eq.mp this.1
    have htc : mv.toCol = tc := by
      have := (Bool.and_eq_true _ _).mp hpred
      exact beq_iff_eq.mp this.2
    obtain ⟨p', hcell', -, hpseudo, -⟩ := mem_getLegalMoves hmem
    rw [hcell] at hcell'
    injection hcell' with hp'
    obtain ⟨pr, hpr⟩ := Option.isSome_iff_exists.mp hpromo
    have hshape := pseudo_shape hpseudo (getCell_bounds hcell)
    have hpawn : p'.ptype = .pawn := (hshape.2.2.1 pr hpr).2
    have hcastle : mv.castle = none := by
      rcases hcn : mv.castle with _ | side
      · rfl
      · exfalso
        have hk := hshape.2.2.2.2.1 (by rw [hcn]; exact fun h => Option.noConfusion h)
        rw [hpawn] at hk
        exact PieceType.noConfusion hk
    have hfne : ¬(fr = tr ∧ fc = tc) := by
      rintro ⟨h1, h2⟩
      exact hshape.2.1 ⟨by omega, by omega⟩
    have htrb : 0 ≤ tr ∧ tr < 8 := by
      have h1 := hshape.1.1
      have h2 := hshape.1.2.1
      omega
    have htcb : 0 ≤ tc ∧ tc < 8 := by
      have h1 := hshape.1.2.2.1
      have h2 := hshape.1.2.2.2
      omega
    unfold makeMove
    rw [hcell]
    simp only [hfind]
    unfold moveTarget applyMoveBoard promotionChoice
    simp only [hpr, hcastle]
    have hgen : ∀ b1 : Board, boardWf b1 →
        getCell (setCell (setCell b1 tr tc (some ⟨piece.color, p⟩)) fr fc none) tr tc =
          some ⟨piece.color, p⟩ := by
      intro b1 hb1
      rw [getCell_setCell_other (setCell_boardWf hb1 tr tc _) none hfne]
      exact getCell_setCell_self hb1 _ htrb htcb
    split
    · exact hgen _ (setCell_boardWf hwf _ _ _)
    · exact hgen _ hwf

/-- Witness for C10's general part: the concrete promotion with the king
override lands a second White king on b8. -/
theorem makeMove_promotion_unchecked_witness :
    getCell (makeMove promoGame 1 1 0 1 (some .king) 0).game.board 0 1 =
      some ⟨(Piece.mk .white .pawn).color, .king⟩ :=
  makeMove_promotion_unchecked.2.1 promoGame 1 1 0 1 .king 0 ⟨.white, .pawn⟩
    { toRow := 0, toCol := 1, capture := false, promotion := some .queen }
    (by decide) (by decide) (by decide) (by decide)

/-! ### C3: check / checkmate / stalemate policy -/

/-- Move generation depends only on the board, turn, en passant target and
castling rights — not on the history or game-over bookkeeping fields. -/
theorem getAllLegalMoves_congr {g1 g2 : Game} (hb : g1.board = g2.board)
    (ht : g1.turn = g2.turn) (hep : g1.enPassantTarget = g2.enPassantTarget)
    (hcw : g1.castlingW = g2.castlingW) (hcb : g1.castlingB = g2.castlingB) :
    getAllLegalMoves g1 = getAllLegalMoves g2 := by
  have hco : ∀ c, g1.castlingOf c = g2.castlingOf c := by
    intro c
    cases c <;> simp [Game.castlingOf, hcw, hcb]
  have hic : ∀ c, isInCheck g1 c = isInCheck g2 c := by
    intro c
    unfold isInCheck
    rw [hb]
  have hsa : ∀ r c col, isSquareAttacked g1 r c col = isSquareAttacked g2 r c col := by
    intro r c col
    unfold isSquareAttacked
    rw [hb]
  have hsim : ∀ fr fc tr tc pro,
      (simulateMove g1 fr fc tr tc pro).board = (simulateMove g2 fr fc tr tc pro).board := by
    intro fr fc tr tc pro
    unfold simulateMove
    rw [hb, hep]
    rcases getCell g2.board fr fc with _ | piece
    · rfl
    · rfl
  have hpm : ∀ r c color, pawnPseudoMoves g1 r c color = pawnPseudoMoves g2 r c color := by
    intro r c color
    unfold pawnPseudoMoves
    rw [hb, hep]
  have hcm : ∀ r c color, castleMoves g1 r c color = castleMoves g2 r c color := by
    intro r c color
    unfold castleMoves
    rw [hb]
    simp only [hco, hic, hsa]
  have hps : ∀ r c p, getPseudoLegalMoves g1 r c p = getPseudoLegalMoves g2 r c p := by
    intro r c p
    unfold getPseudoLegalMoves
    rcases p.ptype <;> simp only [hb, hpm, hcm]
  have hlm : ∀ r c, getLegalMoves g1 r c = getLegalMoves g2 r c := by
    intro r c
    unfold getLegalMoves
    rw [hb]
    rcases getCell g2.board r c with _ | p
    · rfl
    · have hflt : ∀ m : Move,
          isInCheck (simulateMove g1 r c m.toRow m.toCol m.promotion) p.color =
            isInCheck (simulateMove g2 r c m.toRow m.toCol m.promotion) p.color := by
        intro m
        unfold isInCheck
        rw [hsim]
      simp only [ht, hps, hflt]
  unfold getAllLegalMoves
  rw [hb, ht]
  simp only [hlm]

/-- A successful `makeMove`, named: the result is the `moveTarget` state plus
the pushed record and the game-over bookkeeping, and the record's status
flags are exactly the check/has-moves combinations computed on the
`moveTarget` state. -/
theorem makeMove_some (g : Game) (fr fc tr tc : Int) (ov : Option PieceType) (rnd : Fin 4)
    (piece : Piece) (mv : Move)
    (hcell : getCell g.board fr fc = some piece)
    (hfind : (getLegalMoves g fr fc).find?
      (fun m => m.toRow == tr && m.toCol == tc) = some mv) :
    ∃ rec : MoveRecord,
      makeMove g fr fc tr tc ov rnd =
        ⟨{ moveTarget g fr fc tr tc piece mv (promotionChoice mv ov rnd) with
            moveHistory := g.moveHistory ++ [rec]
            gameOver :=
              if rec.checkmate then true
              else if rec.stalemate then true
              else g.gameOver
            winner :=
              if rec.checkmate then some (colorWinner piece.color)
              else if rec.stalemate then some .draw
              else g.winner
            gameOverReason :=
              if rec.checkmate then some .checkmate
              else if rec.stalemate then some .stalemate
              else g.gameOverReason },
          true, some rec⟩ ∧
      rec.check =
        (isInCheck (moveTarget g fr fc tr tc piece mv (promotionChoice mv ov rnd))
            piece.color.other &&
          decide (0 < (getAllLegalMoves
            (moveTarget g fr fc tr tc piece mv (promotionChoice mv ov rnd))).length)) ∧
      rec.checkmate =
        (isInCheck (moveTarget g fr fc tr tc piece mv (promotionChoice mv ov rnd))
            piece.color.other &&
          !decide (0 < (getAllLegalMoves
            (moveTarget g fr fc tr tc piece mv (promotionChoice mv ov rnd))).length)) ∧
      rec.stalemate =
        (!isInCheck (moveTarget g fr fc tr tc piece mv (promotionChoice mv ov rnd))
            piece.color.other &&
          !decide (0 < (getAllLegalMoves
            (moveTarget g fr fc tr tc piece mv (promotionChoice mv ov rnd))).length)) := by
  unfold makeMove
  rw [hcell]
  simp only [hfind]
  exact ⟨_, rfl, rfl, rfl, rfl⟩

/-- C3: after every applied move the status flags and game-over fields follow
the policy evaluated on the resulting position (turn already switched):
opponent in check with no legal moves means checkmate with the mover as
winner and the game over; no legal moves without check means stalemate and a
draw; check with moves remaining sets only the check flag and leaves the
game-over fields untouched.  And the fool's mate sequence 1. f3 e5 2. g4
Qh4# ends with the game over, Black the winner, reason checkmate, and zero
legal moves for White. -/
theorem check_checkmate_stalemate_policy :
    (∀ (g : Game) (fr fc tr tc : Int) (ov : Option PieceType) (rnd : Fin 4)
        (rec : MoveRecord),
      (makeMove g fr fc tr tc ov rnd).move = some rec →
      rec.check =
        (isInCheck (makeMove g fr fc tr tc ov rnd).game
            (makeMove g fr fc tr tc ov rnd).game.turn &&
          decide (0 < (getAllLegalMoves (makeMove g fr fc tr tc ov rnd).game).length)) ∧
      rec.checkmate =
        (isInCheck (makeMove g fr fc tr tc ov rnd).game
            (makeMove g fr fc tr tc ov rnd).game.turn &&
          !decide (0 < (getAllLegalMoves (makeMove g fr fc tr tc ov rnd).game).length)) ∧
      rec.stalemate =
        (!isInCheck (makeMove g fr fc tr tc ov rnd).game
            (makeMove g fr fc tr tc ov rnd).game.turn &&
          !decide (0 < (getAllLegalMoves (makeMove g fr fc tr tc ov rnd).game).length)) ∧
      (rec.checkmate = true →
        (makeMove g fr fc tr tc ov rnd).game.gameOver = true ∧
        (makeMove g fr fc tr tc ov rnd).game.winner = some (colorWinner g.turn) ∧
        (makeMove g fr fc tr tc ov rnd).game.gameOverReason = some .checkmate) ∧
      (rec.stalemate = true →
        (makeMove g fr fc tr tc ov rnd).game.gameOver = true ∧
        (makeMove g fr fc tr tc ov rnd).game.winner = some Winner.draw ∧
        (makeMove g fr fc tr tc ov rnd).game.gameOverReason = some .stalemate) ∧
      (rec.checkmate = false → rec.stalemate = false →
        (makeMove g fr fc tr tc ov rnd).game.gameOver = g.gameOver ∧
        (makeMove g fr fc tr tc ov rnd).game.winner = g.winner ∧
        (makeMove g fr fc tr tc ov rnd).game.gameOverReason = g.gameOverReason)) ∧
    (foolsMate4.gameOver = true ∧ foolsMate4.winner = some Winner.black ∧
      foolsMate4.gameOverReason = some EndReason.checkmate ∧
      foolsMate4.turn = .white ∧ getAllLegalMoves foolsMate4 = []) := by
  constructor
  · intro g fr fc tr tc ov rnd rec hrec
    rcases hcell : getCell g.board fr fc with _ | piece
    · exfalso
      unfold makeMove at hrec
      rw [hcell] at hrec
      exact Option.noConfusion hrec
    · rcases hfind : (getLegalMoves g fr fc).find?
          (fun m => m.toRow == tr && m.toCol == tc) with _ | mv
      · exfalso
        unfold makeMove at hrec
        rw [hcell] at hrec
        simp only [hfind] at hrec
        exact Option.noConfusion hrec
      · obtain ⟨rec', heq, hck, hcm, hsm⟩ :=
          makeMove_some g fr fc tr tc ov rnd piece mv hcell hfind
        have hrec' : rec' = rec := by
          rw [heq] at hrec
          exact Option.some.inj hrec
        subst hrec'
        have hpc : piece.color = g.turn := by
          obtain ⟨p', hcell', hpcol, -, -⟩ :=
            mem_getLegalMoves (List.mem_of_find?_eq_some hfind)
          rw [hcell] at hcell'
          injection hcell' with hp'
          rw [hp']
          exact hpcol
        have hturn : (makeMove g fr fc tr tc ov rnd).game.turn = piece.color.other := by
          rw [heq]
          rfl
        have hboard : (makeMove g fr fc tr tc ov rnd).game.board =
            (moveTarget g fr fc tr tc piece mv (promotionChoice mv ov rnd)).board := by
          rw [heq]
        have hic : isInCheck (makeMove g fr fc tr tc ov rnd).game
            ((makeMove g fr fc tr tc ov rnd).game.turn) =
            isInCheck (moveTarget g fr fc tr tc piece mv (promotionChoice mv ov rnd))
              piece.color.other := by
          rw [hturn]
          unfold isInCheck
          rw [hboard]
        have hAL : getAllLegalMoves (makeMove g fr fc tr tc ov rnd).game =
            getAllLegalMoves (moveTarget g fr fc tr tc piece mv (promotionChoice mv ov rnd)) :=
          getAllLegalMoves_congr hboard (by rw [heq]) (by rw [heq])
            (by rw [heq]) (by rw [heq])
        refine ⟨by rw [hic, hAL]; exact hck, by rw [hic, hAL]; exact hcm,
          by rw [hic, hAL]; exact hsm, ?_, ?_, ?_⟩
        · intro hCM
          rw [heq]
          simp [hCM, hpc]
        · intro hSM
          have hx : (!isInCheck (moveTarget g fr fc tr tc piece mv
              (promotionChoice mv ov rnd)) piece.color.other &&
              !decide (0 < (getAllLegalMoves (moveTarget g fr fc tr tc piece mv
                (promotionChoice mv ov rnd))).length)) = true := by
            rw [← hsm]
            exact hSM
          simp only [Bool.and_eq_true, Bool.not_eq_true'] at hx
          have hCMf : rec'.checkmate = false := by
            rw [hcm, hx.1]
            simp
          rw [heq]
          simp [hCMf, hSM]
        · intro hCMf hSMf
          rw [heq]
          simp [hCMf, hSMf]
  · exact ⟨by decide, by decide, by decide, by decide, by decide⟩

/-- Witness for C3's policy part: White's opening 1. f3 from the initial
position (a quiet move: no check, no mate, no stalemate, bookkeeping
untouched). -/
theorem check_checkmate_stalemate_policy_witness :
    (makeMove createGame 6 5 5 5 none 0).move = some
      { fromSq := (6, 5), toSq := (5, 5), piece := ⟨.white, .pawn⟩, captured := none,
        promotion := none, castle := none, enPassant := false, check := false,
        checkmate := false, stalemate := false } ∧
    MoveRecord.check
      { fromSq := (6, 5), toSq := (5, 5), piece := ⟨.white, .pawn⟩, captured := none,
        promotion := none, castle := none, enPassant := false, check := false,
        checkmate := false, stalemate := false } =
      (isInCheck (makeMove createGame 6 5 5 5 none 0).game
          (makeMove createGame 6 5 5 5 none 0).game.turn &&
        decide (0 < (getAllLegalMoves (makeMove createGame 6 5 5 5 none 0).game).length)) := by
  have h := (check_checkmate_stalemate_policy.1 createGame 6 5 5 5 none 0
    { fromSq := (6, 5), toSq := (5, 5), piece := ⟨.white, .pawn⟩, captured := none,
      promotion := none, castle := none, enPassant := false, check := false,
      checkmate := false, stalemate := false } (by decide)).1
  exact ⟨by decide, h⟩

/-! ### C7: the static evaluation -/

/-- Folding additions over a list equals the initial value plus the sum of the
mapped list. -/
theorem foldl_add_map {α : Type} (f : α → Int) (l : List α) (a : Int) :
    l.foldl (fun s x => s + f x) a = a + (l.map f).sum := by
  induction l generalizing a with
  | nil => simp
  | cons x xs ih =>
    simp only [List.foldl_cons, List.map_cons, List.sum_cons, ih]
    ring

/-- Counterexample to C7 as stated: in `c7game` the side to move (White) is in
check while the side not to move (Black) is not, so the claim's formula
applies no adjustment — but the code subtracts 50 for the White check, and
the two values differ. -/
theorem evaluate_ne_claim_formula :
    isInCheck c7game c7game.turn = true ∧
    isInCheck c7game c7game.turn.other = false ∧
    evaluate c7game ≠ evaluateClaimC7 c7game ∧
    evaluate c7game = evaluateClaimC7 c7game - 50 := by
  refine ⟨by decide, by decide, by decide, by decide⟩

/-- C7 (amended): for every game state the static evaluation equals, from
White's perspective, the sum over the 64 squares of the signed material value
plus the signed piece-square-table bonus (mirrored vertically for Black),
plus a flat +50 when Black is in check and a flat -50 when White is in check
— each check adjustment applied regardless of which side is to move. -/
theorem evaluate_eq_material_pst_check (g : Game) :
    evaluate g = evaluateAmendedC7 g := by
  unfold evaluate evaluateAmendedC7
  rw [foldl_add_map]
  rcases hb : isInCheck g .black with _ | _ <;>
    rcases hw : isInCheck g .white with _ | _ <;>
    simp <;> ring

/-! ### C8: the search root choice -/

/-- A left fold of `max` never goes below its seed. -/
theorem le_foldl_max (l : List Int) : ∀ s : Int, s ≤ l.foldl max s := by
  induction l with
  | nil => intro s; simp
  | cons x xs ih =>
    intro s
    simp only [List.foldl_cons]
    exact le_trans (le_max_left s x) (ih (max s x))

/-- A left fold of `min` never goes above its seed. -/
theorem foldl_min_le (l : List Int) : ∀ s : Int, l.foldl min s ≤ s := by
  induction l with
  | nil => intro s; simp
  | cons x xs ih =>
    intro s
    simp only [List.foldl_cons]
    exact le_trans (ih (min s x)) (min_le_left s x)

theorem loopPick_true_cons (mv : RootMove) (sc : Int) (rest : List (RootMove × Int))
    (b : Option RootMove) (s : Int) :
    loopPick true ((mv, sc) :: rest) b s =
      if s < sc then loopPick true rest (some mv) sc else loopPick true rest b s := rfl

theorem loopPick_false_cons (mv : RootMove) (sc : Int) (rest : List (RootMove × Int))
    (b : Option RootMove) (s : Int) :
    loopPick false ((mv, sc) :: rest) b s =
      if sc < s then loopPick false rest (some mv) sc else loopPick false rest b s := rfl

/-- The strict-improvement loop picks the first move attaining the running
maximum, or keeps its accumulator when nothing beats the seed. -/
theorem loopPick_max_eq (l : List (RootMove × Int)) : ∀ (b : Option RootMove) (s : Int),
    loopPick true l b s =
      if s < (l.map Prod.snd).foldl max s then
        (l.find? fun p => p.2 == (l.map Prod.snd).foldl max s).map Prod.fst
      else b := by
  induction l with
  | nil =>
    intro b s
    simp [loopPick]
  | cons p rest ih =>
    intro b s
    obtain ⟨mv, sc⟩ := p
    rw [loopPick_true_cons]
    simp only [List.map_cons, List.foldl_cons]
    by_cases hgt : s < sc
    · rw [if_pos hgt]
      have hmax : max s sc = sc := by omega
      rw [hmax, ih (some mv) sc]
      have hle := le_foldl_max (rest.map Prod.snd) sc
      by_cases h2 : sc < (rest.map Prod.snd).foldl max sc
      · rw [if_pos h2, if_pos (by omega)]
        have hne : ((sc : Int) == (rest.map Prod.snd).foldl max sc) = false := by
          simp
          omega
        rw [List.find?_cons_of_neg _ (by simpa using hne)]
      · rw [if_neg h2]
        have hM : (rest.map Prod.snd).foldl max sc = sc := by omega
        rw [hM, if_pos hgt]
        rw [List.find?_cons_of_pos _ (by simp)]
        rfl
    · rw [if_neg hgt]
      have hmax : max s sc = s := by omega
      rw [hmax, ih b s]
      by_cases h2 : s < (rest.map Prod.snd).foldl max s
      · rw [if_pos h2, if_pos h2]
        have hne : ((sc : Int) == (rest.map Prod.snd).foldl max s) = false := by
          simp
          omega
        rw [List.find?_cons_of_neg _ (by simpa using hne)]
      · rw [if_neg h2, if_neg h2]

/-- Dual of `loopPick_max_eq` for the minimizing root. -/
theorem loopPick_min_eq (l : List (RootMove × Int)) : ∀ (b : Option RootMove) (s : Int),
    loopPick false l b s =
      if (l.map Prod.snd).foldl min s < s then
        (l.find? fun p => p.2 == (l.map Prod.snd).foldl min s).map Prod.fst
      else b := by
  induction l with
  | nil =>
    intro b s
    simp [loopPick]
  | cons p rest ih =>
    intro b s
    obtain ⟨mv, sc⟩ := p
    rw [loopPick_false_cons]
    simp only [List.map_cons, List.foldl_cons]
    by_cases hlt : sc < s
    · rw [if_pos hlt]
      have hmin : min s sc = sc := by omega
      rw [hmin, ih (some mv) sc]
      have hle := foldl_min_le (rest.map Prod.snd) sc
      by_cases h2 : (rest.map Prod.snd).foldl min sc < sc
      · rw [if_pos h2, if_pos (by omega)]
        have hne : ((sc : Int) == (rest.map Prod.snd).foldl min sc) = false := by
          simp
          omega
        rw [List.find?_cons_of_neg _ (by simpa using hne)]
      · rw [if_neg h2]
        have hM : (rest.map Prod.snd).foldl min sc = sc := by omega
        rw [hM, if_pos hlt]
        rw [List.find?_cons_of_pos _ (by simp)]
        rfl
    · rw [if_neg hlt]
      have hmin : min s sc = s := by omega
      rw [hmin, ih b s]
      by_cases h2 : (rest.map Prod.snd).foldl min s < s
      · rw [if_pos h2, if_pos h2]
        have hne : ((sc : Int) == (rest.map Prod.snd).foldl min s) = false := by
          simp
          omega
        rw [List.find?_cons_of_neg _ (by simpa using hne)]
      · rw [if_neg h2, if_neg h2]

/-- The root loop of `getHardMove` is the pure pick loop applied to the scored
list, with identical stream threading. -/
theorem hardLoop_eq_loopPick (rng : RndStream) (g : Game) (maximizing : Bool)
    (ms : List RootMove) : ∀ (idx : Nat) (b : Option RootMove) (s : Int),
    hardLoop rng g maximizing ms idx b s =
      loopPick maximizing (rootScores rng g maximizing ms idx) b s := by
  induction ms with
  | nil =>
    intro idx b s
    simp [hardLoop, rootScores, loopPick]
  | cons mv rest ih =>
    intro idx b s
    simp only [hardLoop, rootScores]
    rcases hv : (makeMoveAI rng idx g mv.fromRow mv.fromCol mv.m.toRow mv.m.toCol).1.valid
      with _ | _
    · simp only [Bool.not_false, if_true]
      exact ih _ b s
    · simp only [Bool.not_true, Bool.false_eq_true, if_false]
      rw [loopPick]
      by_cases himp : (if maximizing then
          (minimaxF rng 3 (makeMoveAI rng idx g mv.fromRow mv.fromCol mv.m.toRow
            mv.m.toCol).1.game (-INF) INF (!maximizing)
            (makeMoveAI rng idx g mv.fromRow mv.fromCol mv.m.toRow mv.m.toCol).2).1 > s
        else
          (minimaxF rng 3 (makeMoveAI rng idx g mv.fromRow mv.fromCol mv.m.toRow
            mv.m.toCol).1.game (-INF) INF (!maximizing)
            (makeMoveAI rng idx g mv.fromRow mv.fromCol mv.m.toRow mv.m.toCol).2).1 < s)
      · rw [if_pos himp, if_pos himp, ih]
      · rw [if_neg himp, if_neg himp, ih]

/-- C8 (amended): the root of `getHardMove` picks, among the root moves as
scored by the depth-3 minimax evaluations (in iteration order, with the
random-promotion stream threaded through), the first move attaining the
maximum score when White is to move and the first attaining the minimum
otherwise — strict improvement, so ties keep the first-encountered move. -/
theorem getHardMove_picks_first_best (rng : RndStream) (g : Game)
    (hbound : ∀ p ∈ rootScores rng g (g.turn == .white) (getAllLegalMoves g) 0,
      -INF < p.2 ∧ p.2 < INF) :
    getHardMove rng g =
      pickBestFirst (g.turn == .white)
        (rootScores rng g (g.turn == .white) (getAllLegalMoves g) 0) := by
  unfold getHardMove
  by_cases hlen : (getAllLegalMoves g).length = 0
  · rw [if_pos hlen]
    have hnil : getAllLegalMoves g = [] := List.length_eq_zero.mp hlen
    rw [hnil]
    rfl
  · rw [if_neg hlen]
    rw [hardLoop_eq_loopPick]
    rcases hmax : (g.turn == Color.white) with _ | _
    · rw [hmax] at hbound
      simp only [Bool.false_eq_true, if_false]
      rw [loopPick_min_eq]
      rcases hsc : rootScores rng g false (getAllLegalMoves g) 0 with _ | ⟨⟨mv, sc⟩, rest⟩
      · simp [pickBestFirst, bestOf]
      · rw [hsc] at hbound
        have hscb := hbound (mv, sc) (by simp)
        have hfold : (((mv, sc) :: rest).map Prod.snd).foldl min INF < INF := by
          simp only [List.map_cons, List.foldl_cons]
          have h1 := foldl_min_le (rest.map Prod.snd) (min INF sc)
          have h2 : min INF sc ≤ sc := min_le_right _ _
          simp only [Prod.snd] at hscb
          omega
        rw [if_pos hfold]
        rfl
    · rw [hmax] at hbound
      simp only [if_true]
      rw [loopPick_max_eq]
      rcases hsc : rootScores rng g true (getAllLegalMoves g) 0 with _ | ⟨⟨mv, sc⟩, rest⟩
      · simp [pickBestFirst, bestOf]
      · rw [hsc] at hbound
        have hscb := hbound (mv, sc) (by simp)
        have hfold : -INF < (((mv, sc) :: rest).map Prod.snd).foldl max (-INF) := by
          simp only [List.map_cons, List.foldl_cons]
          have h1 := le_foldl_max (rest.map Prod.snd) (max (-INF) sc)
          have h2 : sc ≤ max (-INF) sc := le_max_right _ _
          simp only [Prod.snd] at hscb
          omega
        rw [if_pos hfold]
        rfl

/-- Witness for C8's amended theorem: the concrete position `c8game` with the
all-queens stream, where the root picks the a8=Q promotion. -/
theorem getHardMove_picks_first_best_witness :
    getHardMove (fun _ => (0 : Fin 4)) c8game =
      pickBestFirst (c8game.turn == .white)
        (rootScores (fun _ => (0 : Fin 4)) c8game (c8game.turn == .white)
          (getAllLegalMoves c8game) 0) :=
  getHardMove_picks_first_best (fun _ => (0 : Fin 4)) c8game (by decide)

/-- Counterexample to C8 as stated: two invocations of `getHardMove` on the
same input state, whose hidden `Math.random()` promotion draws differ (one
run draws queens, the other knights), choose different moves — the promotion
randomness inside the search makes the selector non-deterministic across
invocations. -/
theorem getHardMove_not_deterministic :
    getHardMove (fun _ => (0 : Fin 4)) c8game ≠ getHardMove (fun _ => (3 : Fin 4)) c8game :=
  by decide

/-! ### Counting kings: list-level helpers -/

theorem mapSet {α β : Type} (f : α → β) : ∀ (l : List α) (i : Nat) (a : α),
    (l.set i a).map f = (l.map f).set i (f a)
  | [], _, _ => rfl
  | _ :: _, 0, _ => rfl
  | x :: xs, i + 1, a => by
    simp only [List.set_cons_succ, List.map_cons, mapSet f xs i a]

theorem sumSetAdd : ∀ (l : List Nat) (i : Nat) (a v : Nat), l.get? i = some v →
    (l.set i a).sum + v = l.sum + a
  | [], i, a, v, h => by simp at h
  | x :: xs, 0, a, v, h => by
    simp only [List.get?] at h
    injection h with h
    subst h
    simp only [List.set_cons_zero, List.sum_cons]
    omega
  | x :: xs, i + 1, a, v, h => by
    simp only [List.get?] at h
    have ih := sumSetAdd xs i a v h
    simp only [List.set_cons_succ, List.sum_cons]
    omega

theorem countPSetAdd {α : Type} (p : α → Bool) : ∀ (l : List α) (i : Nat) (a x : α),
    l.get? i = some x →
    (l.set i a).countP p + (if p x then 1 else 0) = l.countP p + (if p a then 1 else 0)
  | [], i, a, x, h => by simp at h
  | y :: ys, 0, a, x, h => by
    simp only [List.get?] at h
    injection h with h
    rw [List.set_cons_zero, List.countP_cons, List.countP_cons, ← h]
    by_cases hy : p y <;> by_cases ha : p a <;> simp [hy, ha] <;> omega
  | y :: ys, i + 1, a, x, h => by
    simp only [List.get?] at h
    have ih := countPSetAdd p ys i a x h
    simp only [List.set_cons_succ, List.countP_cons]
    by_cases hy : p y <;> simp [hy] <;> omega

theorem oneLeCountP {α : Type} (p : α → Bool) : ∀ (l : List α) (i : Nat) (x : α),
    l.get? i = some x → p x = true → 1 ≤ l.countP p
  | [], i, x, h, _ => by simp at h
  | y :: ys, 0, x, h, hp => by
    simp only [List.get?] at h
    injection h with h
    subst h
    simp [List.countP_cons, hp]
  | y :: ys, i + 1, x, h, hp => by
    simp only [List.get?] at h
    have ih := oneLeCountP p ys i x h hp
    simp only [List.countP_cons]
    omega

theorem twoLeCountP {α : Type} (p : α → Bool) : ∀ (l : List α) (i j : Nat) (x y : α),
    i < j → l.get? i = some x → l.get? j = some y → p x = true → p y = true →
    2 ≤ l.countP p := by
  intro l
  induction l with
  | nil => intro i j x y hij hx hy hpx hpy; simp at hx
  | cons z zs ih =>
    intro i j x y hij hx hy hpx hpy
    match i, j, hij with
    | 0, j + 1, _ =>
      simp only [List.get?] at hx hy
      injection hx with hx
      subst hx
      have h1 := oneLeCountP p zs j y hy hpy
      simp only [List.countP_cons, hpx, if_true]
      omega
    | i + 1, j + 1, h =>
      simp only [List.get?] at hx hy
      have h2 := ih i j x y (by omega) hx hy hpx hpy
      simp only [List.countP_cons]
      omega

theorem getLeSum : ∀ (l : List Nat) (i : Nat) (x : Nat), l.get? i = some x → x ≤ l.sum := by
  intro l
  induction l with
  | nil => intro i x h; simp at h
  | cons z zs ih =>
    intro i x h
    match i with
    | 0 =>
      simp only [List.get?] at h
      injection h with h
      subst h
      simp only [List.sum_cons]
      omega
    | i + 1 =>
      simp only [List.get?] at h
      have h2 := ih i x h
      simp only [List.sum_cons]
      omega

theorem twoLeSum : ∀ (l : List Nat) (i j : Nat) (x y : Nat), i < j →
    l.get? i = some x → l.get? j = some y → 1 ≤ x → 1 ≤ y → 2 ≤ l.sum := by
  intro l
  induction l with
  | nil => intro i j x y hij hx hy h1 h2; simp at hx
  | cons z zs ih =>
    intro i j x y hij hx hy h1 h2
    match i, j, hij with
    | 0, j + 1, _ =>
      simp only [List.get?] at hx hy
      injection hx with hx
      subst hx
      have h3 := getLeSum zs j y hy
      simp only [List.sum_cons]
      omega
    | i + 1, j + 1, h =>
      simp only [List.get?] at hx hy
      have h3 := ih i j x y (by omega) hx hy h1 h2
      simp only [List.sum_cons]
      omega

/-! ### Counting kings: board-level helpers -/

theorem mem_allSquares {r c : Int} : (r, c) ∈ allSquares ↔ 0 ≤ r ∧ r < 8 ∧ 0 ≤ c ∧ c < 8 := by
  constructor
  · intro h
    unfold allSquares at h
    rw [List.mem_flatMap] at h
    obtain ⟨a, ha, h⟩ := h
    rw [List.mem_map] at h
    obtain ⟨b0, hb0, heq⟩ := h
    rw [List.mem_range] at ha
    rw [List.mem_range] at hb0
    injection heq with e1 e2
    simp only [Int.ofNat_eq_coe] at e1 e2
    omega
  · intro h
    unfold allSquares
    rw [List.mem_flatMap]
    refine ⟨r.toNat, ?_, ?_⟩
    · rw [List.mem_range]
      omega
    · rw [List.mem_map]
      refine ⟨c.toNat, ?_, ?_⟩
      · rw [List.mem_range]
        omega
      · simp only [Prod.mk.injEq, Int.ofNat_eq_coe]
        constructor <;> omega

theorem getCell_eq_rowGet {b : Board} (hwf : boardWf b) {r c : Int}
    (hin : 0 ≤ r ∧ r < 8 ∧ 0 ≤ c ∧ c < 8) :
    ∃ row, b.get? r.toNat = some row ∧ row.length = 8 ∧
      row.get? c.toNat = some (getCell b r c) := by
  rcases hrow : b.get? r.toNat with _ | row
  · have h := List.get?_eq_none.mp hrow
    rw [hwf.1] at h
    omega
  · have hlen : row.length = 8 := hwf.2 row (List.get?_mem hrow)
    refine ⟨row, rfl, hlen, ?_⟩
    unfold getCell
    rw [if_pos hin, hrow]
    simp only [Option.getD_some]
    rcases hcell : row.get? c.toNat with _ | cell
    · have h := List.get?_eq_none.mp hcell
      omega
    · simp [hcell]

theorem kingCount_setCell {b : Board} (hwf : boardWf b) {r c : Int}
    (hin : 0 ≤ r ∧ r < 8 ∧ 0 ≤ c ∧ c < 8) (v : Option Piece) (col : Color) :
    kingCount (setCell b r c v) col +
        (if getCell b r c = some ⟨col, .king⟩ then 1 else 0) =
      kingCount b col + (if v = some ⟨col, .king⟩ then 1 else 0) := by
  obtain ⟨row, hrow, hlen, hcellrow⟩ := getCell_eq_rowGet hwf hin
  unfold setCell kingCount
  rw [if_pos hin, hrow]
  simp only [Option.getD_some]
  set p : Option Piece → Bool := fun cell => cell == some ⟨col, .king⟩ with hp
  rw [mapSet (fun row : List (Option Piece) => row.countP p)]
  have hmrow : (b.map fun row => row.countP p).get? r.toNat = some (row.countP p) := by
    rw [List.get?_map, hrow]
    rfl
  have hsum := sumSetAdd (b.map fun row => row.countP p) r.toNat
    ((row.set c.toNat v).countP p) (row.countP p) hmrow
  have hcnt := countPSetAdd p row c.toNat v (getCell b r c) hcellrow
  have e1 : (if p (getCell b r c) then 1 else 0) =
      (if getCell b r c = some ⟨col, .king⟩ then 1 else 0) := by
    by_cases h : getCell b r c = some ⟨col, .king⟩ <;> simp [hp, h]
  have e2 : (if p v then 1 else 0) = (if v = some ⟨col, .king⟩ then 1 else 0) := by
    by_cases h : v = some ⟨col, .king⟩ <;> simp [hp, h]
  rw [e1, e2] at hcnt
  omega

theorem kingCount_setCell_keep {b : Board} (hwf : boardWf b) {r c : Int}
    (hin : 0 ≤ r ∧ r < 8 ∧ 0 ≤ c ∧ c < 8) (v : Option Piece) (col : Color)
    (hold : ∀ t, getCell b r c = some t → t.ptype ≠ .king)
    (hnew : ∀ t, v = some t → t.ptype ≠ .king) :
    kingCount (setCell b r c v) col = kingCount b col := by
  have h := kingCount_setCell hwf hin v col
  have e1 : (if getCell b r c = some ⟨col, .king⟩ then 1 else 0) = 0 := by
    rw [if_neg]
    intro hx
    exact hold _ hx rfl
  have e2 : (if v = some ⟨col, .king⟩ then 1 else 0) = 0 := by
    rw [if_neg]
    intro hx
    exact hnew _ hx rfl
  omega

theorem kingCount_unique {b : Board} (hwf : boardWf b) {col : Color}
    (hone : kingCount b col = 1) {r1 c1 r2 c2 : Int}
    (k1 : getCell b r1 c1 = some ⟨col, .king⟩) (k2 : getCell b r2 c2 = some ⟨col, .king⟩) :
    r1 = r2 ∧ c1 = c2 := by
  have hin1 := getCell_bounds k1
  have hin2 := getCell_bounds k2
  obtain ⟨row1, hrow1, hlen1, hc1⟩ := getCell_eq_rowGet hwf hin1
  obtain ⟨row2, hrow2, hlen2, hc2⟩ := getCell_eq_rowGet hwf hin2
  rw [k1] at hc1
  rw [k2] at hc2
  unfold kingCount at hone
  set p : Option Piece → Bool := fun cell => cell == some ⟨col, .king⟩ with hp
  have hpk : p (some ⟨col, .king⟩) = true := by simp [hp]
  by_contra hne
  by_cases hr : r1.toNat = r2.toNat
  · have hre : r1 = r2 := by omega
    rw [hre, hrow2] at hrow1
    injection hrow1 with hrw
    subst hrw
    have hcne : c1.toNat ≠ c2.toNat := by
      intro hceq
      exact hne ⟨hre, by omega⟩
    have h2le : 2 ≤ row2.countP p := by
      rcases Nat.lt_or_ge c1.toNat c2.toNat with hlt | hge
      · exact twoLeCountP p row2 c1.toNat c2.toNat _ _ hlt hc1 hc2 hpk hpk
      · exact twoLeCountP p row2 c2.toNat c1.toNat _ _ (by omega) hc2 hc1 hpk hpk
    have hmem : (b.map fun row => row.countP p).get? r2.toNat = some (row2.countP p) := by
      rw [List.get?_map, hrow2]
      rfl
    have hle := getLeSum _ _ _ hmem
    omega
  · have hm1 : (b.map fun row => row.countP p).get? r1.toNat = some (row1.countP p) := by
      rw [List.get?_map, hrow1]
      rfl
    have hm2 : (b.map fun row => row.countP p).get? r2.toNat = some (row2.countP p) := by
      rw [List.get?_map, hrow2]
      rfl
    have hle1 := oneLeCountP p row1 c1.toNat _ hc1 hpk
    have hle2 := oneLeCountP p row2 c2.toNat _ hc2 hpk
    have h2 : 2 ≤ (b.map fun row => row.countP p).sum := by
      rcases Nat.lt_or_ge r1.toNat r2.toNat with hlt | hge
      · exact twoLeSum _ _ _ _ _ hlt hm1 hm2 hle1 hle2
      · exact twoLeSum _ _ _ _ _ (by omega) hm2 hm1 hle2 hle1
    omega

theorem findKingB_unique {b : Board} (hwf : boardWf b) {col : Color}
    (hone : kingCount b col = 1) {r c : Int}
    (hk : getCell b r c = some ⟨col, .king⟩) : findKingB b col = some (r, c) := by
  have hin := getCell_bounds hk
  rcases hfind : findKingB b col with _ | k
  · exfalso
    unfold findKingB at hfind
    rw [List.find?_eq_none] at hfind
    have h := hfind (r, c) (mem_allSquares.mpr hin)
    simp [hk] at h
  · have hpk := List.find?_some hfind
    have hkk : getCell b k.1 k.2 = some ⟨col, .king⟩ := by simpa using hpk
    obtain ⟨h1, h2⟩ := kingCount_unique hwf hone hkk hk
    obtain ⟨ka, kb⟩ := k
    simp_all

theorem isSquareAttackedB_of_attack {b : Board} {fr fc tr tc : Int} {piece : Piece}
    (hcell : getCell b fr fc = some piece)
    (hmem : (tr, tc) ∈ getAttacksForPiece b fr fc piece) :
    isSquareAttackedB b tr tc piece.color = true := by
  unfold isSquareAttackedB
  rw [List.any_eq_true]
  refine ⟨(fr, fc), mem_allSquares.mpr (getCell_bounds hcell), ?_⟩
  simp only [hcell, beq_self_eq_true, Bool.true_and]
  rw [List.any_eq_true]
  exact ⟨(tr, tc), hmem, by simp⟩

theorem Color.other_other (c : Color) : c.other.other = c := by
  cases c <;> rfl

theorem Color.eq_other_of_ne {c1 c2 : Color} (h : c1 ≠ c2) : c1 = c2.other := by
  cases c1 <;> cases c2 <;> simp [Color.other] at h ⊢

/-! ### Congruence of check detection under same-occupancy boards -/

theorem ite_bool_prop {α : Type} {b : Bool} {p : Prop} [Decidable p]
    (h : b = true ↔ p) (x y : α) : (if b then x else y) = if p then x else y := by
  by_cases hp : p
  · rw [if_pos (h.mpr hp), if_pos hp]
  · rw [if_neg (fun hb => hp (h.mp hb)), if_neg hp]

theorem rayAttacks_congr {b1 b2 : Board}
    (hocc : ∀ r c, (getCell b1 r c).isSome = (getCell b2 r c).isSome)
    (r0 c0 dr dc : Int) : ∀ (fuel i : Nat),
    rayAttacks b1 r0 c0 dr dc i fuel = rayAttacks b2 r0 c0 dr dc i fuel := by
  intro fuel
  induction fuel with
  | zero => intro i; rfl
  | succ f ihf =>
    intro i
    simp only [rayAttacks]
    rw [hocc, ihf]

theorem getAttacksForPiece_congr {b1 b2 : Board}
    (hocc : ∀ r c, (getCell b1 r c).isSome = (getCell b2 r c).isSome)
    (row col : Int) (p : Piece) :
    getAttacksForPiece b1 row col p = getAttacksForPiece b2 row col p := by
  obtain ⟨pc, pt⟩ := p
  cases pt <;> simp [getAttacksForPiece, rayAttacks_congr hocc]

theorem findPredCongr {α : Type} {p q : α → Bool} :
    ∀ {l : List α}, (∀ a ∈ l, p a = q a) → l.find? p = l.find? q
  | [], _ => rfl
  | x :: xs, h => by
    simp only [List.find?]
    rw [h x (by simp)]
    rcases hq : q x with _ | _
    · simp only []
      exact findPredCongr fun a ha => h a (by simp [ha])
    · rfl

theorem anyPredCongr {α : Type} {p q : α → Bool} :
    ∀ {l : List α}, (∀ a ∈ l, p a = q a) → l.any p = l.any q
  | [], _ => rfl
  | x :: xs, h => by
    simp only [List.any_cons]
    rw [h x (by simp), anyPredCongr fun a ha => h a (by simp [ha])]

theorem findKingB_congr {b1 b2 : Board} (col : Color)
    (hrel : ∀ r c, getCell b1 r c = getCell b2 r c ∨
      (∃ t1 t2 : Piece, getCell b1 r c = some t1 ∧ getCell b2 r c = some t2 ∧
        t1.ptype ≠ .king ∧ t2.ptype ≠ .king)) :
    findKingB b1 col = findKingB b2 col := by
  unfold findKingB
  apply findPredCongr
  intro a _
  rcases hrel a.1 a.2 with h | ⟨t1, t2, h1, h2, hk1, hk2⟩
  · rw [h]
  · rw [h1, h2]
    have e1 : (some t1 == some ⟨col, .king⟩) = false := by
      simp
      intro hx
      exact absurd (congrArg Piece.ptype hx) hk1
    have e2 : (some t2 == some ⟨col, .king⟩) = false := by
      simp
      intro hx
      exact absurd (congrArg Piece.ptype hx) hk2
    rw [e1, e2]

theorem isSquareAttackedB_congr {b1 b2 : Board} {row col : Int} {byColor : Color}
    (hrel : ∀ r c, getCell b1 r c = getCell b2 r c ∨
      (∃ t1 t2 : Piece, getCell b1 r c = some t1 ∧ getCell b2 r c = some t2 ∧
        t1.color = t2.color ∧ t1.color ≠ byColor)) :
    isSquareAttackedB b1 row col byColor = isSquareAttackedB b2 row col byColor := by
  have hocc : ∀ r c, (getCell b1 r c).isSome = (getCell b2 r c).isSome := by
    intro r c
    rcases hrel r c with h | ⟨t1, t2, h1, h2, -, -⟩
    · rw [h]
    · rw [h1, h2]
      rfl
  unfold isSquareAttackedB
  apply anyPredCongr
  intro a _
  rcases hrel a.1 a.2 with h | ⟨t1, t2, h1, h2, hc12, hcb⟩
  · rcases hc2 : getCell b2 a.1 a.2 with _ | t
    · simp only [h, hc2]
    · simp only [h, hc2]
      rw [getAttacksForPiece_congr hocc]
  · simp only [h1, h2]
    have e1 : (t1.color == byColor) = false := by simp [hcb]
    have e2 : (t2.color == byColor) = false := by
      simp
      rw [← hc12]
      exact hcb
    simp only [e1, e2, Bool.false_and]

theorem isInCheckB_congr {b1 b2 : Board} {col : Color}
    (hrel : ∀ r c, getCell b1 r c = getCell b2 r c ∨
      (∃ t1 t2 : Piece, getCell b1 r c = some t1 ∧ getCell b2 r c = some t2 ∧
        t1.color = t2.color ∧ t1.color ≠ col.other ∧
        t1.ptype ≠ .king ∧ t2.ptype ≠ .king)) :
    isInCheckB b1 col = isInCheckB b2 col := by
  unfold isInCheckB
  rw [findKingB_congr col ?hk]
  case hk =>
    intro r c
    rcases hrel r c with h | ⟨t1, t2, h1, h2, -, -, hk1, hk2⟩
    · exact Or.inl h
    · exact Or.inr ⟨t1, t2, h1, h2, hk1, hk2⟩
  rcases findKingB b2 col with _ | k
  · rfl
  · apply isSquareAttackedB_congr
    intro r c
    rcases hrel r c with h | ⟨t1, t2, h1, h2, hc12, hcb, -, -⟩
    · exact Or.inl h
    · exact Or.inr ⟨t1, t2, h1, h2, hc12, hcb⟩

/-! ### King count preservation through `applyMoveBoard` -/

theorem moveTarget_fields (g : Game) (fr fc tr tc : Int) (piece : Piece) (mv : Move)
    (pro : Option PieceType) :
    (moveTarget g fr fc tr tc piece mv pro).board =
        applyMoveBoard g fr fc tr tc piece mv pro ∧
      (moveTarget g fr fc tr tc piece mv pro).turn = piece.color.other ∧
      (moveTarget g fr fc tr tc piece mv pro).enPassantTarget =
        (if mv.doublePawn then
          some ((if piece.color = .white then fr - 1 else fr + 1), fc) else none) :=
  ⟨rfl, rfl, rfl⟩

theorem applyMoveBoard_wf {g : Game} {fr fc tr tc : Int} {piece : Piece} {mv : Move}
    {pro : Option PieceType} (hwf : boardWf g.board) :
    boardWf (applyMoveBoard g fr fc tr tc piece mv pro) := by
  have h1 : boardWf (if piece.ptype == PieceType.pawn &&
      g.enPassantTarget == some (tr, tc) then
      setCell g.board (if piece.color = .white then tr + 1 else tr - 1) tc none
    else g.board) := by
    split
    · exact setCell_boardWf hwf _ _ _
    · exact hwf
  simp only [applyMoveBoard]
  rcases hcast : mv.castle with _ | side
  · exact setCell_boardWf (setCell_boardWf h1 _ _ _) _ _ _
  · cases side
    · exact setCell_boardWf (setCell_boardWf (setCell_boardWf
        (setCell_boardWf h1 _ _ _) _ _ _) _ _ _) _ _ _
    · exact setCell_boardWf (setCell_boardWf (setCell_boardWf
        (setCell_boardWf h1 _ _ _) _ _ _) _ _ _) _ _ _

theorem promoOptions_ne_king {pr : PieceType} (h : pr ∈ promoOptions) : pr ≠ .king := by
  simp only [promoOptions, List.mem_cons, List.mem_singleton, List.not_mem_nil,
    or_false] at h
  rcases h with h | h | h | h <;> subst h <;> simp

theorem randomPromo_ne_king (z : Fin 4) : randomPromo z ≠ .king := by
  fin_cases z <;> simp [randomPromo]

theorem kingCount_applyMoveBoard {g : Game} {fr fc : Int} {piece : Piece} {mv : Move}
    {pro : Option PieceType} (col : Color)
    (hwf : boardWf g.board)
    (hcell : getCell g.board fr fc = some piece)
    (hturn : piece.color = g.turn)
    (hmem : mv ∈ getPseudoLegalMoves g fr fc piece)
    (hep : epOk g)
    (hdest : ∀ t, getCell g.board mv.toRow mv.toCol = some t → t.ptype ≠ .king)
    (hpro : ∀ pr, pro = some pr → pr ≠ .king ∧ piece.ptype = .pawn) :
    kingCount (applyMoveBoard g fr fc mv.toRow mv.toCol piece mv pro) col =
      kingCount g.board col := by
  have hrc := getCell_bounds hcell
  obtain ⟨hbnd, hne, hprom, hocc, hcst, hkjump, hKfacts, hQfacts, hdp⟩ := pseudo_shape hmem hrc
  -- the en passant removal stage never touches a king and keeps the relevant cells
  have hb1 : ∀ b1 : Board,
      b1 = (if piece.ptype == PieceType.pawn &&
          g.enPassantTarget == some (mv.toRow, mv.toCol) then
        setCell g.board (if piece.color = .white then mv.toRow + 1 else mv.toRow - 1)
          mv.toCol none
      else g.board) →
      boardWf b1 ∧ kingCount b1 col = kingCount g.board col ∧
        getCell b1 mv.toRow mv.toCol = getCell g.board mv.toRow mv.toCol ∧
        getCell b1 fr fc = some piece := by
    intro b1 hb1e
    by_cases hepc : (piece.ptype == PieceType.pawn &&
        g.enPassantTarget == some (mv.toRow, mv.toCol)) = true
    · rw [if_pos hepc] at hb1e
      simp only [Bool.and_eq_true, beq_iff_eq] at hepc
      obtain ⟨hpawn, hept⟩ := hepc
      obtain ⟨hrow0, hpcell⟩ := hep mv.toRow mv.toCol hept
      have herEq : (if piece.color = .white then mv.toRow + 1 else mv.toRow - 1) =
          (if g.turn = .white then 3 else 4) := by
        rcases hgt : g.turn with _ | _ <;> rw [hgt] at hrow0 <;> rw [hturn, hgt] <;>
          simp at hrow0 ⊢ <;> omega
      rw [herEq] at hb1e
      subst hb1e
      have herin : (0 : Int) ≤ (if g.turn = .white then (3 : Int) else 4) ∧
          (if g.turn = .white then (3 : Int) else 4) < 8 := by
        by_cases hgt : g.turn = .white <;> simp [hgt]
      have hrowne : ¬((if g.turn = .white then (3 : Int) else 4) = mv.toRow ∧
          mv.toCol = mv.toCol) := by
        rintro ⟨he, -⟩
        rw [hrow0] at he
        by_cases hgt : g.turn = .white <;> simp [hgt] at he
      refine ⟨setCell_boardWf hwf _ _ _, ?_, ?_, ?_⟩
      · refine kingCount_setCell_keep hwf ⟨herin.1, herin.2, hbnd.2.2⟩ _ col ?_ ?_
        · intro t ht
          rw [hpcell] at ht
          injection ht with ht
          rw [← ht]
          simp
        · intro t ht
          exact Option.noConfusion ht
      · exact getCell_setCell_other hwf _ hrowne
      · have hfrne : ¬((if g.turn = .white then 3 else 4) = fr ∧ mv.toCol = fc) := by
          rintro ⟨he1, he2⟩
          rw [he1, he2] at hpcell
          rw [hpcell] at hcell
          injection hcell with hcell
          have hcc := congrArg Piece.color hcell
          simp only [] at hcc
          rw [← hcc] at hturn
          exact Color.other_ne g.turn hturn
        rw [getCell_setCell_other hwf _ hfrne]
        exact hcell
    · rw [if_neg hepc] at hb1e
      subst hb1e
      exact ⟨hwf, rfl, rfl, hcell⟩
  -- the middle stage: place `placed` on the destination, clear the origin
  have hmain : ∀ (b1 : Board) (placed : Piece),
      boardWf b1 → kingCount b1 col = kingCount g.board col →
      getCell b1 mv.toRow mv.toCol = getCell g.board mv.toRow mv.toCol →
      getCell b1 fr fc = some piece →
      ((placed = (⟨col, .king⟩ : Piece)) ↔ (piece = (⟨col, .king⟩ : Piece))) →
      kingCount (setCell (setCell b1 mv.toRow mv.toCol (some placed)) fr fc none) col =
        kingCount g.board col := by
    intro b1 placed hwf1 hc1 hdest1 hfrom1 hiff
    have h2 := kingCount_setCell hwf1 ⟨hbnd.1, hbnd.2.1, hbnd.2.2⟩ (some placed) col
    rw [hdest1] at h2
    have e2 : (if getCell g.board mv.toRow mv.toCol = some (⟨col, .king⟩ : Piece)
        then 1 else 0) = 0 := by
      rw [if_neg]
      intro hx
      exact hdest _ hx rfl
    rw [e2] at h2
    have hfrom2 : getCell (setCell b1 mv.toRow mv.toCol (some placed)) fr fc = some piece := by
      rw [getCell_setCell_other hwf1 _ hne]
      exact hfrom1
    have hwf2 := setCell_boardWf hwf1 mv.toRow mv.toCol (some placed)
    have h3 := kingCount_setCell hwf2 ⟨hrc.1, hrc.2.1, hrc.2.2.1, hrc.2.2.2⟩
      (none : Option Piece) col
    rw [hfrom2] at h3
    have e3 : (if (none : Option Piece) = some (⟨col, .king⟩ : Piece) then 1 else 0) = 0 := by
      simp
    rw [e3] at h3
    by_cases hpk : piece = (⟨col, .king⟩ : Piece)
    · rw [if_pos (show some placed = some (⟨col, .king⟩ : Piece) by
        rw [hiff.mpr hpk])] at h2
      rw [if_pos (show some piece = some (⟨col, .king⟩ : Piece) by rw [hpk])] at h3
      omega
    · rw [if_neg (show ¬some placed = some (⟨col, .king⟩ : Piece) from fun hx =>
        hpk (hiff.mp (Option.some.inj hx)))] at h2
      rw [if_neg (show ¬some piece = some (⟨col, .king⟩ : Piece) from fun hx =>
        hpk (Option.some.inj hx))] at h3
      omega
  rcases hpro0 : pro with _ | pr
  · -- no promotion substitution: the moving piece itself is placed
    rcases hcast : mv.castle with _ | side
    · simp only [applyMoveBoard, hpro0, hcast]
      obtain ⟨hwf1, hc1, hdest1, hfrom1⟩ := hb1 _ rfl
      exact hmain _ piece hwf1 hc1 hdest1 hfrom1 Iff.rfl
    · -- castling: the mover is the king, rook relocation on the home row
      have hking : piece.ptype = .king := hcst (by simp [hcast])
      have hepcF : (piece.ptype == PieceType.pawn &&
          g.enPassantTarget == some (mv.toRow, mv.toCol)) = false := by
        rw [hking]
        simp
      have hrookNeK : ∀ t : Piece, some (⟨piece.color, .rook⟩ : Piece) = some t →
          t.ptype ≠ .king := by
        intro t ht
        injection ht with ht
        rw [← ht]
        simp
      cases side
      · obtain ⟨hfr, hfc, htr, htc, h5, h6, h7⟩ := hKfacts hcast
        simp only [applyMoveBoard, hpro0, hcast, hepcF, Bool.false_eq_true, if_false]
        rw [htr, htc, hfr, hfc]
        have hcellK : getCell g.board (homeRowOf piece.color) 4 = some piece := by
          rw [← hfr, ← hfc]
          exact hcell
        have hrB : homeRowOf piece.color = 7 ∨ homeRowOf piece.color = 0 := by
          unfold homeRowOf
          split
          · exact Or.inl rfl
          · exact Or.inr rfl
        have hin6 : (0 : Int) ≤ (homeRowOf piece.color) ∧ (homeRowOf piece.color) < 8 ∧ (0 : Int) ≤ (6 : Int) ∧ (6 : Int) < 8 := by
          omega
        have hin4 : (0 : Int) ≤ (homeRowOf piece.color) ∧ (homeRowOf piece.color) < 8 ∧ (0 : Int) ≤ (4 : Int) ∧ (4 : Int) < 8 := by
          omega
        have hin5 : (0 : Int) ≤ (homeRowOf piece.color) ∧ (homeRowOf piece.color) < 8 ∧ (0 : Int) ≤ (5 : Int) ∧ (5 : Int) < 8 := by
          omega
        have hin7 : (0 : Int) ≤ (homeRowOf piece.color) ∧ (homeRowOf piece.color) < 8 ∧ (0 : Int) ≤ (7 : Int) ∧ (7 : Int) < 8 := by
          omega
        have hwf2 := setCell_boardWf hwf (homeRowOf piece.color) 6 (some piece)
        have hwf3 := setCell_boardWf hwf2 (homeRowOf piece.color) 4 (none : Option Piece)
        have h2 := kingCount_setCell hwf hin6 (some piece) col
        rw [h6] at h2
        have hc24 : getCell (setCell g.board (homeRowOf piece.color) 6 (some piece)) (homeRowOf piece.color) 4 = some piece := by
          rw [getCell_setCell_other hwf (some piece)
            (show ¬((homeRowOf piece.color) = (homeRowOf piece.color) ∧ (6 : Int) = 4) by rintro ⟨-, he⟩; omega)]
          exact hcellK
        have h3 := kingCount_setCell hwf2 hin4 (none : Option Piece) col
        rw [hc24] at h3
        have hc37 : getCell (setCell (setCell g.board (homeRowOf piece.color) 6 (some piece)) (homeRowOf piece.color) 4
            (none : Option Piece)) (homeRowOf piece.color) 7 = some ⟨piece.color, .rook⟩ := by
          rw [getCell_setCell_other hwf2 (none : Option Piece)
              (show ¬((homeRowOf piece.color) = (homeRowOf piece.color) ∧ (4 : Int) = 7) by rintro ⟨-, he⟩; omega),
            getCell_setCell_other hwf (some piece)
              (show ¬((homeRowOf piece.color) = (homeRowOf piece.color) ∧ (6 : Int) = 7) by rintro ⟨-, he⟩; omega)]
          exact h7
        rw [hc37]
        have hc35 : getCell (setCell (setCell g.board (homeRowOf piece.color) 6 (some piece)) (homeRowOf piece.color) 4
            (none : Option Piece)) (homeRowOf piece.color) 5 = none := by
          rw [getCell_setCell_other hwf2 (none : Option Piece)
              (show ¬((homeRowOf piece.color) = (homeRowOf piece.color) ∧ (4 : Int) = 5) by rintro ⟨-, he⟩; omega),
            getCell_setCell_other hwf (some piece)
              (show ¬((homeRowOf piece.color) = (homeRowOf piece.color) ∧ (6 : Int) = 5) by rintro ⟨-, he⟩; omega)]
          exact h5
        have h4 := kingCount_setCell_keep hwf3 hin5 (some ⟨piece.color, .rook⟩) col
          (by rw [hc35]; intro t ht; exact Option.noConfusion ht) hrookNeK
        have hwf4 := setCell_boardWf hwf3 (homeRowOf piece.color) 5 (some ⟨piece.color, .rook⟩)
        have hc45 : getCell (setCell (setCell (setCell g.board (homeRowOf piece.color) 6 (some piece)) (homeRowOf piece.color) 4
            (none : Option Piece)) (homeRowOf piece.color) 5 (some ⟨piece.color, .rook⟩)) (homeRowOf piece.color) 7 =
            some ⟨piece.color, .rook⟩ := by
          rw [getCell_setCell_other hwf3 (some ⟨piece.color, .rook⟩)
            (show ¬((homeRowOf piece.color) = (homeRowOf piece.color) ∧ (5 : Int) = 7) by rintro ⟨-, he⟩; omega)]
          exact hc37
        have h5k := kingCount_setCell_keep hwf4 hin7 (none : Option Piece) col
          (by rw [hc45]; intro t ht; injection ht with ht; rw [← ht]; simp)
          (fun t ht => Option.noConfusion ht)
        rw [h5k, h4]
        simp only [Option.some.injEq] at h2 h3
        have hnk : (if (none : Option Piece) = some (⟨col, .king⟩ : Piece) then 1 else 0)
            = 0 := by simp
        rw [hnk] at h2 h3
        by_cases hpk : piece = (⟨col, .king⟩ : Piece)
        · rw [if_pos hpk] at h2 h3
          omega
        · rw [if_neg hpk] at h2 h3
          omega
      · obtain ⟨hfr, hfc, htr, htc, h1c, h2c, h3c, h0⟩ := hQfacts hcast
        simp only [applyMoveBoard, hpro0, hcast, hepcF, Bool.false_eq_true, if_false]
        rw [htr, htc, hfr, hfc]
        have hcellK : getCell g.board (homeRowOf piece.color) 4 = some piece := by
          rw [← hfr, ← hfc]
          exact hcell
        have hrB : homeRowOf piece.color = 7 ∨ homeRowOf piece.color = 0 := by
          unfold homeRowOf
          split
          · exact Or.inl rfl
          · exact Or.inr rfl
        have hin2 : (0 : Int) ≤ (homeRowOf piece.color) ∧ (homeRowOf piece.color) < 8 ∧ (0 : Int) ≤ (2 : Int) ∧ (2 : Int) < 8 := by
          omega
        have hin4 : (0 : Int) ≤ (homeRowOf piece.color) ∧ (homeRowOf piece.color) < 8 ∧ (0 : Int) ≤ (4 : Int) ∧ (4 : Int) < 8 := by
          omega
        have hin3 : (0 : Int) ≤ (homeRowOf piece.color) ∧ (homeRowOf piece.color) < 8 ∧ (0 : Int) ≤ (3 : Int) ∧ (3 : Int) < 8 := by
          omega
        have hin0 : (0 : Int) ≤ (homeRowOf piece.color) ∧ (homeRowOf piece.color) < 8 ∧ (0 : Int) ≤ (0 : Int) ∧ (0 : Int) < 8 := by
          omega
        have hwf2 := setCell_boardWf hwf (homeRowOf piece.color) 2 (some piece)
        have hwf3 := setCell_boardWf hwf2 (homeRowOf piece.color) 4 (none : Option Piece)
        have h2 := kingCount_setCell hwf hin2 (some piece) col
        rw [h2c] at h2
        have hc24 : getCell (setCell g.board (homeRowOf piece.color) 2 (some piece)) (homeRowOf piece.color) 4 = some piece := by
          rw [getCell_setCell_other hwf (some piece)
            (show ¬((homeRowOf piece.color) = (homeRowOf piece.color) ∧ (2 : Int) = 4) by rintro ⟨-, he⟩; omega)]
          exact hcellK
        have h3 := kingCount_setCell hwf2 hin4 (none : Option Piece) col
        rw [hc24] at h3
        have hc37 : getCell (setCell (setCell g.board (homeRowOf piece.color) 2 (some piece)) (homeRowOf piece.color) 4
            (none : Option Piece)) (homeRowOf piece.color) 0 = some ⟨piece.color, .rook⟩ := by
          rw [getCell_setCell_other hwf2 (none : Option Piece)
              (show ¬((homeRowOf piece.color) = (homeRowOf piece.color) ∧ (4 : Int) = 0) by rintro ⟨-, he⟩; omega),
            getCell_setCell_other hwf (some piece)
              (show ¬((homeRowOf piece.color) = (homeRowOf piece.color) ∧ (2 : Int) = 0) by rintro ⟨-, he⟩; omega)]
          exact h0
        rw [hc37]
        have hc35 : getCell (setCell (setCell g.board (homeRowOf piece.color) 2 (some piece)) (homeRowOf piece.color) 4
            (none : Option Piece)) (homeRowOf piece.color) 3 = none := by
          rw [getCell_setCell_other hwf2 (none : Option Piece)
              (show ¬((homeRowOf piece.color) = (homeRowOf piece.color) ∧ (4 : Int) = 3) by rintro ⟨-, he⟩; omega),
            getCell_setCell_other hwf (some piece)
              (show ¬((homeRowOf piece.color) = (homeRowOf piece.color) ∧ (2 : Int) = 3) by rintro ⟨-, he⟩; omega)]
          exact h3c
        have h4 := kingCount_setCell_keep hwf3 hin3 (some ⟨piece.color, .rook⟩) col
          (by rw [hc35]; intro t ht; exact Option.noConfusion ht) hrookNeK
        have hwf4 := setCell_boardWf hwf3 (homeRowOf piece.color) 3 (some ⟨piece.color, .rook⟩)
        have hc45 : getCell (setCell (setCell (setCell g.board (homeRowOf piece.color) 2 (some piece)) (homeRowOf piece.color) 4
            (none : Option Piece)) (homeRowOf piece.color) 3 (some ⟨piece.color, .rook⟩)) (homeRowOf piece.color) 0 =
            some ⟨piece.color, .rook⟩ := by
          rw [getCell_setCell_other hwf3 (some ⟨piece.color, .rook⟩)
            (show ¬((homeRowOf piece.color) = (homeRowOf piece.color) ∧ (3 : Int) = 0) by rintro ⟨-, he⟩; omega)]
          exact hc37
        have h5k := kingCount_setCell_keep hwf4 hin0 (none : Option Piece) col
          (by rw [hc45]; intro t ht; injection ht with ht; rw [← ht]; simp)
          (fun t ht => Option.noConfusion ht)
        rw [h5k, h4]
        simp only [Option.some.injEq] at h2 h3
        have hnk : (if (none : Option Piece) = some (⟨col, .king⟩ : Piece) then 1 else 0)
            = 0 := by simp
        rw [hnk] at h2 h3
        by_cases hpk : piece = (⟨col, .king⟩ : Piece)
        · rw [if_pos hpk] at h2 h3
          omega
        · rw [if_neg hpk] at h2 h3
          omega
  · -- promotion substitution: an officer (never a king) replaces the pawn
    obtain ⟨hprk, hppawn⟩ := hpro pr hpro0
    have hcastN : mv.castle = none := by
      rcases hc : mv.castle with _ | s
      · rfl
      · have hk := hcst (by simp [hc])
        rw [hppawn] at hk
        exact absurd hk (by simp)
    simp only [applyMoveBoard, hpro0, hcastN]
    obtain ⟨hwf1, hc1, hdest1, hfrom1⟩ := hb1 _ rfl
    refine hmain _ ⟨piece.color, pr⟩ hwf1 hc1 hdest1 hfrom1 ?_
    constructor
    · intro h
      have hh := congrArg Piece.ptype h
      simp only [] at hh
      exact absurd hh hprk
    · intro h
      have hh := congrArg Piece.ptype h
      simp only [] at hh
      rw [hppawn] at hh
      exact absurd hh (by simp)

/-! ### The move board versus the legality filter board -/

theorem applyMoveBoard_eq_sim {g : Game} {fr fc : Int} {piece : Piece} {mv : Move}
    (hcell : getCell g.board fr fc = some piece)
    (hmem : mv ∈ getPseudoLegalMoves g fr fc piece)
    (hmvpro : mv.promotion = none) :
    applyMoveBoard g fr fc mv.toRow mv.toCol piece mv none =
      (simulateMove g fr fc mv.toRow mv.toCol none).board := by
  have hrc := getCell_bounds hcell
  obtain ⟨hbnd, hne, hprom, hocc, hcst, hkjump, hKfacts, hQfacts, hdp⟩ := pseudo_shape hmem hrc
  unfold simulateMove
  simp only [hcell]
  simp only [applyMoveBoard]
  rw [show (if piece.ptype == PieceType.pawn &&
      g.enPassantTarget == some (mv.toRow, mv.toCol) then
        setCell g.board (if piece.color = .white then mv.toRow + 1 else mv.toRow - 1)
          mv.toCol none
      else g.board) =
      (if piece.ptype = .pawn ∧ g.enPassantTarget = some (mv.toRow, mv.toCol) then
        setCell g.board (if piece.color = .white then mv.toRow + 1 else mv.toRow - 1)
          mv.toCol none
      else g.board) from ite_bool_prop (by simp) _ _]
  rcases hcast : mv.castle with _ | side
  · rw [if_neg (show ¬(piece.ptype = PieceType.king ∧
        (mv.toCol - fc = 2 ∨ fc - mv.toCol = 2)) by
      rintro ⟨hk, hj⟩
      have h2 := hkjump hk hcast
      rcases hj with hj | hj
      · exact h2.1 hj
      · exact h2.2 hj)]
  · cases side
    · obtain ⟨hfr, hfc, htr, htc, -, -, -⟩ := hKfacts hcast
      have hking := hcst (by simp [hcast])
      rw [if_pos (show piece.ptype = PieceType.king ∧
          (mv.toCol - fc = 2 ∨ fc - mv.toCol = 2) from
          ⟨hking, Or.inl (by rw [htc, hfc]; omega)⟩), if_pos htc]
    · obtain ⟨hfr, hfc, htr, htc, -, -, -, -⟩ := hQfacts hcast
      have hking := hcst (by simp [hcast])
      rw [if_pos (show piece.ptype = PieceType.king ∧
          (mv.toCol - fc = 2 ∨ fc - mv.toCol = 2) from
          ⟨hking, Or.inr (by rw [htc, hfc]; omega)⟩),
        if_neg (show ¬mv.toCol = 6 by rw [htc]; omega), if_pos htc]

theorem applyMoveBoard_sim_promo {g : Game} {fr fc : Int} {piece : Piece} {mv : Move}
    {pr chosen : PieceType}
    (hwf : boardWf g.board)
    (hcell : getCell g.board fr fc = some piece)
    (hmem : mv ∈ getPseudoLegalMoves g fr fc piece)
    (hmvpro : mv.promotion = some pr)
    (hchosen : chosen ≠ .king) :
    ∀ r0 c0,
      getCell (applyMoveBoard g fr fc mv.toRow mv.toCol piece mv (some chosen)) r0 c0 =
          getCell (simulateMove g fr fc mv.toRow mv.toCol (some pr)).board r0 c0 ∨
        ∃ t1 t2 : Piece,
          getCell (applyMoveBoard g fr fc mv.toRow mv.toCol piece mv (some chosen)) r0 c0 =
              some t1 ∧
          getCell (simulateMove g fr fc mv.toRow mv.toCol (some pr)).board r0 c0 =
              some t2 ∧
          t1.color = t2.color ∧ t1.color ≠ piece.color.other ∧
          t1.ptype ≠ .king ∧ t2.ptype ≠ .king := by
  have hrc := getCell_bounds hcell
  obtain ⟨hbnd, hne, hprom, hocc, hcst, hkjump, hKfacts, hQfacts, hdp⟩ := pseudo_shape hmem hrc
  obtain ⟨hprO, hppawn⟩ := hprom pr hmvpro
  have hcastN : mv.castle = none := by
    rcases hc : mv.castle with _ | s
    · rfl
    · have hk := hcst (by simp [hc])
      rw [hppawn] at hk
      exact absurd hk (by simp)
  have hprk : pr ≠ .king := promoOptions_ne_king hprO
  intro r0 c0
  unfold simulateMove
  simp only [hcell]
  simp only [applyMoveBoard, hcastN]
  rw [show (if piece.ptype == PieceType.pawn &&
      g.enPassantTarget == some (mv.toRow, mv.toCol) then
        setCell g.board (if piece.color = .white then mv.toRow + 1 else mv.toRow - 1)
          mv.toCol none
      else g.board) =
      (if piece.ptype = .pawn ∧ g.enPassantTarget = some (mv.toRow, mv.toCol) then
        setCell g.board (if piece.color = .white then mv.toRow + 1 else mv.toRow - 1)
          mv.toCol none
      else g.board) from ite_bool_prop (by simp) _ _]
  rw [if_neg (show ¬(piece.ptype = PieceType.king ∧
      (mv.toCol - fc = 2 ∨ fc - mv.toCol = 2)) by
    rintro ⟨hk, -⟩
    rw [hppawn] at hk
    exact absurd hk (by simp))]
  have hwf1 : boardWf (if piece.ptype = .pawn ∧
      g.enPassantTarget = some (mv.toRow, mv.toCol) then
        setCell g.board (if piece.color = .white then mv.toRow + 1 else mv.toRow - 1)
          mv.toCol none
      else g.board) := by
    split
    · exact setCell_boardWf hwf _ _ _
    · exact hwf
  by_cases hdq : mv.toRow = r0 ∧ mv.toCol = c0
  · right
    have hne2 : ¬(fr = r0 ∧ fc = c0) := by
      rintro ⟨he1, he2⟩
      exact hne ⟨hdq.1.trans he1.symm, hdq.2.trans he2.symm⟩
    refine ⟨⟨piece.color, chosen⟩, ⟨piece.color, pr⟩, ?_, ?_, rfl, ?_, ?_, ?_⟩
    · rw [getCell_setCell_other (setCell_boardWf hwf1 _ _ _) _ hne2, ← hdq.1, ← hdq.2,
        getCell_setCell_self hwf1 _ ⟨hbnd.1, hbnd.2.1⟩ ⟨hbnd.2.2.1, hbnd.2.2.2⟩]
    · rw [getCell_setCell_other (setCell_boardWf hwf1 _ _ _) _ hne2, ← hdq.1, ← hdq.2,
        getCell_setCell_self hwf1 _ ⟨hbnd.1, hbnd.2.1⟩ ⟨hbnd.2.2.1, hbnd.2.2.2⟩]
    · exact fun he => Color.other_ne piece.color he.symm
    · exact hchosen
    · exact hprk
  · left
    by_cases hfq : fr = r0 ∧ fc = c0
    · rw [← hfq.1, ← hfq.2,
        getCell_setCell_self (setCell_boardWf hwf1 _ _ _) _ ⟨hrc.1, hrc.2.1⟩
          ⟨hrc.2.2.1, hrc.2.2.2⟩,
        getCell_setCell_self (setCell_boardWf hwf1 _ _ _) _ ⟨hrc.1, hrc.2.1⟩
          ⟨hrc.2.2.1, hrc.2.2.2⟩]
    · rw [getCell_setCell_other (setCell_boardWf hwf1 _ _ _) _ hfq,
        getCell_setCell_other (setCell_boardWf hwf1 _ _ _) _ hfq,
        getCell_setCell_other hwf1 _ hdq, getCell_setCell_other hwf1 _ hdq]

/-! ### The invariant is inductive -/

theorem epOk_of_fields {g2 : Game} (b : Board) (t : Color) (e : Option (Int × Int))
    (hb : g2.board = b) (ht : g2.turn = t) (he : g2.enPassantTarget = e)
    (h : ∀ r c : Int, e = some (r, c) → r = (if t = .white then 2 else 5) ∧
      getCell b (if t = .white then 3 else 4) c = some ⟨t.other, .pawn⟩) :
    epOk g2 := by
  intro r c hrc
  rw [he] at hrc
  rw [ht, hb]
  exact h r c hrc

theorem inv_createGame : Inv createGame := by
  refine ⟨by decide, by decide, by decide, by decide, ?_⟩
  intro r c h
  simp [createGame] at h

theorem inv_step {g : Game} {fr fc tr tc : Int} {ov : Option PieceType} {rnd : Fin 4}
    (hinv : Inv g) (hov : ov ≠ some PieceType.king)
    (hv : (makeMove g fr fc tr tc ov rnd).valid = true) :
    Inv (makeMove g fr fc tr tc ov rnd).game := by
  obtain ⟨hwf, hkw, hkb, hchk, hep⟩ := hinv
  unfold makeMove at hv
  rcases hcell : getCell g.board fr fc with _ | piece
  · rw [hcell] at hv
    exact absurd hv (by simp)
  · simp only [hcell] at hv
    rcases hfind : (getLegalMoves g fr fc).find? (fun m => m.toRow == tr && m.toCol == tc)
      with _ | mv
    · simp only [hfind] at hv
      exact absurd hv (by simp)
    · clear hv
      have hpred := List.find?_some hfind
      simp only [Bool.and_eq_true, beq_iff_eq] at hpred
      obtain ⟨htr0, htc0⟩ := hpred
      subst htr0
      subst htc0
      have hmvmem := List.mem_of_find?_eq_some hfind
      obtain ⟨p2, hp2, hpturn, hpseudo, hlegal⟩ := mem_getLegalMoves hmvmem
      rw [hcell] at hp2
      injection hp2 with hp2
      subst hp2
      have hrc := getCell_bounds hcell
      have hshape := pseudo_shape hpseudo hrc
      have hdest : ∀ t, getCell g.board mv.toRow mv.toCol = some t →
          t.ptype ≠ .king := by
        intro t ht htk
        obtain ⟨htne, hatt⟩ := hshape.2.2.2.1 t ht
        have htcol : t.color = piece.color.other := Color.eq_other_of_ne htne
        have hkcell : getCell g.board mv.toRow mv.toCol =
            some ⟨piece.color.other, .king⟩ := by
          rw [ht]
          obtain ⟨tc0, tt0⟩ := t
          simp only [] at htcol htk
          rw [htcol, htk]
        have hcount : kingCount g.board piece.color.other = 1 := by
          rcases hpc : piece.color with _ | _
          · exact hkb
          · exact hkw
        have hf := findKingB_unique hwf hcount hkcell
        have hattacked := isSquareAttackedB_of_attack hcell hatt
        have hchk2 : isInCheckB g.board piece.color.other = true := by
          unfold isInCheckB
          rw [hf, Color.other_other]
          exact hattacked
        have hchk3 : isInCheckB g.board (g.turn.other) = false := hchk
        rw [← hpturn] at hchk3
        rw [hchk3] at hchk2
        exact Bool.noConfusion hchk2
      have hpro2 : ∀ pr, promotionChoice mv ov rnd = some pr →
          pr ≠ .king ∧ piece.ptype = .pawn := by
        intro pr hpr
        rcases hmp : mv.promotion with _ | pr0
        · have hproN : promotionChoice mv ov rnd = none := by
            simp only [promotionChoice, hmp]
          rw [hproN] at hpr
          exact absurd hpr (by simp)
        · have hpp := (hshape.2.2.1 pr0 hmp).2
          have hproS : promotionChoice mv ov rnd =
              some (ov.getD (randomPromo rnd)) := by
            simp only [promotionChoice, hmp]
            rcases ov with _ | p <;> rfl
          rw [hproS] at hpr
          have hpr2 := Option.some.inj hpr
          refine ⟨?_, hpp⟩
          rw [← hpr2]
          rcases hov0 : ov with _ | p
          · exact randomPromo_ne_king rnd
          · intro he
            apply hov
            rw [hov0]
            exact congrArg some he
      obtain ⟨rec, hres, -, -, -⟩ :=
        makeMove_some g fr fc mv.toRow mv.toCol ov rnd piece mv hcell hfind
      rw [hres]
      unfold Inv
      refine ⟨?_, ?_, ?_, ?_, ?_⟩
      · show boardWf (applyMoveBoard g fr fc mv.toRow mv.toCol piece mv
          (promotionChoice mv ov rnd))
        exact applyMoveBoard_wf hwf
      · show kingCount (applyMoveBoard g fr fc mv.toRow mv.toCol piece mv
          (promotionChoice mv ov rnd)) .white = 1
        rw [kingCount_applyMoveBoard .white hwf hcell hpturn hpseudo hep hdest hpro2]
        exact hkw
      · show kingCount (applyMoveBoard g fr fc mv.toRow mv.toCol piece mv
          (promotionChoice mv ov rnd)) .black = 1
        rw [kingCount_applyMoveBoard .black hwf hcell hpturn hpseudo hep hdest hpro2]
        exact hkb
      · show isInCheckB (applyMoveBoard g fr fc mv.toRow mv.toCol piece mv
          (promotionChoice mv ov rnd)) piece.color.other.other = false
        rw [Color.other_other]
        rcases hmp : mv.promotion with _ | pr
        · have hproN : promotionChoice mv ov rnd = none := by
            simp only [promotionChoice, hmp]
          rw [hproN, applyMoveBoard_eq_sim hcell hpseudo hmp]
          rw [hmp] at hlegal
          exact hlegal
        · rw [hmp] at hlegal
          have hproS : promotionChoice mv ov rnd =
              some (ov.getD (randomPromo rnd)) := by
            simp only [promotionChoice, hmp]
            rcases ov with _ | p <;> rfl
          have hchne : ov.getD (randomPromo rnd) ≠ PieceType.king := by
            rcases hov0 : ov with _ | p
            · exact randomPromo_ne_king rnd
            · intro he
              apply hov
              rw [hov0]
              exact congrArg some he
          rw [hproS,
            isInCheckB_congr (applyMoveBoard_sim_promo hwf hcell hpseudo hmp hchne)]
          exact hlegal
      · refine epOk_of_fields (applyMoveBoard g fr fc mv.toRow mv.toCol piece mv
          (promotionChoice mv ov rnd)) piece.color.other
          (if mv.doublePawn then
            some ((if piece.color = .white then fr - 1 else fr + 1), fc) else none)
          rfl rfl rfl ?_
        intro r c h
        rcases hdp0 : mv.doublePawn with _ | _
        · rw [hdp0] at h
          simp at h
        · obtain ⟨hdpawn, hdfr, hdtr, hdtc, hdpromo⟩ := hshape.2.2.2.2.2.2.2.2 hdp0
          rw [hdp0] at h
          simp only [if_true] at h
          injection h with h
          injection h with h1 h2
          have hproN : promotionChoice mv ov rnd = none := by
            simp only [promotionChoice, hdpromo]
          have hcastN : mv.castle = none := by
            rcases hc : mv.castle with _ | side
            · rfl
            · have hk := hshape.2.2.2.2.1 (by simp [hc])
              rw [hdpawn] at hk
              exact absurd hk (by simp)
          have hdirv : pawnDir piece.color = -1 ∨ pawnDir piece.color = 1 := by
            rcases hpc : piece.color with _ | _ <;> simp [pawnDir]
          have hepcF : (piece.ptype == PieceType.pawn &&
              g.enPassantTarget == some (mv.toRow, mv.toCol)) = false := by
            rcases hge : g.enPassantTarget with _ | ep0
            · simp
            · obtain ⟨hr0, -⟩ := hep ep0.1 ep0.2 (by rw [hge])
              have hgt : g.turn = piece.color := hpturn.symm
              have htrv : mv.toRow ≠ ep0.1 := by
                rw [hdtr, hdfr, hr0, hgt]
                rcases hpc : piece.color with _ | _ <;>
                  simp [pawnStartRow, pawnDir] <;> omega
              have hbne : ((some ep0 : Option (Int × Int)) ==
                  some (mv.toRow, mv.toCol)) = false := by
                simp only [beq_eq_false_iff_ne, ne_eq, Option.some.injEq]
                intro he
                exact htrv (by rw [he])
              rw [hbne, Bool.and_false]
          have hpieceEq : piece = ⟨piece.color, .pawn⟩ := by
            obtain ⟨pc0, pt0⟩ := piece
            exact congrArg (Piece.mk pc0) hdpawn
          constructor
          · rw [← h1, hdfr]
            rcases hpc : piece.color with _ | _ <;> simp [pawnStartRow, Color.other]
          · have hrow : (if piece.color.other = .white then (3 : Int) else 4) =
                mv.toRow := by
              rw [hdtr, hdfr]
              rcases hpc : piece.color with _ | _ <;>
                simp [Color.other, pawnStartRow, pawnDir]
            rw [Color.other_other, hrow, ← h2, hproN]
            simp only [applyMoveBoard, hepcF, Bool.false_eq_true, if_false, hcastN]
            have hfrne : ¬(fr = mv.toRow ∧ fc = fc) := by
              rintro ⟨he, -⟩
              rw [hdtr] at he
              omega
            rw [getCell_setCell_other (setCell_boardWf hwf _ _ _) _ hfrne, hdtc,
              getCell_setCell_self hwf _ ⟨hshape.1.1, hshape.1.2.1⟩
                ⟨hrc.2.2.1, hrc.2.2.2⟩]
            rw [hpieceEq]

theorem reachable_safe_inv {g : Game} (h : ReachableSafe g) : Inv g := by
  induction h with
  | init => exact inv_createGame
  | step fr fc tr tc ov rnd hg hov hv ih => exact inv_step ih hov hv

/-- C4 (counterexample): the promotion override is applied unvalidated, so the
game 1. a4 b5 2. axb5 a6 3. bxa6 Nc6 4. a7 Rb8 5. axb8 with the override set
to the king code is a sequence of validated `makeMove` calls from the initial
position that ends with two White kings on the board. -/
theorem two_white_kings_reachable :
    Reachable c4g9 ∧ kingCount c4g9.board .white = 2 := by
  refine ⟨?_, by decide⟩
  have h1 : Reachable c4g1 := Reachable.step 6 0 4 0 none 0 Reachable.init (by decide)
  have h2 : Reachable c4g2 := Reachable.step 1 1 3 1 none 0 h1 (by decide)
  have h3 : Reachable c4g3 := Reachable.step 4 0 3 1 none 0 h2 (by decide)
  have h4 : Reachable c4g4 := Reachable.step 1 0 2 0 none 0 h3 (by decide)
  have h5 : Reachable c4g5 := Reachable.step 3 1 2 0 none 0 h4 (by decide)
  have h6 : Reachable c4g6 := Reachable.step 0 1 2 2 none 0 h5 (by decide)
  have h7 : Reachable c4g7 := Reachable.step 2 0 1 0 none 0 h6 (by decide)
  have h8 : Reachable c4g8 := Reachable.step 0 0 0 1 none 0 h7 (by decide)
  exact Reachable.step 1 0 0 1 (some PieceType.king) 0 h8 (by decide)

/-- C4 (amended): every game state reachable from the standard initial
position by validated `makeMove` calls whose promotion override is never the
king code has exactly one king of each color on the board. -/
theorem reachable_one_king_per_color (g : Game) (h : ReachableSafe g) :
    kingCount g.board .white = 1 ∧ kingCount g.board .black = 1 :=
  ⟨(reachable_safe_inv h).2.1, (reachable_safe_inv h).2.2.1⟩

/-- Witness for C4: after 1. e4 from the initial position there is exactly one
king of each color. -/
theorem reachable_one_king_per_color_witness :
    kingCount (makeMove createGame 6 4 4 4 none 0).game.board .white = 1 ∧
      kingCount (makeMove createGame 6 4 4 4 none 0).game.board .black = 1 :=
  reachable_one_king_per_color _
    (ReachableSafe.step 6 4 4 4 none 0 ReachableSafe.init (by simp) (by decide))

end Chess